import Mathlib

/-! # query-genie-js: schema extraction, model names and response clean-up

A shallow embedding of the pure functions of `src/app.js`
(`extractSchemaSummary`, `toModelName`, `buildRailsModelNames`, `cleanSql`,
`cleanRails` and the user message assembled in `generate`).

A JavaScript string is modelled as a list of characters.  The regular
expressions of the source are kept as syntax trees (`Re`) and run by a
backtracking matcher that lists every way a pattern can match at a position in
the order in which a backtracking engine tries them, so that the first element
is the match the engine reports.
-/

namespace QueryGenie

/-- A JavaScript string. -/
abbrev Str := List Char

/-! ## Character classes -/

/-- The class `\s`, which is also the set removed by `String.prototype.trim`:
white space (TAB, VT, FF, SP, NBSP, ZWNBSP, the space separators) and line
terminators (LF, CR, LS, PS). -/
def isSpace (c : Char) : Bool :=
  let n := c.toNat
  n == 9 || n == 10 || n == 11 || n == 12 || n == 13 || n == 32 || n == 160 ||
  n == 5760 || (8192 ≤ n && n ≤ 8202) || n == 8232 || n == 8233 || n == 8239 ||
  n == 8287 || n == 12288 || n == 65279

/-- The class `\w`: `[A-Za-z0-9_]`. -/
def isWord (c : Char) : Bool :=
  let n := c.toNat
  (48 ≤ n && n ≤ 57) || (65 ≤ n && n ≤ 90) || n == 95 || (97 ≤ n && n ≤ 122)

/-- The class `.`: every character but a line terminator. -/
def isDot (c : Char) : Bool :=
  let n := c.toNat
  !(n == 10 || n == 13 || n == 8232 || n == 8233)

/-- The class `["']`. -/
def isQuote (c : Char) : Bool :=
  c == '"' || c == '\''

/-- A pattern letter under the `i` flag (without the `u` flag): an input
character matches when it is the letter in either ASCII case. -/
def ciEq (a c : Char) : Bool :=
  c.toUpper == a.toUpper

/-! ## Regular expressions -/

/-- Syntax of the regular expressions used by the source.  Every quantified
atom of the source is a character class, so `star` takes a class. -/
inductive Re where
  | eps : Re
  | bol : Re
  | eol : Re
  | cls : (Char → Bool) → Re
  | star : (Char → Bool) → Re
  | seq : Re → Re → Re
  | alt : Re → Re → Re
  | opt : Re → Re
  | grp : Nat → Re → Re

/-- A matcher state: the index reached, the input left, the captures made. -/
structure MState where
  pos : Nat
  rest : Str
  caps : List (Nat × Str)

/-- Greedy `c*`: the longest run first, then every shorter one. -/
def starRuns (p : Char → Bool) (caps : List (Nat × Str)) : Nat → Str → List MState
  | pos, [] => [⟨pos, [], caps⟩]
  | pos, c :: cs =>
    if p c then starRuns p caps (pos + 1) cs ++ [⟨pos, c :: cs, caps⟩]
    else [⟨pos, c :: cs, caps⟩]

/-- All the ways `r` matches from state `s`, in backtracking order. -/
def Re.run : Re → MState → List MState
  | .eps, s => [s]
  | .bol, s => if s.pos = 0 then [s] else []
  | .eol, s => if s.rest.isEmpty then [s] else []
  | .cls p, s =>
    match s.rest with
    | [] => []
    | c :: cs => if p c then [⟨s.pos + 1, cs, s.caps⟩] else []
  | .star p, s => starRuns p s.caps s.pos s.rest
  | .seq a b, s => (a.run s).flatMap b.run
  | .alt a b, s => a.run s ++ b.run s
  | .opt a, s => a.run s ++ [s]
  | .grp n a, s =>
    (a.run s).map fun t => ⟨t.pos, t.rest, (n, s.rest.take (t.pos - s.pos)) :: t.caps⟩

/-- Concatenation of a list of patterns. -/
def Re.cat : List Re → Re
  | [] => .eps
  | r :: rs => .seq r (Re.cat rs)

/-- Alternation of a non-empty list of patterns, left to right. -/
def Re.alts : List Re → Re
  | [] => .cls fun _ => false
  | [r] => r
  | r :: rs => .alt r (Re.alts rs)

/-- Greedy `c+`. -/
def Re.plus (p : Char → Bool) : Re :=
  .seq (.cls p) (.star p)

/-- A literal text, case-sensitive. -/
def Re.str (s : String) : Re :=
  Re.cat (s.toList.map fun a => .cls fun c => c == a)

/-- A literal text under the `i` flag. -/
def Re.stri (s : String) : Re :=
  Re.cat (s.toList.map fun a => .cls (ciEq a))

/-- The result of a successful match: where it starts and ends, and its
captures. -/
structure Match where
  start : Nat
  stop : Nat
  caps : List (Nat × Str)
  deriving DecidableEq

/-- The text captured by group `n`, `none` when the group took no part
(the JavaScript value `undefined`). -/
def Match.group (m : Match) (n : Nat) : Option Str :=
  (m.caps.find? fun p => p.1 == n).map Prod.snd

/-- The search of `RegExp.prototype.exec`: try every start index from `pos`
on, left to right, and report the first match found. -/
def execFrom (r : Re) : Nat → Str → Option Match
  | pos, [] => ((r.run ⟨pos, [], []⟩).head?).map fun t => ⟨pos, t.pos, t.caps⟩
  | pos, c :: cs =>
    match (r.run ⟨pos, c :: cs, []⟩).head? with
    | some t => some ⟨pos, t.pos, t.caps⟩
    | none => execFrom r (pos + 1) cs

/-- The call `s.match(r)` for a pattern without the `g` flag. -/
def reMatch (r : Re) (s : Str) : Option Match :=
  execFrom r 0 s

/-- The call `r.test(s)`. -/
def reTest (r : Re) (s : Str) : Bool :=
  (reMatch r s).isSome

/-- The call `s.replace(r, '')` for a pattern without the `g` flag: the first
match is cut out. -/
def replaceEmpty (r : Re) (s : Str) : Str :=
  match reMatch r s with
  | some m => s.take m.start ++ s.drop m.stop
  | none => s

/-! ## String helpers -/

/-- The method `String.prototype.trim`. -/
def trim (s : Str) : Str :=
  ((s.dropWhile isSpace).reverse.dropWhile isSpace).reverse

/-- The call `s.split('\n')`. -/
def splitLines : Str → List Str
  | [] => [[]]
  | c :: cs =>
    if c = '\n' then [] :: splitLines cs
    else
      match splitLines cs with
      | [] => [[c]]
      | l :: ls => (c :: l) :: ls

/-- The call `xs.join(sep)`. -/
def join (sep : Str) : List Str → Str
  | [] => []
  | [x] => x
  | x :: y :: ys => x ++ sep ++ join sep (y :: ys)

/-- The method `String.prototype.toUpperCase` on the ASCII range.  The source
applies it to captures of `(\w+)` and to the first character of a table
identifier, which are ASCII. -/
def toUpperCase (s : Str) : Str :=
  s.map Char.toUpper

/-- Comparison of two strings by code units, the order of the default
`Array.prototype.sort`. -/
def strLe : Str → Str → Bool
  | [], _ => true
  | _ :: _, [] => false
  | a :: as, b :: bs => a.toNat < b.toNat || (a.toNat == b.toNat && strLe as bs)

/-- Insertion into a list sorted by `le`. -/
def insertSorted {α : Type} (le : α → α → Bool) (x : α) : List α → List α
  | [] => [x]
  | y :: ys => if le x y then x :: y :: ys else y :: insertSorted le x ys

/-- A sort by `le`. -/
def sortBy {α : Type} (le : α → α → Bool) (xs : List α) : List α :=
  xs.foldr (insertSorted le) []

/-! ## The patterns of the source -/

/-- The pattern `\s+`. -/
def sp1 : Re := Re.plus isSpace

/-- The pattern `\s*`. -/
def sp0 : Re := .star isSpace

/-- The pattern `["']?`. -/
def optQuote : Re := .opt (.cls isQuote)

/-- The pattern `["']?(\w+)["']?` with capture group `n`. -/
def quotedWord (n : Nat) : Re :=
  Re.cat [optQuote, .grp n (Re.plus isWord), optQuote]

/-- The pattern `/CREATE\s+TABLE\s+(?:IF\s+NOT\s+EXISTS\s+)?["']?(\w+)["']?/i`. -/
def createRe : Re :=
  Re.cat [Re.stri "CREATE", sp1, Re.stri "TABLE", sp1,
    .opt (Re.cat [Re.stri "IF", sp1, Re.stri "NOT", sp1, Re.stri "EXISTS", sp1]),
    quotedWord 1]

/-- The pattern `/^\s*["']?(\w+)["']?\s+/`. -/
def colRe : Re :=
  Re.cat [.bol, sp0, quotedWord 1, sp1]

/-- The pattern `/^\s*(CONSTRAINT|PRIMARY|FOREIGN|KEY|UNIQUE|CHECK|INDEX)/i`. -/
def kwRe : Re :=
  Re.cat [.bol, sp0,
    .grp 1 (Re.alts [Re.stri "CONSTRAINT", Re.stri "PRIMARY", Re.stri "FOREIGN",
      Re.stri "KEY", Re.stri "UNIQUE", Re.stri "CHECK", Re.stri "INDEX"])]

/-- The pattern `/PRIMARY\s+KEY\s*\(["']?(\w+)["']?\)/i`. -/
def pkTableRe : Re :=
  Re.cat [Re.stri "PRIMARY", sp1, Re.stri "KEY", sp0, Re.str "(", quotedWord 1, Re.str ")"]

/-- The pattern `/^\s*["']?(\w+)["']?\s+.*PRIMARY\s+KEY/i`. -/
def pkInlineRe : Re :=
  Re.cat [.bol, sp0, quotedWord 1, sp1, .star isDot, Re.stri "PRIMARY", sp1, Re.stri "KEY"]

/-- The tail `REFERENCES\s+["']?(\w+)["']?\s*\(["']?(\w+)["']?\)` shared by the
two foreign-key patterns. -/
def referencesTail : Re :=
  Re.cat [Re.stri "REFERENCES", sp1, quotedWord 2, sp0, Re.str "(", quotedWord 3, Re.str ")"]

/-- The pattern
`/FOREIGN\s+KEY\s*\(["']?(\w+)["']?\)\s+REFERENCES\s+["']?(\w+)["']?\s*\(["']?(\w+)["']?\)/i`. -/
def fkTableRe : Re :=
  Re.cat [Re.stri "FOREIGN", sp1, Re.stri "KEY", sp0, Re.str "(", quotedWord 1, Re.str ")",
    sp1, referencesTail]

/-- The pattern
`/^\s*["']?(\w+)["']?\s+.*REFERENCES\s+["']?(\w+)["']?\s*\(["']?(\w+)["']?\)/i`. -/
def fkInlineRe : Re :=
  Re.cat [.bol, sp0, quotedWord 1, sp1, .star isDot, referencesTail]

/-- The set `skipKeywords`. -/
def skipKeywords : List Str :=
  ["CONSTRAINT".toList, "PRIMARY".toList, "FOREIGN".toList, "KEY".toList, "UNIQUE".toList,
    "CHECK".toList, "INDEX".toList, "CREATE".toList, "ALTER".toList, "DROP".toList]

/-! ## The schema model -/

/-- The value stored per table: `{ columns, primaryKey }`. -/
structure TableInfo where
  columns : List Str
  primaryKey : Option Str
  deriving DecidableEq

/-- An element of `relationships`.  `fromColumn` and `toTable` are captures
(`none` is `undefined`); `toColumn` is a string after `|| 'id'`. -/
structure Relationship where
  fromTable : Str
  fromColumn : Option Str
  toTable : Option Str
  toColumn : Str
  deriving DecidableEq

/-- The state of the loop of `extractSchemaSummary`.  The object `tables` is
its own properties in creation order together with the object installed as its
prototype: an assignment to the key `__proto__` of a plain object sets the
prototype and creates no own property. -/
structure ExState where
  tables : List (Str × TableInfo)
  proto : Option TableInfo
  relationships : List Relationship
  currentTable : Option Str
  deriving DecidableEq

/-- The key `__proto__`. -/
def protoKey : Str := "__proto__".toList

/-- Conversion of a capture to a property key or to template text. -/
def toStr : Option Str → Str
  | some s => s
  | none => "undefined".toList

/-- Truthiness of a value that is a string, `null` or `undefined`. -/
def truthy : Option Str → Bool
  | some s => !s.isEmpty
  | none => false

/-- Assignment of an own property: an existing key keeps its place. -/
def setOwn (k : Str) (v : TableInfo) : List (Str × TableInfo) → List (Str × TableInfo)
  | [] => [(k, v)]
  | (k1, v1) :: rest => if k1 = k then (k, v) :: rest else (k1, v1) :: setOwn k v rest

/-- The assignment `tables[k] = v`. -/
def tablesSet (st : ExState) (k : Str) (v : TableInfo) : ExState :=
  if k = protoKey then { st with proto := some v }
  else { st with tables := setOwn k v st.tables }

/-- The read `tables[k]` of a key assigned before. -/
def tablesGet (st : ExState) (k : Str) : Option TableInfo :=
  if k = protoKey then st.proto
  else (st.tables.find? fun p => p.1 = k).map Prod.snd

/-- An update in place of the object `tables[k]`. -/
def tablesModify (st : ExState) (k : Str) (f : TableInfo → TableInfo) : ExState :=
  if k = protoKey then { st with proto := st.proto.map f }
  else { st with tables := st.tables.map fun p => if p.1 = k then (p.1, f p.2) else p }

/-- Lines 29-35: the column pattern.  Group 1 of `colRe` takes part in every
match, so `col` is a string. -/
def columnStep (trimmed : Str) (info : TableInfo) : TableInfo :=
  match reMatch colRe trimmed with
  | none => info
  | some m =>
    match m.group 1 with
    | none => info
    | some col =>
      if !skipKeywords.contains (toUpperCase col) && !reTest kwRe trimmed then
        if !info.columns.contains col then { info with columns := info.columns ++ [col] }
        else info
      else info

/-- Line 36: `pkMatch`. -/
def pkMatch (trimmed : Str) : Option Match :=
  (reMatch pkTableRe trimmed).orElse fun _ => reMatch pkInlineRe trimmed

/-- Lines 36-37: the primary-key patterns. -/
def pkStep (trimmed : Str) (info : TableInfo) : TableInfo :=
  match pkMatch trimmed with
  | none => info
  | some m => { info with primaryKey := m.group 1 }

/-- Line 38: `fkMatch`. -/
def fkMatch (trimmed : Str) : Option Match :=
  (reMatch fkTableRe trimmed).orElse fun _ => reMatch fkInlineRe trimmed

/-- Lines 38-46: the relationships pushed by a line, none or one. -/
def fkStep (currentTable trimmed : Str) : List Relationship :=
  match fkMatch trimmed with
  | none => []
  | some m =>
    [{ fromTable := currentTable, fromColumn := m.group 1, toTable := m.group 2,
       toColumn := if truthy (m.group 3) then toStr (m.group 3) else "id".toList }]

/-- Line 19: the lines skipped by the loop. -/
def skipLine (trimmed : Str) : Bool :=
  trimmed.isEmpty || "--".toList.isPrefixOf trimmed || "/*".toList.isPrefixOf trimmed

/-- One iteration of the loop of lines 17-48. -/
def processLine (st : ExState) (line : Str) : ExState :=
  let trimmed := trim line
  if skipLine trimmed then st
  else
    match reMatch createRe trimmed with
    | some m =>
      tablesSet { st with currentTable := m.group 1 } (toStr (m.group 1)) ⟨[], none⟩
    | none =>
      if truthy st.currentTable then
        let cur := toStr st.currentTable
        let st1 := tablesModify st cur fun info => pkStep trimmed (columnStep trimmed info)
        { st1 with relationships := st1.relationships ++ fkStep cur trimmed }
      else st

/-- The state before the loop. -/
def initState : ExState :=
  ⟨[], none, [], none⟩

/-- The loop of lines 17-48 over the lines of the text. -/
def extractModel (schemaText : Str) : ExState :=
  (splitLines schemaText).foldl processLine initState

/-! ## Enumeration of the tables and rendering -/

/-- The numeric value of a string of decimal digits. -/
def digitsValue (k : Str) : Nat :=
  k.foldl (fun n c => 10 * n + (c.toNat - 48)) 0

/-- A property key is an array index when it is the canonical decimal numeral
of an integer below `2^32 - 1`. -/
def isArrayIndex (k : Str) : Bool :=
  !k.isEmpty && k.all Char.isDigit && (k.length == 1 || k.head? != some '0') &&
    decide (digitsValue k < 4294967295)

/-- The order of `Object.keys` and `Object.entries`: the own properties whose
key is an array index in ascending numeric order, then the others in creation
order. -/
def ownEntries (tables : List (Str × TableInfo)) : List (Str × TableInfo) :=
  sortBy (fun p q => decide (digitsValue p.1 ≤ digitsValue q.1))
      (tables.filter fun p => isArrayIndex p.1) ++
    tables.filter fun p => !isArrayIndex p.1

/-- Line 50: `Object.keys(tables).sort()`. -/
def tableNamesOf (st : ExState) : List Str :=
  sortBy strLe ((ownEntries st.tables).map Prod.fst)

/-- Lines 56-58: the block of one table. -/
def renderTable (table : Str) (info : TableInfo) : Str :=
  "\nTable: ".toList ++ table ++ "\n".toList ++
    (if truthy info.primaryKey then
      "  Primary Key: ".toList ++ toStr info.primaryKey ++ "\n".toList
     else []) ++
    "  Columns: ".toList ++
    (if info.columns.length != 0 then join ", ".toList info.columns
     else "(none found)".toList) ++
    "\n".toList

/-- Line 64: the text of one relationship. -/
def renderRelationship (r : Relationship) : Str :=
  "\n".toList ++ r.fromTable ++ ".".toList ++ toStr r.fromColumn ++ " -> ".toList ++
    toStr r.toTable ++ ".".toList ++ r.toColumn ++ "\n  (Join: ".toList ++
    r.fromTable ++ ".".toList ++ toStr r.fromColumn ++ " = ".toList ++
    toStr r.toTable ++ ".".toList ++ r.toColumn ++ ")\n".toList

/-- Line 51: the header of the summary. -/
def summaryHeader (tableNames : List Str) : Str :=
  "AVAILABLE TABLE NAMES (use ONLY these exact names): ".toList ++
    join ", ".toList tableNames ++ "\n\nAvailable Tables and Columns:\n".toList

/-- The text appended when no table name was found. -/
def noTablesText : Str :=
  "No tables found in schema. Please ensure the schema contains CREATE TABLE statements.".toList

/-- Lines 52-60: the table part of the summary. -/
def renderTables (st : ExState) : Str :=
  if (tableNamesOf st).length == 0 then noTablesText
  else ((ownEntries st.tables).map fun p => renderTable p.1 p.2).flatten

/-- Lines 61-66: the relationships part of the summary. -/
def renderRelationships (rels : List Relationship) : Str :=
  if rels.length != 0 then
    "\n\nTable Relationships:\n".toList ++ (rels.map renderRelationship).flatten
  else []

/-- Lines 50-66: the summary of a model. -/
def renderSummary (st : ExState) : Str :=
  summaryHeader (tableNamesOf st) ++ renderTables st ++ renderRelationships st.relationships

/-- The value returned by `extractSchemaSummary`. -/
structure Extraction where
  schemaSummary : Str
  tableNames : List Str
  deriving DecidableEq

/-- The function `extractSchemaSummary`. -/
def extractSchemaSummary (schemaText : Str) : Extraction :=
  if schemaText.isEmpty || (trim schemaText).isEmpty then
    ⟨"No schema provided".toList, []⟩
  else
    let st := extractModel schemaText
    ⟨renderSummary st, tableNamesOf st⟩

/-! ## Model names and response clean-up -/

/-- The function `toModelName`. -/
def toModelName (table : Str) : Str :=
  let singular := replaceEmpty (Re.cat [Re.str "s", .eol]) table
  toUpperCase (singular.take 1) ++ singular.drop 1

/-- The function `buildRailsModelNames`. -/
def buildRailsModelNames (tableNames : List Str) : Str :=
  join ", ".toList
    (tableNames.map fun t => toModelName t ++ " (from table: ".toList ++ t ++ ")".toList)

/-- The chain of replacements shared by `cleanSql` and `cleanRails`, for the
language tag `tag`. -/
def cleanFenced (tag : String) (text : Str) : Str :=
  if text.isEmpty then []
  else
    let t1 := replaceEmpty (Re.cat [.bol, Re.str "```", Re.str tag, sp0]) text
    let t2 := replaceEmpty (Re.cat [.bol, Re.str "```", sp0]) t1
    let t3 := replaceEmpty (Re.cat [sp0, Re.str "```", .eol]) t2
    let t4 := replaceEmpty (Re.cat [.bol, Re.str "`"]) t3
    let t5 := replaceEmpty (Re.cat [Re.str "`", .eol]) t4
    trim t5

/-- The function `cleanSql`. -/
def cleanSql (text : Str) : Str :=
  cleanFenced "sql" text

/-- The function `cleanRails`. -/
def cleanRails (text : Str) : Str :=
  cleanFenced "ruby" text

/-! ## The user message of `generate` -/

/-- The fixed text that closes the user message of the query-language style
(line 139, after the user request). -/
def sqlProcessText : Str :=
  ("\n\n=== REQUIRED PROCESS (FOLLOW IN ORDER) ===\n" ++
    "1. TABLE NAME IDENTIFICATION (REQUIRED FIRST): Look at 'AVAILABLE TABLE NAMES' above. " ++
    "Find the exact table name that matches the user's request. " ++
    "If user says 'organizations' but only 'accounts' exists, use 'accounts'. " ++
    "If user says 'users' but only 'accounts' exists, use 'accounts'. " ++
    "DO NOT use 'organizations' or 'users' if they are NOT in the list.\n" ++
    "2. SIMPLICITY: For 'get all X' requests, " ++
    "use SELECT * FROM [exact_table_name_from_step_1].\n" ++
    "3. JOINS: Only join if explicitly needed.\n" ++
    "4. COLUMNS: Only specify columns if explicitly requested.\n" ++
    "5. VALIDATION: Double-check every table/column name exists in the schema above.\n" ++
    "6. OUTPUT: Generate only the SQL query, nothing else.").toList

/-- Lines 136-139 of `generate`: the user message of the query-language style
for a schema text and a request that passed the checks of lines 120-134. -/
def sqlUserContent (schemaText prompt : Str) : Str :=
  let e := extractSchemaSummary schemaText
  "=== AVAILABLE TABLE NAMES (USE ONLY THESE EXACT NAMES) ===\n".toList ++
    join ", ".toList e.tableNames ++
    "\n\n=== FULL SCHEMA DETAILS ===\n".toList ++ e.schemaSummary ++
    "\n\n=== FULL SCHEMA DEFINITION ===\n".toList ++ schemaText ++
    "\n\n=== USER REQUEST ===\n".toList ++ prompt ++ sqlProcessText

/-! ## Vocabulary of the statements -/

/-- The identifier a line creates: the property key assigned at line 24 when
the line is processed and matches the table-creation pattern. -/
def createdKey (line : Str) : Option Str :=
  if skipLine (trim line) then none
  else (reMatch createRe (trim line)).map fun m => toStr (m.group 1)

/-- The column list of a table is free of reserved words. -/
def NoReserved (info : TableInfo) : Prop :=
  ∀ col ∈ info.columns, ∀ kw ∈ skipKeywords, toUpperCase col ≠ kw

/-- Every table of a state has a column list free of reserved words. -/
def AllNoReserved (st : ExState) : Prop :=
  (∀ p ∈ st.tables, NoReserved p.2) ∧ ∀ info, st.proto = some info → NoReserved info

/-- The identifiers created by the lines of a text, in the order of the
lines. -/
def createdKeys (schemaText : Str) : List Str :=
  (splitLines schemaText).filterMap createdKey

/-- Adding an identifier to a list of distinct identifiers: a new one goes to
the end, a known one changes nothing. -/
def addKey (acc : List Str) (k : Str) : List Str :=
  if k ∈ acc then acc else acc ++ [k]

/-- The distinct identifiers of a list in the order of their first
occurrence. -/
def firstSeen (ks : List Str) : List Str :=
  ks.foldl addKey []

/-- The order in which the summary lists a sequence of distinct identifiers:
those that are array indices in ascending numeric order, then the others in
the order given. -/
def blockOrder (ks : List Str) : List Str :=
  sortBy (fun a b => decide (digitsValue a ≤ digitsValue b)) (ks.filter isArrayIndex) ++
    ks.filter fun k => !isArrayIndex k

/-- The newest capture of a matcher state is a non-empty capture of group 3. -/
def BindsTarget (t : MState) : Prop :=
  ∃ w older, t.caps = (3, w) :: older ∧ w ≠ []

/-! ## Calls with an absent argument -/

/-- The function `extractSchemaSummary` called with a value that may be absent
(`undefined` or `null`, here `none`): line 10 returns at once for it. -/
def extractSchemaSummaryArg (schemaText : Option Str) : Extraction :=
  match schemaText with
  | none => ⟨"No schema provided".toList, []⟩
  | some s => extractSchemaSummary s

/-- The function `cleanSql` called with a value that may be absent: line 80
returns the empty string for it. -/
def cleanSqlArg (text : Option Str) : Str :=
  match text with
  | none => []
  | some s => cleanSql s

/-- The function `cleanRails` called with a value that may be absent: line 85
returns the empty string for it. -/
def cleanRailsArg (text : Option Str) : Str :=
  match text with
  | none => []
  | some s => cleanRails s

/-! ## The model name in the words of the specification -/

/-- Naive singularization: one trailing literal `s` is removed if present. -/
def stripTrailingS (t : Str) : Str :=
  if t.getLast? = some 's' then t.dropLast else t

/-- The first character is upper-cased, the rest is kept. -/
def capitalizeFirst : Str → Str
  | [] => []
  | c :: cs => c.toUpper :: cs

/-- One entry of the disclosed list: `ModelName (from table: table_name)`. -/
def modelNameEntry (t : Str) : Str :=
  capitalizeFirst (stripTrailingS t) ++ " (from table: ".toList ++ t ++ ")".toList

/-! ## Vocabulary of the statements on lines and blocks -/

/-- The text `x` begins with the letters `w` in either case. -/
def ciPrefixOf : Str → Str → Bool
  | [], _ => true
  | _ :: _, [] => false
  | a :: as, c :: cs => ciEq a c && ciPrefixOf as cs

/-- The letter sequences tested at the start of a line by line 32. -/
def constraintKeywords : List Str :=
  ["CONSTRAINT".toList, "PRIMARY".toList, "FOREIGN".toList, "KEY".toList, "UNIQUE".toList,
    "CHECK".toList, "INDEX".toList]

/-- The lines `b` are obtained from the lines `a` by deleting lines that are
blank or whose trimmed form begins with `--` or `/*`. -/
inductive DropsSkipped : List Str → List Str → Prop
  | nil : DropsSkipped [] []
  | keep (l : Str) {a b : List Str} : DropsSkipped a b → DropsSkipped (l :: a) (l :: b)
  | drop (l : Str) {a b : List Str} :
      skipLine (trim l) = true → DropsSkipped a b → DropsSkipped (l :: a) b

/-- The newest capture of a matcher state is a non-empty capture of group
`n`. -/
def BindsGroup (n : Nat) (t : MState) : Prop :=
  ∃ w older, t.caps = (n, w) :: older ∧ w ≠ []

/-- A pattern that records no capture. -/
def KeepsCaps (r : Re) : Prop :=
  ∀ s t, t ∈ r.run s → t.caps = s.caps

/-- The column a line offers to the current table: the capture of the column
pattern when the line is processed and passes the tests of line 32. -/
def acceptedColumn (line : Str) : Option Str :=
  if skipLine (trim line) then none
  else
    match reMatch colRe (trim line) with
    | none => none
    | some m =>
      match m.group 1 with
      | none => none
      | some col =>
        if !skipKeywords.contains (toUpperCase col) && !reTest kwRe (trim line) then some col
        else none

/-- The primary key a line records: the capture of the primary-key match when
the line is processed and matches. -/
def pkCapture (line : Str) : Option Str :=
  if skipLine (trim line) then none
  else (pkMatch (trim line)).bind fun m => m.group 1

/-- The change a line inside a block makes to the current table. -/
def blockLineStep (line : Str) (info : TableInfo) : TableInfo :=
  if skipLine (trim line) then info
  else pkStep (trim line) (columnStep (trim line) info)

/-- The relationships a line inside the block of table `t` pushes. -/
def blockLineRels (t line : Str) : List Relationship :=
  if skipLine (trim line) then [] else fkStep t (trim line)

/-- The lines `block` are the last block of table `t` among `lines`: they
follow a line that creates `t`, none of them creates a table, and what comes
after them is nothing or begins with a line that creates a table, with no
later line creating `t` again. -/
def IsLastBlock (lines : List Str) (t : Str) (block : List Str) : Prop :=
  ∃ pre createLine post,
    lines = pre ++ createLine :: (block ++ post) ∧
    createdKey createLine = some t ∧
    (∀ l ∈ block, createdKey l = none) ∧
    (∀ l ∈ post, createdKey l ≠ some t) ∧
    (post = [] ∨ (post.head?.bind createdKey).isSome = true)

/-- The first way in which `r` matches at the start of `x`, at any index and
with the captures `caps` made so far, leaves the text `y` and the captures
`caps2`. -/
def Leads (r : Re) (x : Str) (caps : List (Nat × Str)) (y : Str)
    (caps2 : List (Nat × Str)) : Prop :=
  ∀ pos, ∃ p, (r.run ⟨pos, x, caps⟩).head? = some ⟨p, y, caps2⟩

/-- An identifier: a non-empty word of letters, digits and underscores. -/
def IsIdent (w : Str) : Prop :=
  w ≠ [] ∧ ∀ c ∈ w, isWord c = true

/-- A line of the form `FOREIGN KEY (c) REFERENCES t(d)`, followed by
`rest`. -/
def fkTableLine (c t d rest : Str) : Str :=
  "FOREIGN KEY (".toList ++ c ++ ") REFERENCES ".toList ++ t ++ "(".toList ++ d ++
    ")".toList ++ rest

/-- A line of the form `c <type> REFERENCES t(d)`, followed by `rest`. -/
def fkInlineLine (c type t d rest : Str) : Str :=
  c ++ " ".toList ++ type ++ " REFERENCES ".toList ++ t ++ "(".toList ++ d ++
    ")".toList ++ rest


/-- A pattern whose matches depend on the text left only, not on the index
reached or on the captures made so far: the texts left by its matches, in
backtracking order, are the same from any two states with the same text. -/
def RestOnly (r : Re) : Prop :=
  ∀ s s2 : MState, s.rest = s2.rest →
    List.Forall₂ (fun a b : MState => a.rest = b.rest) (r.run s) (r.run s2)

/-! # Properties -/

/-! ## Lemmas on the loop -/

theorem foldl_processLine_fixed (st : ExState) (lines : List Str)
    (h : ∀ line ∈ lines, processLine st line = st) :
    lines.foldl processLine st = st := by
  induction lines with
  | nil => rfl
  | cons l ls ih =>
    rw [List.foldl_cons, h l (List.mem_cons_self l ls)]
    exact ih fun x hx => h x (List.mem_cons_of_mem l hx)

theorem processLine_init_of_no_create (line : Str)
    (h : skipLine (trim line) = false → reMatch createRe (trim line) = none) :
    processLine initState line = initState := by
  unfold processLine
  cases hs : skipLine (trim line) with
  | true => simp [hs]
  | false => simp [h hs, initState, truthy]

theorem trim_nil_of_isEmpty (s : Str) (h : s.isEmpty = true) : (trim s).isEmpty = true := by
  cases s with
  | nil => rfl
  | cons c cs => simp at h

/-- C1: a schema text that is not whitespace-only and in which no processed
line matches the table-creation pattern yields no table name and the literal
fallback summary, the same for every such text. -/
theorem extractSchemaSummary_no_create (schemaText : Str)
    (hne : (trim schemaText).isEmpty = false)
    (h : ∀ line ∈ splitLines schemaText,
      skipLine (trim line) = false → reMatch createRe (trim line) = none) :
    extractSchemaSummary schemaText =
      ⟨("AVAILABLE TABLE NAMES (use ONLY these exact names): \n\n" ++
        "Available Tables and Columns:\n" ++
        "No tables found in schema. " ++
        "Please ensure the schema contains CREATE TABLE statements.").toList, []⟩ := by
  have hmodel : extractModel schemaText = initState :=
    foldl_processLine_fixed initState _ fun line hl =>
      processLine_init_of_no_create line (h line hl)
  have hnil : schemaText.isEmpty = false := by
    cases hs : schemaText.isEmpty with
    | false => rfl
    | true => rw [trim_nil_of_isEmpty schemaText hs] at hne; exact absurd hne (by decide)
  unfold extractSchemaSummary
  rw [hnil, hne, hmodel]
  decide!

theorem extractSchemaSummary_no_create_witness :
    extractSchemaSummary "SELECT 1;\n-- CREATE TABLE a (\n  id INT,".toList =
      ⟨("AVAILABLE TABLE NAMES (use ONLY these exact names): \n\n" ++
        "Available Tables and Columns:\n" ++
        "No tables found in schema. " ++
        "Please ensure the schema contains CREATE TABLE statements.").toList, []⟩ :=
  extractSchemaSummary_no_create _ (by decide!) (by decide!)

theorem find_setOwn (k t : Str) (v : TableInfo) (l : List (Str × TableInfo)) :
    ((setOwn k v l).find? fun p => p.1 = t).map Prod.snd =
      if k = t then some v else (l.find? fun p => p.1 = t).map Prod.snd := by
  induction l with
  | nil => by_cases h : k = t <;> simp [setOwn, List.find?, h]
  | cons p ps ih =>
    obtain ⟨k1, v1⟩ := p
    by_cases h1 : k1 = k
    · subst h1
      by_cases h : k1 = t <;> simp [setOwn, List.find?, h]
    · by_cases h2 : k1 = t
      · subst h2
        have : ¬ k = k1 := fun e => h1 e.symm
        simp [setOwn, List.find?, h1, this]
      · simp [setOwn, List.find?, h1, h2, ih]

theorem find_map_modify (k t : Str) (f : TableInfo → TableInfo) (l : List (Str × TableInfo)) :
    ((l.map fun p => if p.1 = k then (p.1, f p.2) else p).find? fun p => p.1 = t).map Prod.snd =
      if k = t then ((l.find? fun p => p.1 = t).map Prod.snd).map f
      else (l.find? fun p => p.1 = t).map Prod.snd := by
  induction l with
  | nil => by_cases h : k = t <;> simp [h]
  | cons p ps ih =>
    obtain ⟨k1, v1⟩ := p
    by_cases h1 : k1 = k
    · subst h1
      by_cases h : k1 = t
      · simp [List.find?, h]
      · simp [List.find?, h] at ih ⊢
        exact ih
    · by_cases h2 : k1 = t
      · subst h2
        have : ¬ k = k1 := fun e => h1 e.symm
        simp [List.find?, h1, this]
      · simp only [List.map_cons, h1, if_false, List.find?, h2, decide_False]
        exact ih

theorem tablesGet_tablesSet (st : ExState) (k t : Str) (v : TableInfo) :
    tablesGet (tablesSet st k v) t = if k = t then some v else tablesGet st t := by
  unfold tablesGet tablesSet
  by_cases hk : k = protoKey
  · by_cases ht : t = protoKey
    · simp [hk, ht]
    · have : ¬ protoKey = t := fun e => ht e.symm
      simp [hk, ht, this]
  · by_cases ht : t = protoKey
    · have : ¬ k = t := fun e => hk (e.trans ht)
      simp [hk, ht, this]
    · simp only [hk, ht, if_false]
      exact find_setOwn k t v st.tables

theorem tablesGet_tablesModify (st : ExState) (k t : Str) (f : TableInfo → TableInfo) :
    tablesGet (tablesModify st k f) t =
      if k = t then (tablesGet st t).map f else tablesGet st t := by
  unfold tablesGet tablesModify
  by_cases hk : k = protoKey
  · by_cases ht : t = protoKey
    · simp [hk, ht]
    · have : ¬ protoKey = t := fun e => ht e.symm
      simp [hk, ht, this]
  · by_cases ht : t = protoKey
    · have : ¬ k = t := fun e => hk (e.trans ht)
      simp [hk, ht, this]
    · simp only [hk, ht, if_false]
      exact find_map_modify k t f st.tables

theorem tablesSet_currentTable (st : ExState) (k : Str) (v : TableInfo) :
    (tablesSet st k v).currentTable = st.currentTable := by
  unfold tablesSet; split <;> rfl

theorem tablesSet_relationships (st : ExState) (k : Str) (v : TableInfo) :
    (tablesSet st k v).relationships = st.relationships := by
  unfold tablesSet; split <;> rfl

theorem tablesModify_currentTable (st : ExState) (k : Str) (f : TableInfo → TableInfo) :
    (tablesModify st k f).currentTable = st.currentTable := by
  unfold tablesModify; split <;> rfl

theorem tablesModify_relationships (st : ExState) (k : Str) (f : TableInfo → TableInfo) :
    (tablesModify st k f).relationships = st.relationships := by
  unfold tablesModify; split <;> rfl

theorem processLine_skip (st : ExState) (line : Str) (hs : skipLine (trim line) = true) :
    processLine st line = st := by
  simp [processLine, hs]

theorem processLine_create (st : ExState) (line : Str) (m : Match)
    (hs : skipLine (trim line) = false) (hm : reMatch createRe (trim line) = some m) :
    processLine st line =
      tablesSet { st with currentTable := m.group 1 } (toStr (m.group 1)) ⟨[], none⟩ := by
  simp [processLine, hs, hm]

theorem processLine_idle (st : ExState) (line : Str)
    (hs : skipLine (trim line) = false) (hm : reMatch createRe (trim line) = none)
    (hc : truthy st.currentTable = false) :
    processLine st line = st := by
  simp [processLine, hs, hm, hc]

theorem processLine_inside (st : ExState) (line : Str)
    (hs : skipLine (trim line) = false) (hm : reMatch createRe (trim line) = none)
    (hc : truthy st.currentTable = true) :
    processLine st line =
      { tablesModify st (toStr st.currentTable) fun info =>
          pkStep (trim line) (columnStep (trim line) info) with
        relationships := st.relationships ++ fkStep (toStr st.currentTable) (trim line) } := by
  simp [processLine, hs, hm, hc, tablesModify_relationships]

/-- The four cases of one iteration. -/
theorem processLine_cases (st : ExState) (line : Str) :
    processLine st line = st ∨
    (∃ m, skipLine (trim line) = false ∧ reMatch createRe (trim line) = some m ∧
      processLine st line =
        tablesSet { st with currentTable := m.group 1 } (toStr (m.group 1)) ⟨[], none⟩) ∨
    (skipLine (trim line) = false ∧ reMatch createRe (trim line) = none ∧
      truthy st.currentTable = true ∧
      processLine st line =
        { tablesModify st (toStr st.currentTable) fun info =>
            pkStep (trim line) (columnStep (trim line) info) with
          relationships := st.relationships ++ fkStep (toStr st.currentTable) (trim line) }) := by
  cases hs : skipLine (trim line) with
  | true => exact Or.inl (processLine_skip st line hs)
  | false =>
    cases hm : reMatch createRe (trim line) with
    | some m => exact Or.inr (Or.inl ⟨m, rfl, rfl, processLine_create st line m hs hm⟩)
    | none =>
      cases hc : truthy st.currentTable with
      | false => exact Or.inl (processLine_idle st line hs hm hc)
      | true => exact Or.inr (Or.inr ⟨rfl, rfl, rfl, processLine_inside st line hs hm hc⟩)

theorem tablesGet_with_relationships (st : ExState) (r : List Relationship) (t : Str) :
    tablesGet { st with relationships := r } t = tablesGet st t := rfl

theorem tablesGet_with_currentTable (st : ExState) (c : Option Str) (t : Str) :
    tablesGet { st with currentTable := c } t = tablesGet st t := rfl

/-- The table found under `t` after a line depends only on the cursor and on
the table found under `t` before it. -/
theorem processLine_congr (t : Str) (s1 s2 : ExState) (line : Str)
    (hc : s1.currentTable = s2.currentTable) (hg : tablesGet s1 t = tablesGet s2 t) :
    (processLine s1 line).currentTable = (processLine s2 line).currentTable ∧
      tablesGet (processLine s1 line) t = tablesGet (processLine s2 line) t := by
  cases hs : skipLine (trim line) with
  | true => rw [processLine_skip s1 line hs, processLine_skip s2 line hs]; exact ⟨hc, hg⟩
  | false =>
    cases hm : reMatch createRe (trim line) with
    | some m =>
      rw [processLine_create s1 line m hs hm, processLine_create s2 line m hs hm]
      refine ⟨?_, ?_⟩
      · rw [tablesSet_currentTable, tablesSet_currentTable]
      · simp only [tablesGet_tablesSet, tablesGet_with_currentTable, hg]
    | none =>
      cases htr : truthy s2.currentTable with
      | false =>
        rw [processLine_idle s1 line hs hm (hc ▸ htr), processLine_idle s2 line hs hm htr]
        exact ⟨hc, hg⟩
      | true =>
        rw [processLine_inside s1 line hs hm (hc ▸ htr), processLine_inside s2 line hs hm htr]
        refine ⟨?_, ?_⟩
        · show (tablesModify s1 _ _).currentTable = (tablesModify s2 _ _).currentTable
          rw [tablesModify_currentTable, tablesModify_currentTable, hc]
        · simp only [tablesGet_with_relationships, tablesGet_tablesModify, hg, hc]

theorem foldl_processLine_congr (t : Str) (lines : List Str) (s1 s2 : ExState)
    (hc : s1.currentTable = s2.currentTable) (hg : tablesGet s1 t = tablesGet s2 t) :
    tablesGet (lines.foldl processLine s1) t = tablesGet (lines.foldl processLine s2) t := by
  induction lines generalizing s1 s2 with
  | nil => exact hg
  | cons l ls ih =>
    obtain ⟨h1, h2⟩ := processLine_congr t s1 s2 l hc hg
    exact ih _ _ h1 h2

theorem createdKey_eq_some (line t : Str) (h : createdKey line = some t) :
    ∃ m, skipLine (trim line) = false ∧ reMatch createRe (trim line) = some m ∧
      toStr (m.group 1) = t := by
  unfold createdKey at h
  cases hs : skipLine (trim line) with
  | true => simp [hs] at h
  | false =>
    cases hm : reMatch createRe (trim line) with
    | none => simp [hs, hm] at h
    | some m => exact ⟨m, rfl, rfl, by simpa [hs, hm] using h⟩

theorem processLine_created (st : ExState) (line t : Str) (h : createdKey line = some t) :
    ∃ c, (processLine st line).currentTable = c ∧
      (processLine initState line).currentTable = c ∧
      tablesGet (processLine st line) t = some ⟨[], none⟩ ∧
      tablesGet (processLine initState line) t = some ⟨[], none⟩ := by
  obtain ⟨m, hs, hm, ht⟩ := createdKey_eq_some line t h
  rw [processLine_create st line m hs hm, processLine_create initState line m hs hm]
  refine ⟨m.group 1, ?_, ?_, ?_, ?_⟩
  · rw [tablesSet_currentTable]
  · rw [tablesSet_currentTable]
  · rw [tablesGet_tablesSet, if_pos ht]
  · rw [tablesGet_tablesSet, if_pos ht]

theorem processLine_isSome (t : Str) (st : ExState) (line : Str)
    (h : (tablesGet st t).isSome = true) : (tablesGet (processLine st line) t).isSome = true := by
  rcases processLine_cases st line with e | ⟨m, _, _, e⟩ | ⟨_, _, _, e⟩
  · rw [e]; exact h
  · rw [e, tablesGet_tablesSet, tablesGet_with_currentTable]
    split
    · rfl
    · exact h
  · rw [e, tablesGet_with_relationships, tablesGet_tablesModify]
    split
    · simpa using h
    · exact h

theorem foldl_processLine_isSome (t : Str) (lines : List Str) (st : ExState)
    (h : (tablesGet st t).isSome = true) :
    (tablesGet (lines.foldl processLine st) t).isSome = true := by
  induction lines generalizing st with
  | nil => exact h
  | cons l ls ih => exact ih _ (processLine_isSome t st l h)

theorem splitLines_ne_nil (s : Str) : splitLines s ≠ [] := by
  cases s with
  | nil => simp [splitLines]
  | cons c cs =>
    unfold splitLines
    split
    · simp
    · split <;> simp

theorem splitLines_append (a b : Str) :
    splitLines (a ++ '\n' :: b) = splitLines a ++ splitLines b := by
  induction a with
  | nil => simp [splitLines]
  | cons c cs ih =>
    by_cases hc : c = '\n'
    · simp [splitLines, hc, ih]
    · have hne := splitLines_ne_nil cs
      cases hcs : splitLines cs with
      | nil => exact absurd hcs hne
      | cons l ls => simp [splitLines, hc, ih, hcs]

/-- C2: when the first line of `tail` creates the table `t`, the table `t`
extracted from a text that continues with `tail` after any earlier lines
`pre` is the table `t` extracted from `tail` alone: nothing recorded under an
earlier declaration survives. -/
theorem redeclared_table_overwritten (pre tail line t : Str) (rest : List Str)
    (hsplit : splitLines tail = line :: rest) (hcreate : createdKey line = some t) :
    tablesGet (extractModel (pre ++ '\n' :: tail)) t = tablesGet (extractModel tail) t ∧
      (tablesGet (extractModel tail) t).isSome = true := by
  unfold extractModel
  rw [splitLines_append, List.foldl_append, hsplit, List.foldl_cons, List.foldl_cons]
  obtain ⟨c, h1, h2, h3, h4⟩ :=
    processLine_created ((splitLines pre).foldl processLine initState) line t hcreate
  refine ⟨foldl_processLine_congr t rest _ _ (h1.trans h2.symm) (h3.trans h4.symm), ?_⟩
  exact foldl_processLine_isSome t rest _ (by rw [h4]; rfl)

theorem redeclared_table_overwritten_witness :
    tablesGet (extractModel ("CREATE TABLE t (\n  a INT PRIMARY KEY,\n  b INT\n);".toList ++
        '\n' :: "CREATE TABLE t (\n  c INT\n);".toList)) "t".toList =
      tablesGet (extractModel "CREATE TABLE t (\n  c INT\n);".toList) "t".toList ∧
    (tablesGet (extractModel "CREATE TABLE t (\n  c INT\n);".toList) "t".toList).isSome = true :=
  redeclared_table_overwritten _ _ "CREATE TABLE t (".toList "t".toList
    ["  c INT".toList, ");".toList] (by decide!) (by decide!)


/-! ## Reserved words never become columns -/

theorem columnStep_noReserved (trimmed : Str) (info : TableInfo) (h : NoReserved info) :
    NoReserved (columnStep trimmed info) := by
  unfold columnStep
  split
  · exact h
  · split
    · exact h
    · rename_i col _
      split
      · rename_i hcond
        split
        · intro c hc kw hkw
          simp only [List.mem_append, List.mem_singleton] at hc
          rcases hc with hc | hc
          · exact h c hc kw hkw
          · subst hc
            intro e
            simp only [Bool.and_eq_true, Bool.not_eq_true', List.contains_eq_any_beq,
              List.any_eq_false] at hcond
            have := hcond.1 kw hkw
            simp [e] at this
        · exact h
      · exact h

theorem pkStep_columns (trimmed : Str) (info : TableInfo) :
    (pkStep trimmed info).columns = info.columns := by
  unfold pkStep; split <;> rfl

theorem pkStep_noReserved (trimmed : Str) (info : TableInfo) (h : NoReserved info) :
    NoReserved (pkStep trimmed info) := by
  unfold NoReserved; rw [pkStep_columns]; exact h

theorem mem_setOwn (k : Str) (v : TableInfo) (l : List (Str × TableInfo)) (p : Str × TableInfo)
    (h : p ∈ setOwn k v l) : p = (k, v) ∨ p ∈ l := by
  induction l with
  | nil => simpa [setOwn] using h
  | cons q qs ih =>
    obtain ⟨k1, v1⟩ := q
    unfold setOwn at h
    split at h
    · simp only [List.mem_cons] at h ⊢
      rcases h with h | h
      · exact Or.inl h
      · exact Or.inr (Or.inr h)
    · simp only [List.mem_cons] at h ⊢
      rcases h with h | h
      · exact Or.inr (Or.inl h)
      · rcases ih h with h | h
        · exact Or.inl h
        · exact Or.inr (Or.inr h)

theorem tablesSet_allNoReserved (st : ExState) (k : Str) (h : AllNoReserved st) :
    AllNoReserved (tablesSet st k ⟨[], none⟩) := by
  have hempty : NoReserved ⟨[], none⟩ := fun c hc => by simp at hc
  unfold tablesSet
  split
  · refine ⟨h.1, fun info hi => ?_⟩
    simp only [Option.some.injEq] at hi
    exact hi ▸ hempty
  · refine ⟨fun p hp => ?_, h.2⟩
    rcases mem_setOwn _ _ _ _ hp with e | hm
    · rw [e]; exact hempty
    · exact h.1 p hm

theorem tablesModify_allNoReserved (st : ExState) (k : Str) (f : TableInfo → TableInfo)
    (hf : ∀ info, NoReserved info → NoReserved (f info)) (h : AllNoReserved st) :
    AllNoReserved (tablesModify st k f) := by
  unfold tablesModify
  split
  · refine ⟨h.1, fun info hi => ?_⟩
    simp only [Option.map_eq_some'] at hi
    obtain ⟨i0, h0, rfl⟩ := hi
    exact hf i0 (h.2 i0 h0)
  · refine ⟨fun p hp => ?_, h.2⟩
    simp only [List.mem_map] at hp
    obtain ⟨q, hq, rfl⟩ := hp
    split
    · exact hf q.2 (h.1 q hq)
    · exact h.1 q hq

theorem processLine_allNoReserved (st : ExState) (line : Str) (h : AllNoReserved st) :
    AllNoReserved (processLine st line) := by
  rcases processLine_cases st line with e | ⟨m, _, _, e⟩ | ⟨_, _, _, e⟩
  · rw [e]; exact h
  · rw [e]; exact tablesSet_allNoReserved _ _ h
  · rw [e]
    exact tablesModify_allNoReserved st _ _
      (fun info hi => pkStep_noReserved _ _ (columnStep_noReserved _ _ hi)) h

theorem foldl_processLine_allNoReserved (lines : List Str) (st : ExState)
    (h : AllNoReserved st) : AllNoReserved (lines.foldl processLine st) := by
  induction lines generalizing st with
  | nil => exact h
  | cons l ls ih => exact ih _ (processLine_allNoReserved st l h)

theorem extractModel_allNoReserved (schemaText : Str) :
    AllNoReserved (extractModel schemaText) :=
  foldl_processLine_allNoReserved _ _ ⟨fun p hp => by simp [initState] at hp,
    fun info hi => by simp [initState] at hi⟩

/-- C3: in the model extracted from any schema text, no column of any table
(an own property of `tables` or the object installed as its prototype) is,
upper-cased, one of CONSTRAINT, PRIMARY, FOREIGN, KEY, UNIQUE, CHECK, INDEX,
CREATE, ALTER, DROP. -/
theorem columns_never_reserved (schemaText : Str) (info : TableInfo)
    (hinfo : (∃ k, (k, info) ∈ (extractModel schemaText).tables) ∨
      (extractModel schemaText).proto = some info)
    (col : Str) (hcol : col ∈ info.columns) :
    toUpperCase col ∉ ["CONSTRAINT".toList, "PRIMARY".toList, "FOREIGN".toList, "KEY".toList,
      "UNIQUE".toList, "CHECK".toList, "INDEX".toList, "CREATE".toList, "ALTER".toList,
      "DROP".toList] := by
  intro hmem
  have hall := extractModel_allNoReserved schemaText
  rcases hinfo with ⟨k, hk⟩ | hp
  · exact hall.1 (k, info) hk col hcol _ hmem rfl
  · exact hall.2 info hp col hcol _ hmem rfl

theorem columns_never_reserved_witness :
    toUpperCase "id".toList ∉ ["CONSTRAINT".toList, "PRIMARY".toList, "FOREIGN".toList,
      "KEY".toList, "UNIQUE".toList, "CHECK".toList, "INDEX".toList, "CREATE".toList,
      "ALTER".toList, "DROP".toList] :=
  columns_never_reserved "CREATE TABLE t (\n  id INT,\n  key INT\n);".toList
    ⟨["id".toList], none⟩ (Or.inl ⟨"t".toList, by decide!⟩) "id".toList (by decide!)


/-! ## Foreign keys without a target column, and the key `__proto__` -/

/-- C4: on the block `CREATE TABLE orders (` / `user_id INT REFERENCES users,` /
`FOREIGN KEY (user_id) REFERENCES users` / `);` neither foreign-key pattern
matches, because both require the parenthesised target column: no
relationship is recorded and the summary has no relationships section. -/
theorem foreign_key_without_target_dropped :
    (extractModel ("CREATE TABLE orders (\n  user_id INT REFERENCES users,\n" ++
        "  FOREIGN KEY (user_id) REFERENCES users\n);").toList).relationships = [] ∧
    (extractSchemaSummary ("CREATE TABLE orders (\n  user_id INT REFERENCES users,\n" ++
        "  FOREIGN KEY (user_id) REFERENCES users\n);").toList).schemaSummary =
      ("AVAILABLE TABLE NAMES (use ONLY these exact names): orders\n\n" ++
        "Available Tables and Columns:\n\nTable: orders\n  Columns: user_id\n").toList := by
  decide!

/-- C5: the line `CREATE TABLE __proto__ (` creates the identifier `__proto__`,
yet the table-name sequence of the text is empty and the summary is the
fallback text. -/
theorem proto_table_not_listed :
    createdKey "CREATE TABLE __proto__ (".toList = some "__proto__".toList ∧
    extractSchemaSummary "CREATE TABLE __proto__ (\n  id INT\n);".toList =
      ⟨("AVAILABLE TABLE NAMES (use ONLY these exact names): \n\n" ++
        "Available Tables and Columns:\n" ++
        "No tables found in schema. " ++
        "Please ensure the schema contains CREATE TABLE statements.").toList, []⟩ := by
  decide!

/-! ## Model names -/

/-- C7, as the claim states it: the model name of `address` is not `Address`. -/
theorem toModelName_address_ne :
    toModelName "address".toList ≠ "Address".toList := by
  decide!

/-- C7, amended: `accounts` gives `Account`, `users` gives `User`, and
`address`, which ends in `s`, gives `Addres`. -/
theorem toModelName_examples :
    toModelName "accounts".toList = "Account".toList ∧
    toModelName "users".toList = "User".toList ∧
    toModelName "address".toList = "Addres".toList := by
  decide!

/-! ## The end-to-end example -/

/-- C10: for `CREATE TABLE accounts (id INT PRIMARY KEY, name TEXT);` the
table names are exactly `accounts`, the summary has the single block
`Table: accounts` without a primary-key line and with `Columns: (none found)`,
and for every request the user message of the query-language style lists
`accounts` alone under the available table names. -/
theorem accounts_example :
    extractSchemaSummary "CREATE TABLE accounts (id INT PRIMARY KEY, name TEXT);".toList =
      ⟨("AVAILABLE TABLE NAMES (use ONLY these exact names): accounts\n\n" ++
        "Available Tables and Columns:\n\nTable: accounts\n  Columns: (none found)\n").toList,
        ["accounts".toList]⟩ ∧
    ∀ prompt : Str,
      sqlUserContent "CREATE TABLE accounts (id INT PRIMARY KEY, name TEXT);".toList prompt =
        ("=== AVAILABLE TABLE NAMES (USE ONLY THESE EXACT NAMES) ===\naccounts\n\n" ++
          "=== FULL SCHEMA DETAILS ===\n" ++
          "AVAILABLE TABLE NAMES (use ONLY these exact names): accounts\n\n" ++
          "Available Tables and Columns:\n\nTable: accounts\n  Columns: (none found)\n" ++
          "\n\n=== FULL SCHEMA DEFINITION ===\n" ++
          "CREATE TABLE accounts (id INT PRIMARY KEY, name TEXT);" ++
          "\n\n=== USER REQUEST ===\n").toList ++ prompt ++ sqlProcessText := by
  have h : extractSchemaSummary
      "CREATE TABLE accounts (id INT PRIMARY KEY, name TEXT);".toList =
      ⟨("AVAILABLE TABLE NAMES (use ONLY these exact names): accounts\n\n" ++
        "Available Tables and Columns:\n\nTable: accounts\n  Columns: (none found)\n").toList,
        ["accounts".toList]⟩ := by decide!
  refine ⟨h, fun prompt => ?_⟩
  unfold sqlUserContent
  rw [h]
  simp only [join, ← List.append_assoc]
  congr 2


/-! ## The pattern `a$` and idempotence of the model name -/

/-- The pattern `/a$/` for a character `a`. -/
theorem lastCharRe_run (a : Char) (pos : Nat) (x : Str) :
    (Re.seq (Re.seq (.cls fun c => c == a) .eps) (Re.seq .eol .eps)).run ⟨pos, x, []⟩ =
      if x = [a] then [⟨pos + 1, [], []⟩] else [] := by
  cases x with
  | nil => simp [Re.run]
  | cons c cs =>
    by_cases hc : c = a
    · cases cs with
      | nil => simp [Re.run, hc]
      | cons d ds => simp [Re.run, hc]
    · simp [Re.run, hc]

theorem lastCharRe_execFrom (a : Char) (x : Str) (pos : Nat) :
    execFrom (Re.seq (Re.seq (.cls fun c => c == a) .eps) (Re.seq .eol .eps)) pos x =
      if x.getLast? = some a then some ⟨pos + x.length - 1, pos + x.length, []⟩ else none := by
  induction x generalizing pos with
  | nil => simp [execFrom, lastCharRe_run]
  | cons c cs ih =>
    unfold execFrom
    rw [lastCharRe_run]
    by_cases h : c :: cs = [a]
    · simp only [List.cons.injEq] at h
      obtain ⟨rfl, rfl⟩ := h
      simp
    · rw [if_neg h]
      simp only [List.head?_nil]
      rw [ih]
      cases cs with
      | nil =>
        have : c ≠ a := fun e => h (by rw [e])
        simp [this]
      | cons d ds =>
        simp only [List.getLast?_cons_cons, List.length_cons]
        split
        · congr 2 <;> omega
        · rfl

theorem lastCharRe_replace (a : Char) (x : Str) :
    replaceEmpty (Re.seq (Re.seq (.cls fun c => c == a) .eps) (Re.seq .eol .eps)) x =
      if x.getLast? = some a then x.dropLast else x := by
  unfold replaceEmpty reMatch
  rw [lastCharRe_execFrom]
  by_cases h : x.getLast? = some a
  · simp [h, List.dropLast_eq_take]
  · simp [h]

theorem toModelName_eq (t : Str) :
    toModelName t =
      toUpperCase ((if t.getLast? = some 's' then t.dropLast else t).take 1) ++
        (if t.getLast? = some 's' then t.dropLast else t).drop 1 := by
  have h := lastCharRe_replace 's' t
  unfold toModelName
  exact congrArg (fun sg => toUpperCase (List.take 1 sg) ++ List.drop 1 sg) h

theorem toUpper_toUpper (c : Char) : c.toUpper.toUpper = c.toUpper := by
  by_cases h : c.toNat ≥ 97 ∧ c.toNat ≤ 122
  · have hc : c = Char.ofNat c.toNat := (Char.ofNat_toNat c).symm
    obtain ⟨h1, h2⟩ := h
    generalize c.toNat = n at hc h1 h2
    subst hc
    interval_cases n <;> decide
  · have : c.toUpper = c := by simp [Char.toUpper, h]
    rw [this, this]

theorem capitalize_length (sg : Str) :
    (toUpperCase (sg.take 1) ++ sg.drop 1).length = sg.length := by
  cases sg <;> simp [toUpperCase]

/-- C8, as the claim states it: deriving the model name of `address` twice
gives `Addre`, not the `Addres` derived once. -/
theorem toModelName_not_idempotent :
    toModelName (toModelName "address".toList) ≠ toModelName "address".toList := by
  decide!

/-- C8, amended: for a table identifier `t` (a word of letters, digits and
underscores), deriving the model name again changes nothing exactly when the
derived name does not end in a lower-case `s`. -/
theorem toModelName_idempotent_iff (t : Str) (_hword : ∀ c ∈ t, isWord c = true) :
    toModelName (toModelName t) = toModelName t ↔ (toModelName t).getLast? ≠ some 's' := by
  constructor
  · intro h hlast
    have hlen := congrArg List.length h
    rw [toModelName_eq (toModelName t), if_pos hlast, capitalize_length] at hlen
    have hne : toModelName t ≠ [] := by
      intro e; rw [e] at hlast; simp at hlast
    have := List.length_pos.mpr hne
    simp only [List.length_dropLast] at hlen
    omega
  · intro hlast
    rw [toModelName_eq (toModelName t), if_neg hlast]
    rw [toModelName_eq t]
    generalize (if t.getLast? = some 's' then t.dropLast else t) = sg
    cases sg with
    | nil => rfl
    | cons c cs => simp [toUpperCase, toUpper_toUpper]

theorem toModelName_idempotent_iff_witness :
    toModelName (toModelName "accounts".toList) = toModelName "accounts".toList ↔
      (toModelName "accounts".toList).getLast? ≠ some 's' :=
  toModelName_idempotent_iff "accounts".toList (by decide!)


/-! ## Lemmas on the matcher -/

theorem strRe_seq_run (l : List Char) (k : Re) (s : MState) :
    (Re.seq (Re.cat (l.map fun a => Re.cls fun c => c == a)) k).run s =
      if l.isPrefixOf s.rest then k.run ⟨s.pos + l.length, s.rest.drop l.length, s.caps⟩
      else [] := by
  induction l generalizing s with
  | nil => simp [Re.cat, Re.run]
  | cons a l ih =>
    obtain ⟨pos, rest, caps⟩ := s
    cases rest with
    | nil => simp [Re.cat, Re.run]
    | cons c cs =>
      have hstep := ih ⟨pos + 1, cs, caps⟩
      simp only [Re.run] at hstep
      by_cases hc : c = a
      · simp [Re.cat, Re.run, hc, hstep, Nat.add_assoc, Nat.add_comm 1]
      · have hc2 : ¬ a = c := fun e => hc e.symm
        simp [Re.cat, Re.run, hc, hc2]

theorem str_seq_run (w : String) (k : Re) (s : MState) :
    (Re.seq (Re.str w) k).run s =
      if w.toList.isPrefixOf s.rest then
        k.run ⟨s.pos + w.toList.length, s.rest.drop w.toList.length, s.caps⟩
      else [] :=
  strRe_seq_run w.toList k s

theorem starRuns_head (p : Char → Bool) (caps : List (Nat × Str)) (pos : Nat) (x : Str) :
    ∃ tl, starRuns p caps pos x =
      ⟨pos + (x.takeWhile p).length, x.dropWhile p, caps⟩ :: tl := by
  induction x generalizing pos with
  | nil => exact ⟨[], by simp [starRuns]⟩
  | cons c cs ih =>
    by_cases hc : p c = true
    · obtain ⟨tl, htl⟩ := ih (pos + 1)
      refine ⟨tl ++ [⟨pos, c :: cs, caps⟩], ?_⟩
      simp [starRuns, hc, htl, Nat.add_assoc, Nat.add_comm 1]
    · exact ⟨[], by simp [starRuns, hc]⟩

theorem mem_starRuns (p : Char → Bool) (caps : List (Nat × Str)) (pos : Nat) (x : Str)
    (t : MState) (h : t ∈ starRuns p caps pos x) :
    ∃ run, x = run ++ t.rest ∧ (∀ c ∈ run, p c = true) ∧ t.pos = pos + run.length ∧
      t.caps = caps := by
  induction x generalizing pos with
  | nil =>
    simp only [starRuns, List.mem_singleton] at h
    subst h
    exact ⟨[], by simp⟩
  | cons c cs ih =>
    by_cases hc : p c = true
    · simp only [starRuns, hc, if_true, List.mem_append, List.mem_singleton] at h
      rcases h with h | h
      · obtain ⟨run, h1, h2, h3, h4⟩ := ih (pos + 1) h
        refine ⟨c :: run, by rw [h1]; rfl, ?_, by rw [h3, List.length_cons]; omega, h4⟩
        intro d hd
        rcases List.mem_cons.mp hd with e | e
        · rw [e]; exact hc
        · exact h2 d e
      · subst h
        exact ⟨[], by simp⟩
    · simp only [starRuns, hc, Bool.false_eq_true, if_false, List.mem_singleton] at h
      subst h
      exact ⟨[], by simp⟩

/-- A pattern that begins with `^` finds nothing from a later index. -/
theorem execFrom_bol_succ (r : Re) (x : Str) (pos : Nat) :
    execFrom (Re.seq .bol r) (pos + 1) x = none := by
  induction x generalizing pos with
  | nil => simp [execFrom, Re.run]
  | cons c cs ih => simp [execFrom, Re.run, ih]

theorem replaceEmpty_bol (r : Re) (x : Str) :
    replaceEmpty (Re.seq .bol r) x =
      match (r.run ⟨0, x, []⟩).head? with
      | some t => x.drop t.pos
      | none => x := by
  unfold replaceEmpty reMatch
  cases x with
  | nil =>
    simp only [execFrom, Re.run, if_true, List.flatMap_cons, List.flatMap_nil,
      List.append_nil]
    cases (r.run ⟨0, [], []⟩).head? <;> simp
  | cons c cs =>
    simp only [execFrom, Re.run, if_true, List.flatMap_cons, List.flatMap_nil,
      List.append_nil]
    cases (r.run ⟨0, c :: cs, []⟩).head? with
    | some t => simp
    | none => simp [execFrom_bol_succ]

theorem seq_star_eps_head (p : Char → Bool) (s : MState) :
    ((Re.seq (.star p) .eps).run s).head? =
      some ⟨s.pos + (s.rest.takeWhile p).length, s.rest.dropWhile p, s.caps⟩ := by
  obtain ⟨tl, htl⟩ := starRuns_head p s.caps s.pos s.rest
  simp [Re.run, htl]


/-! ## The replacements of `cleanSql` and `cleanRails` -/

theorem dropWhile_eq_self_of_head {p : Char → Bool} (l : Str)
    (h : ∀ c, l.head? = some c → p c = false) : l.dropWhile p = l := by
  cases l with
  | nil => rfl
  | cons c cs => simp [List.dropWhile, h c rfl]

theorem head_dropWhile_isSpace (l : Str) (c : Char) (h : (l.dropWhile isSpace).head? = some c) :
    isSpace c = false := by
  have := List.head?_dropWhile_not isSpace l
  rw [h] at this
  simpa using this

/-- A text is its right-trimmed part followed by white space. -/
theorem rtrim_decompose (l : Str) :
    ∃ w, l = (l.reverse.dropWhile isSpace).reverse ++ w ∧ (∀ c ∈ w, isSpace c = true) ∧
      ∀ c, (l.reverse.dropWhile isSpace).reverse.getLast? = some c → isSpace c = false := by
  refine ⟨(l.reverse.takeWhile isSpace).reverse, ?_, ?_, ?_⟩
  · rw [← List.reverse_append, List.takeWhile_append_dropWhile, List.reverse_reverse]
  · intro c hc
    exact List.mem_takeWhile_imp (List.mem_reverse.mp hc)
  · intro c hc
    rw [List.getLast?_reverse] at hc
    exact head_dropWhile_isSpace _ c hc

theorem dropWhile_isSpace_append_fence (y : Str) :
    (y ++ "```".toList).dropWhile isSpace = y.dropWhile isSpace ++ "```".toList := by
  induction y with
  | nil => rfl
  | cons c cs ih =>
    by_cases hc : isSpace c = true
    · simp only [List.cons_append, List.dropWhile_cons, hc, if_true]; exact ih
    · simp [List.dropWhile_cons, hc]

theorem replace_fenceOpen_tag (tag : String) (y : Str) :
    replaceEmpty (Re.cat [.bol, Re.str "```", Re.str tag, sp0])
        ("```".toList ++ tag.toList ++ y) = y.dropWhile isSpace := by
  show replaceEmpty (Re.seq .bol (Re.seq (Re.str "```") (Re.seq (Re.str tag)
    (Re.seq (.star isSpace) .eps)))) _ = _
  rw [replaceEmpty_bol, str_seq_run]
  have h1 : ("```".toList).isPrefixOf ("```".toList ++ tag.toList ++ y) = true := by
    simp [List.append_assoc]
  simp only [h1, if_true, str_seq_run]
  have h2 : List.drop ("```".toList).length ("```".toList ++ tag.toList ++ y) =
      tag.toList ++ y := by
    rw [List.append_assoc, List.drop_left]
  simp only [h2]
  have h3 : (tag.toList).isPrefixOf (tag.toList ++ y) = true := by simp
  simp only [h3, if_true, seq_star_eps_head, List.drop_left]
  have h5 : ("```".toList ++ tag.toList ++ y) =
      ("```".toList ++ tag.toList ++ y.takeWhile isSpace) ++ y.dropWhile isSpace := by
    rw [List.append_assoc _ _ (y.dropWhile isSpace), List.takeWhile_append_dropWhile]
  show List.drop (0 + ("```".toList).length + tag.toList.length + (y.takeWhile isSpace).length)
    _ = _
  rw [h5]
  have h6 : 0 + ("```".toList).length + tag.toList.length + (y.takeWhile isSpace).length =
      ("```".toList ++ tag.toList ++ y.takeWhile isSpace).length := by
    simp only [List.length_append]; omega
  rw [h6, List.drop_left]


theorem replace_fenceOpen_bare (y : Str) :
    replaceEmpty (Re.cat [.bol, Re.str "```", sp0]) ("```".toList ++ y) =
      y.dropWhile isSpace := by
  show replaceEmpty (Re.seq .bol (Re.seq (Re.str "```") (Re.seq (.star isSpace) .eps))) _ = _
  rw [replaceEmpty_bol, str_seq_run]
  have h1 : ("```".toList).isPrefixOf ("```".toList ++ y) = true := by simp
  simp only [h1, if_true, seq_star_eps_head, List.drop_left]
  have h5 : ("```".toList ++ y) =
      ("```".toList ++ y.takeWhile isSpace) ++ y.dropWhile isSpace := by
    rw [List.append_assoc, List.takeWhile_append_dropWhile]
  show List.drop (0 + ("```".toList).length + (y.takeWhile isSpace).length) _ = _
  rw [h5]
  have h6 : 0 + ("```".toList).length + (y.takeWhile isSpace).length =
      ("```".toList ++ y.takeWhile isSpace).length := by
    simp only [List.length_append]; omega
  rw [h6, List.drop_left]

theorem replace_fenceOpen_tag_none (tag : String) (y : Str)
    (h : (tag.toList).isPrefixOf y = false) :
    replaceEmpty (Re.cat [.bol, Re.str "```", Re.str tag, sp0]) ("```".toList ++ y) =
      "```".toList ++ y := by
  show replaceEmpty (Re.seq .bol (Re.seq (Re.str "```") (Re.seq (Re.str tag)
    (Re.seq (.star isSpace) .eps)))) _ = _
  rw [replaceEmpty_bol, str_seq_run]
  have h1 : ("```".toList).isPrefixOf ("```".toList ++ y) = true := by simp
  simp only [h1, if_true, str_seq_run, List.drop_left, h]
  rfl

theorem replace_fenceOpen_bare_none (x : Str) (h : ("```".toList).isPrefixOf x = false) :
    replaceEmpty (Re.cat [.bol, Re.str "```", sp0]) x = x := by
  show replaceEmpty (Re.seq .bol (Re.seq (Re.str "```") (Re.seq (.star isSpace) .eps))) _ = _
  rw [replaceEmpty_bol, str_seq_run]
  simp only [h]
  rfl

theorem replace_tickOpen_none (x : Str) (h : x.head? ≠ some '`') :
    replaceEmpty (Re.cat [.bol, Re.str "`"]) x = x := by
  show replaceEmpty (Re.seq .bol (Re.seq (Re.str "`") .eps)) _ = _
  rw [replaceEmpty_bol, str_seq_run]
  have h1 : ("`".toList).isPrefixOf x = false := by
    cases x with
    | nil => rfl
    | cons c cs =>
      have : c ≠ '`' := fun e => h (by rw [e]; rfl)
      have h2 : ¬ '`' = c := fun e => this e.symm
      show (['`'].isPrefixOf (c :: cs)) = false
      simp [List.isPrefixOf, h2]
  simp only [h1]
  rfl

theorem replace_tickClose_none (x : Str) (h : x.getLast? ≠ some '`') :
    replaceEmpty (Re.cat [Re.str "`", .eol]) x = x := by
  have := lastCharRe_replace '`' x
  rw [if_neg h] at this
  exact this

theorem run_seq (a b : Re) (s : MState) :
    (Re.seq a b).run s = (a.run s).flatMap b.run := by
  simp [Re.run]

theorem run_star (p : Char → Bool) (s : MState) :
    (Re.star p).run s = starRuns p s.caps s.pos s.rest := by
  simp [Re.run]

theorem run_eol_eps (s : MState) :
    (Re.seq .eol .eps).run s = if s.rest.isEmpty then [s] else [] := by
  cases h : s.rest.isEmpty <;> simp [Re.run, h]

/-- The closing fence: `\s*` followed by the fence at the end of the text is
found first where the trailing white space begins. -/
theorem fenceClose_run_nil (pos : Nat) (x : Str)
    (h : ¬ ∃ w, x = w ++ "```".toList ∧ ∀ c ∈ w, isSpace c = true) :
    (Re.seq (.star isSpace) (Re.seq (Re.str "```") (Re.seq .eol .eps))).run ⟨pos, x, []⟩ =
      [] := by
  rw [run_seq, run_star, List.flatMap_eq_nil_iff]
  intro t ht
  obtain ⟨w, h1, h2, _, _⟩ := mem_starRuns _ _ _ _ _ ht
  rw [str_seq_run]
  split
  · rename_i hp
    have hpre : "```".toList <+: t.rest := List.isPrefixOf_iff_prefix.mp hp
    obtain ⟨u, hu⟩ := hpre
    cases u with
    | nil =>
      exfalso
      apply h
      refine ⟨w, ?_, h2⟩
      have h1' : x = w ++ t.rest := h1
      rw [h1', ← hu, List.append_nil]
    | cons d ds =>
      rw [run_eol_eps]
      simp only [← hu, List.drop_left]
      rfl
  · rfl

theorem fenceClose_run_head (pos : Nat) (w : Str) (hw : ∀ c ∈ w, isSpace c = true) :
    ((Re.seq (.star isSpace) (Re.seq (Re.str "```") (Re.seq .eol .eps))).run
      ⟨pos, w ++ "```".toList, []⟩).head? = some ⟨pos + w.length + 3, [], []⟩ := by
  obtain ⟨tl, htl⟩ := starRuns_head isSpace [] pos (w ++ "```".toList)
  have htake : (w ++ "```".toList).takeWhile isSpace = w := by
    rw [List.takeWhile_append_of_pos hw]
    have : ("```".toList).takeWhile isSpace = [] := by decide
    rw [this, List.append_nil]
  have hdrop : (w ++ "```".toList).dropWhile isSpace = "```".toList := by
    rw [List.dropWhile_append_of_pos hw]
    rfl
  rw [htake, hdrop] at htl
  rw [run_seq, run_star, htl, List.flatMap_cons, str_seq_run, run_eol_eps]
  rfl


theorem execFrom_of_head (r : Re) (pos : Nat) (x : Str) (t : MState)
    (h : (r.run ⟨pos, x, []⟩).head? = some t) :
    execFrom r pos x = some ⟨pos, t.pos, t.caps⟩ := by
  cases x with
  | nil => simp [execFrom, h]
  | cons c cs => simp [execFrom, h]

theorem execFrom_of_nil (r : Re) (pos : Nat) (c : Char) (cs : Str)
    (h : r.run ⟨pos, c :: cs, []⟩ = []) :
    execFrom r pos (c :: cs) = execFrom r (pos + 1) cs := by
  simp [execFrom, h]

theorem fenceClose_execFrom (core w : Str) (pos : Nat) (hw : ∀ c ∈ w, isSpace c = true)
    (hlast : ∀ c, core.getLast? = some c → isSpace c = false) :
    execFrom (Re.seq (.star isSpace) (Re.seq (Re.str "```") (Re.seq .eol .eps))) pos
        (core ++ w ++ "```".toList) =
      some ⟨pos + core.length, pos + core.length + w.length + 3, []⟩ := by
  induction core generalizing pos with
  | nil =>
    have := execFrom_of_head _ pos _ _ (fenceClose_run_head pos w hw)
    simpa using this
  | cons c cs ih =>
    have hnil := fenceClose_run_nil pos (c :: cs ++ w ++ "```".toList) (by
      rintro ⟨w2, h1, h2⟩
      have h3 : c :: cs ++ w = w2 := List.append_cancel_right h1
      have hmem : ∀ d ∈ c :: cs, isSpace d = true := fun d hd =>
        h2 d (by rw [← h3]; exact List.mem_append_left w hd)
      obtain ⟨d, hd⟩ : ∃ d, (c :: cs).getLast? = some d :=
        ⟨(c :: cs).getLast (by simp), List.getLast?_eq_getLast _ _⟩
      have h4 := hlast d hd
      have h5 := hmem d (List.mem_of_getLast?_eq_some hd)
      rw [h4] at h5
      exact absurd h5 (by decide))
    have hstep := execFrom_of_nil _ pos c (cs ++ w ++ "```".toList) hnil
    have hcs : ∀ d, cs.getLast? = some d → isSpace d = false := by
      intro d hd
      apply hlast
      cases cs with
      | nil => simp at hd
      | cons e es => simpa [List.getLast?_cons_cons] using hd
    have e1 : c :: cs ++ w ++ "```".toList = c :: (cs ++ w ++ "```".toList) := rfl
    rw [e1, hstep, ih (pos + 1) hcs]
    simp only [List.length_cons, Option.some.injEq, Match.mk.injEq, and_true]
    constructor <;> omega

theorem replace_fenceClose (core w : Str) (hw : ∀ c ∈ w, isSpace c = true)
    (hlast : ∀ c, core.getLast? = some c → isSpace c = false) :
    replaceEmpty (Re.cat [sp0, Re.str "```", .eol]) (core ++ w ++ "```".toList) = core := by
  show replaceEmpty (Re.seq (.star isSpace) (Re.seq (Re.str "```") (Re.seq .eol .eps))) _ = _
  unfold replaceEmpty reMatch
  rw [fenceClose_execFrom core w 0 hw hlast]
  have hlen : (core ++ w ++ "```".toList).length = 0 + core.length + w.length + 3 := by
    simp only [List.length_append]
    have : ("```".toList).length = 3 := rfl
    omega
  show List.take (0 + core.length) (core ++ w ++ "```".toList) ++
    List.drop (0 + core.length + w.length + 3) (core ++ w ++ "```".toList) = core
  rw [← hlen, List.drop_length, List.append_nil, Nat.zero_add, List.append_assoc,
    List.take_left]


/-- The steps after the opening fence is gone: the closing fence and the white
space before it are cut, and nothing else. -/
theorem clean_tail (l : Str) (hl : ∀ c, l.head? = some c → isSpace c = false)
    (hhead : (l.reverse.dropWhile isSpace).reverse.head? ≠ some '`')
    (hlast : (l.reverse.dropWhile isSpace).reverse.getLast? ≠ some '`') :
    trim (replaceEmpty (Re.cat [Re.str "`", .eol])
      (replaceEmpty (Re.cat [.bol, Re.str "`"])
        (replaceEmpty (Re.cat [sp0, Re.str "```", .eol]) (l ++ "```".toList)))) =
      (l.reverse.dropWhile isSpace).reverse := by
  obtain ⟨w, hw1, hw2, hw3⟩ := rtrim_decompose l
  generalize hcore : (l.reverse.dropWhile isSpace).reverse = core at *
  have e : l ++ "```".toList = core ++ w ++ "```".toList := by rw [← hw1]
  rw [e, replace_fenceClose core w hw2 hw3, replace_tickOpen_none core hhead,
    replace_tickClose_none core hlast]
  have h1 : core.dropWhile isSpace = core := by
    apply dropWhile_eq_self_of_head
    intro c hc
    apply hl
    cases core with
    | nil => simp at hc
    | cons d ds => rw [hw1]; exact hc
  have h2 : core.reverse.dropWhile isSpace = core.reverse := by
    apply dropWhile_eq_self_of_head
    intro c hc
    rw [List.head?_reverse] at hc
    exact hw3 c hc
  unfold trim
  rw [h1, h2, List.reverse_reverse]

theorem clean_tail_after_bare (l : Str) (hl : ∀ c, l.head? = some c → isSpace c = false)
    (hhead : (l.reverse.dropWhile isSpace).reverse.head? ≠ some '`')
    (hlast : (l.reverse.dropWhile isSpace).reverse.getLast? ≠ some '`') :
    trim (replaceEmpty (Re.cat [Re.str "`", .eol])
      (replaceEmpty (Re.cat [.bol, Re.str "`"])
        (replaceEmpty (Re.cat [sp0, Re.str "```", .eol])
          (replaceEmpty (Re.cat [.bol, Re.str "```", sp0]) (l ++ "```".toList))))) =
      (l.reverse.dropWhile isSpace).reverse := by
  cases l with
  | nil =>
    have := replace_fenceOpen_bare []
    rw [List.append_nil] at this
    rw [List.nil_append, this]
    decide!
  | cons c cs =>
    have hc : isSpace c = false := hl c rfl
    have hne : c ≠ '`' := by
      intro e
      apply hhead
      obtain ⟨w, hw1, hw2, _⟩ := rtrim_decompose (c :: cs)
      generalize ((c :: cs).reverse.dropWhile isSpace).reverse = core at *
      cases core with
      | nil =>
        have := hw2 c (by rw [List.nil_append] at hw1; rw [← hw1]; exact List.mem_cons_self c cs)
        rw [hc] at this
        exact absurd this (by decide)
      | cons d ds =>
        simp only [List.cons_append, List.cons.injEq] at hw1
        rw [← hw1.1, e]; rfl
    have hpre : ("```".toList).isPrefixOf (c :: cs ++ "```".toList) = false := by
      have h2 : ¬ '`' = c := fun e => hne e.symm
      show (['`', '`', '`'].isPrefixOf (c :: (cs ++ "```".toList))) = false
      simp [List.isPrefixOf, h2]
    rw [replace_fenceOpen_bare_none _ hpre]
    exact clean_tail (c :: cs) hl hhead hlast

theorem cleanFenced_tagged (tag : String) (interior : Str)
    (hhead : (trim interior).head? ≠ some '`') (hlast : (trim interior).getLast? ≠ some '`') :
    cleanFenced tag ("```".toList ++ tag.toList ++ interior ++ "```".toList) =
      trim interior := by
  have hne : ("```".toList ++ tag.toList ++ interior ++ "```".toList).isEmpty = false := rfl
  unfold cleanFenced
  simp only [hne, Bool.false_eq_true, if_false]
  rw [List.append_assoc _ interior, replace_fenceOpen_tag, dropWhile_isSpace_append_fence]
  exact clean_tail_after_bare _ (head_dropWhile_isSpace interior) hhead hlast

theorem cleanFenced_bare (tag : String) (interior : Str)
    (htag : (tag.toList).isPrefixOf (interior ++ "```".toList) = false)
    (hhead : (trim interior).head? ≠ some '`') (hlast : (trim interior).getLast? ≠ some '`') :
    cleanFenced tag ("```".toList ++ interior ++ "```".toList) = trim interior := by
  have hne : ("```".toList ++ interior ++ "```".toList).isEmpty = false := rfl
  unfold cleanFenced
  simp only [hne, Bool.false_eq_true, if_false]
  rw [List.append_assoc _ interior, replace_fenceOpen_tag_none tag _ htag,
    replace_fenceOpen_bare, dropWhile_isSpace_append_fence]
  exact clean_tail _ (head_dropWhile_isSpace interior) hhead hlast

theorem not_prefix_append_fence (tag interior : Str) (hno : ∀ c ∈ tag, c ≠ '`')
    (h : ¬ tag <+: interior) : tag.isPrefixOf (interior ++ "```".toList) = false := by
  induction tag generalizing interior with
  | nil => exact absurd (List.nil_prefix) h
  | cons a as ih =>
    cases interior with
    | nil =>
      have h1 : ¬ '`' = a := fun e => hno a (List.mem_cons_self a as) e.symm
      have h2 : ¬ a = '`' := fun e => h1 e.symm
      show ((a :: as).isPrefixOf ['`', '`', '`']) = false
      simp [List.isPrefixOf, h2]
    | cons c cs =>
      by_cases hc : a = c
      · subst hc
        have h2 : ¬ as <+: cs := fun hp => h ((List.prefix_cons_inj a).mpr hp)
        have := ih cs (fun d hd => hno d (List.mem_cons_of_mem a hd)) h2
        simpa [List.isPrefixOf] using this
      · simp [List.isPrefixOf, hc]


/-- C9, as the claim states it: white space before the opening fence or after
the closing fence keeps the anchored patterns from matching, and a fence stays
in the result. -/
theorem fenced_outer_whitespace_kept :
    cleanSql (" ".toList ++ ("```sql".toList ++ "\nSELECT 1\n".toList ++ "```".toList)) =
      "```sql\nSELECT 1".toList ∧
    cleanSql (" ".toList ++ ("```sql".toList ++ "\nSELECT 1\n".toList ++ "```".toList)) ≠
      trim "\nSELECT 1\n".toList ∧
    cleanRails ("```ruby".toList ++ "\nUser.all\n".toList ++ "```".toList ++ "\n".toList) =
      "User.all\n```".toList ∧
    cleanRails ("```ruby".toList ++ "\nUser.all\n".toList ++ "```".toList ++ "\n".toList) ≠
      trim "\nUser.all\n".toList := by
  decide!

/-- A backtick at either end of the trimmed interior is removed as well, and
a bare fence followed by the tag reads the tag as a fence label. -/
theorem fenced_interior_edges :
    cleanSql ("```sql".toList ++ "\n`a` + `b`\n".toList ++ "```".toList) = "a` + `b".toList ∧
    cleanSql ("```".toList ++ "sql_mode\n".toList ++ "```".toList) = "_mode".toList := by
  decide!

/-- C9, amended: when the response begins with the opening fence (with the
tag of the style, or bare and not followed by that tag) and ends with the
closing fence, and the interior stripped of surrounding white space neither
begins nor ends with a backtick, `cleanSql` and `cleanRails` return the
interior stripped of surrounding white space and nothing else is changed. -/
theorem clean_fenced_response (interior : Str)
    (hhead : (trim interior).head? ≠ some '`') (hlast : (trim interior).getLast? ≠ some '`') :
    cleanSql ("```sql".toList ++ interior ++ "```".toList) = trim interior ∧
    cleanRails ("```ruby".toList ++ interior ++ "```".toList) = trim interior ∧
    (("sql".toList).isPrefixOf interior = false →
      cleanSql ("```".toList ++ interior ++ "```".toList) = trim interior) ∧
    (("ruby".toList).isPrefixOf interior = false →
      cleanRails ("```".toList ++ interior ++ "```".toList) = trim interior) := by
  refine ⟨cleanFenced_tagged "sql" interior hhead hlast,
    cleanFenced_tagged "ruby" interior hhead hlast, fun h => ?_, fun h => ?_⟩
  · refine cleanFenced_bare "sql" interior ?_ hhead hlast
    apply not_prefix_append_fence _ _ (by decide)
    intro hp
    rw [List.isPrefixOf_iff_prefix.mpr hp] at h
    exact absurd h (by decide)
  · refine cleanFenced_bare "ruby" interior ?_ hhead hlast
    apply not_prefix_append_fence _ _ (by decide)
    intro hp
    rw [List.isPrefixOf_iff_prefix.mpr hp] at h
    exact absurd h (by decide)

theorem clean_fenced_response_witness :
    cleanSql ("```sql".toList ++ "\nSELECT * FROM accounts;\n".toList ++ "```".toList) =
      trim "\nSELECT * FROM accounts;\n".toList ∧
    cleanRails ("```ruby".toList ++ "\nSELECT * FROM accounts;\n".toList ++ "```".toList) =
      trim "\nSELECT * FROM accounts;\n".toList ∧
    cleanSql ("```".toList ++ "\nSELECT * FROM accounts;\n".toList ++ "```".toList) =
      trim "\nSELECT * FROM accounts;\n".toList ∧
    cleanRails ("```".toList ++ "\nSELECT * FROM accounts;\n".toList ++ "```".toList) =
      trim "\nSELECT * FROM accounts;\n".toList :=
  have h := clean_fenced_response "\nSELECT * FROM accounts;\n".toList (by decide!) (by decide!)
  ⟨h.1, h.2.1, h.2.2.1 (by decide!), h.2.2.2 (by decide!)⟩


/-! ## The order of the table blocks -/

theorem map_fst_setOwn (k : Str) (v : TableInfo) (l : List (Str × TableInfo)) :
    (setOwn k v l).map Prod.fst = addKey (l.map Prod.fst) k := by
  induction l with
  | nil => simp [setOwn, addKey]
  | cons p ps ih =>
    obtain ⟨k1, v1⟩ := p
    by_cases h : k1 = k
    · subst h
      simp only [setOwn, if_true, List.map_cons, addKey, List.mem_cons, true_or]
    · have h2 : ¬ k = k1 := fun e => h e.symm
      unfold addKey at ih ⊢
      by_cases hm : k ∈ ps.map Prod.fst
      · rw [if_pos hm] at ih
        simp only [setOwn, h, if_false, List.map_cons, ih]
        rw [if_pos (List.mem_cons_of_mem _ hm)]
      · rw [if_neg hm] at ih
        simp only [setOwn, h, if_false, List.map_cons, ih]
        rw [if_neg (fun hmem => by
          rcases List.mem_cons.mp hmem with e | e
          · exact h2 e
          · exact hm e)]
        rfl

theorem map_fst_modify (k : Str) (f : TableInfo → TableInfo) (l : List (Str × TableInfo)) :
    (l.map fun p => if p.1 = k then (p.1, f p.2) else p).map Prod.fst = l.map Prod.fst := by
  induction l with
  | nil => rfl
  | cons p ps ih =>
    simp only [List.map_cons, ih]
    split <;> rfl

/-- The own keys after a line: the key the line creates, unless it is
`__proto__`, is added to the keys before the line. -/
theorem processLine_keys (st : ExState) (line : Str) :
    (processLine st line).tables.map Prod.fst =
      (((createdKey line).toList).filter fun k => k ≠ protoKey).foldl addKey
        (st.tables.map Prod.fst) := by
  cases hs : skipLine (trim line) with
  | true => simp [processLine_skip st line hs, createdKey, hs]
  | false =>
    cases hm : reMatch createRe (trim line) with
    | some m =>
      rw [processLine_create st line m hs hm]
      by_cases hk : toStr (m.group 1) = protoKey
      · simp [createdKey, hs, hm, tablesSet, hk]
      · simp [createdKey, hs, hm, tablesSet, hk, map_fst_setOwn]
    | none =>
      cases hc : truthy st.currentTable with
      | false => simp [processLine_idle st line hs hm hc, createdKey, hs, hm]
      | true =>
        rw [processLine_inside st line hs hm hc]
        simp only [createdKey, hs, hm, Bool.false_eq_true, if_false, Option.map_none',
          Option.toList_none, List.filter_nil, List.foldl_nil]
        unfold tablesModify
        split
        · rfl
        · exact map_fst_modify (toStr st.currentTable)
            (fun info => pkStep (trim line) (columnStep (trim line) info)) st.tables

theorem foldl_processLine_keys (lines : List Str) (st : ExState) :
    (lines.foldl processLine st).tables.map Prod.fst =
      ((lines.filterMap createdKey).filter fun k => k ≠ protoKey).foldl addKey
        (st.tables.map Prod.fst) := by
  induction lines generalizing st with
  | nil => rfl
  | cons l ls ih =>
    rw [List.foldl_cons, ih, processLine_keys]
    cases h : createdKey l with
    | none => simp [List.filterMap_cons, h]
    | some k =>
      by_cases hk : k = protoKey
      · simp [List.filterMap_cons, h, hk]
      · simp [List.filterMap_cons, h, hk, List.filter_cons]

/-- The own keys of the extracted tables are the created identifiers other
than `__proto__`, in the order in which each was first created. -/
theorem extractModel_keys (schemaText : Str) :
    (extractModel schemaText).tables.map Prod.fst =
      firstSeen ((createdKeys schemaText).filter fun k => k ≠ protoKey) :=
  foldl_processLine_keys _ initState


theorem map_fst_insertSorted (le : Str → Str → Bool) (x : Str × TableInfo)
    (l : List (Str × TableInfo)) :
    (insertSorted (fun p q => le p.1 q.1) x l).map Prod.fst =
      insertSorted le x.1 (l.map Prod.fst) := by
  induction l with
  | nil => rfl
  | cons y ys ih =>
    simp only [insertSorted, List.map_cons]
    split
    · rfl
    · simp only [List.map_cons, ih]

theorem map_fst_sortBy (le : Str → Str → Bool) (l : List (Str × TableInfo)) :
    (sortBy (fun p q => le p.1 q.1) l).map Prod.fst = sortBy le (l.map Prod.fst) := by
  induction l with
  | nil => rfl
  | cons y ys ih =>
    have h := map_fst_insertSorted le y (sortBy (fun p q => le p.1 q.1) ys)
    simp only [sortBy, List.foldr_cons, List.map_cons] at h ih ⊢
    rw [h, ih]

theorem map_fst_filter (q : Str → Bool) (l : List (Str × TableInfo)) :
    (l.filter fun p => q p.1).map Prod.fst = (l.map Prod.fst).filter q := by
  induction l with
  | nil => rfl
  | cons y ys ih =>
    simp only [List.filter_cons, List.map_cons]
    split
    · simp only [List.map_cons, ih]
    · exact ih

/-- The keys in the order of `Object.entries` are the own keys in block
order. -/
theorem ownEntries_keys (l : List (Str × TableInfo)) :
    (ownEntries l).map Prod.fst = blockOrder (l.map Prod.fst) := by
  unfold ownEntries blockOrder
  rw [List.map_append,
    map_fst_sortBy (fun a b => decide (digitsValue a ≤ digitsValue b)),
    map_fst_filter isArrayIndex, map_fst_filter fun k => !isArrayIndex k]

theorem insertSorted_ne_nil {α : Type} (le : α → α → Bool) (x : α) (l : List α) :
    insertSorted le x l ≠ [] := by
  cases l with
  | nil => simp [insertSorted]
  | cons y ys => unfold insertSorted; split <;> simp

theorem sortBy_eq_nil {α : Type} (le : α → α → Bool) (l : List α) (h : sortBy le l = []) :
    l = [] := by
  cases l with
  | nil => rfl
  | cons y ys => exact absurd h (insertSorted_ne_nil le y _)

theorem ownEntries_eq_nil (l : List (Str × TableInfo)) (h : ownEntries l = []) : l = [] := by
  cases l with
  | nil => rfl
  | cons y ys =>
    exfalso
    unfold ownEntries at h
    obtain ⟨h1, h2⟩ := List.append_eq_nil.mp h
    have h3 := sortBy_eq_nil _ _ h1
    by_cases hy : isArrayIndex y.1 = true
    · simp [List.filter_cons, hy] at h3
    · simp [List.filter_cons, hy] at h2

theorem foldl_addKey_ne_nil (ks acc : List Str) (h : acc ≠ []) : ks.foldl addKey acc ≠ [] := by
  induction ks generalizing acc with
  | nil => exact h
  | cons k ks ih =>
    apply ih
    unfold addKey
    split
    · exact h
    · simp

theorem firstSeen_ne_nil (ks : List Str) (h : ks ≠ []) : firstSeen ks ≠ [] := by
  cases ks with
  | nil => exact absurd rfl h
  | cons k ks => exact foldl_addKey_ne_nil ks _ (by simp [addKey])

theorem zipWith_renderTable (l : List (Str × TableInfo)) :
    List.zipWith renderTable (l.map Prod.fst) (l.map Prod.snd) =
      l.map fun p => renderTable p.1 p.2 := by
  induction l with
  | nil => rfl
  | cons y ys ih => simp only [List.map_cons, List.zipWith_cons_cons, ih]

/-- Identifiers none of which is an array index are listed in the order
given. -/
theorem blockOrder_of_no_index (ks : List Str) (h : ∀ k ∈ ks, isArrayIndex k = false) :
    blockOrder ks = ks := by
  unfold blockOrder
  have h1 : ks.filter isArrayIndex = [] := by
    rw [List.filter_eq_nil_iff]
    intro k hk
    simp [h k hk]
  have h2 : (ks.filter fun k => !isArrayIndex k) = ks := by
    rw [List.filter_eq_self]
    intro k hk
    simp [h k hk]
  rw [h1, h2]
  rfl

/-- C6, as the claim states it: the tables `2` and `1` are created in this
order, and the summary lists the block of `1` before the block of `2`. -/
theorem numeric_tables_reordered :
    createdKeys "CREATE TABLE 2 (\n  a INT\n);\nCREATE TABLE 1 (\n  b INT\n);".toList =
      ["2".toList, "1".toList] ∧
    (extractSchemaSummary
        "CREATE TABLE 2 (\n  a INT\n);\nCREATE TABLE 1 (\n  b INT\n);".toList).schemaSummary =
      ("AVAILABLE TABLE NAMES (use ONLY these exact names): 1, 2\n\n" ++
        "Available Tables and Columns:\n" ++
        "\nTable: 1\n  Columns: b\n" ++ "\nTable: 2\n  Columns: a\n").toList := by
  decide!

/-- C6, amended: for a text that creates at least one table and does not
create `__proto__`, the summary is the header, then one block per table, then
the relationships part; the blocks of the tables whose identifier is an array
index (a canonical decimal numeral below `2^32 - 1`) come first in ascending
numeric order, and the blocks of all other tables follow in the order in which
each identifier was first created. -/
theorem blocks_in_block_order (schemaText : Str)
    (hne : (trim schemaText).isEmpty = false)
    (hcreated : createdKeys schemaText ≠ [])
    (hproto : protoKey ∉ createdKeys schemaText) :
    ∃ infos : List TableInfo,
      infos.length = (blockOrder (firstSeen (createdKeys schemaText))).length ∧
      (extractSchemaSummary schemaText).schemaSummary =
        summaryHeader (extractSchemaSummary schemaText).tableNames ++
          (List.zipWith renderTable (blockOrder (firstSeen (createdKeys schemaText)))
            infos).flatten ++
          renderRelationships (extractModel schemaText).relationships := by
  have hnil : schemaText.isEmpty = false := by
    cases hs : schemaText.isEmpty with
    | false => rfl
    | true => rw [trim_nil_of_isEmpty schemaText hs] at hne; exact absurd hne (by decide)
  have hfilter : ((createdKeys schemaText).filter fun k => k ≠ protoKey) =
      createdKeys schemaText := by
    rw [List.filter_eq_self]
    intro k hk
    have : k ≠ protoKey := fun e => hproto (e ▸ hk)
    simpa using this
  have hkeys : (extractModel schemaText).tables.map Prod.fst =
      firstSeen (createdKeys schemaText) := by
    rw [extractModel_keys, hfilter]
  have hown : (ownEntries (extractModel schemaText).tables).map Prod.fst =
      blockOrder (firstSeen (createdKeys schemaText)) := by
    rw [ownEntries_keys, hkeys]
  have hnames : ((tableNamesOf (extractModel schemaText)).length == 0) = false := by
    cases hl : tableNamesOf (extractModel schemaText) with
    | cons a as => rfl
    | nil =>
      exfalso
      have h1 := sortBy_eq_nil _ _ hl
      have h2 := ownEntries_eq_nil _ (List.map_eq_nil_iff.mp h1)
      have h3 := firstSeen_ne_nil _ hcreated
      rw [← hkeys, h2] at h3
      exact h3 rfl
  refine ⟨(ownEntries (extractModel schemaText).tables).map Prod.snd, ?_, ?_⟩
  · rw [← hown, List.length_map, List.length_map]
  · rw [← hown, zipWith_renderTable]
    simp only [extractSchemaSummary, hnil, hne, Bool.or_self, Bool.false_eq_true, if_false,
      renderSummary, renderTables, hnames]

theorem blocks_in_block_order_witness :
    blockOrder (firstSeen (createdKeys
        "CREATE TABLE users (\n  id INT\n);\nCREATE TABLE 7 (\n);".toList)) =
      ["7".toList, "users".toList] ∧
    ∃ infos : List TableInfo,
      infos.length = (blockOrder (firstSeen (createdKeys
        "CREATE TABLE users (\n  id INT\n);\nCREATE TABLE 7 (\n);".toList))).length ∧
      (extractSchemaSummary
          "CREATE TABLE users (\n  id INT\n);\nCREATE TABLE 7 (\n);".toList).schemaSummary =
        summaryHeader (extractSchemaSummary
            "CREATE TABLE users (\n  id INT\n);\nCREATE TABLE 7 (\n);".toList).tableNames ++
          (List.zipWith renderTable (blockOrder (firstSeen (createdKeys
            "CREATE TABLE users (\n  id INT\n);\nCREATE TABLE 7 (\n);".toList)))
            infos).flatten ++
          renderRelationships (extractModel
            "CREATE TABLE users (\n  id INT\n);\nCREATE TABLE 7 (\n);".toList).relationships :=
  ⟨by decide!, blocks_in_block_order _ (by decide!) (by decide!) (by decide!)⟩


/-! ## The table-name sequence -/

theorem strLe_total (a b : Str) : strLe a b = true ∨ strLe b a = true := by
  induction a generalizing b with
  | nil => exact Or.inl rfl
  | cons x xs ih =>
    cases b with
    | nil => exact Or.inr rfl
    | cons y ys =>
      simp only [strLe, Bool.or_eq_true, decide_eq_true_eq, Bool.and_eq_true, beq_iff_eq]
      rcases Nat.lt_trichotomy x.toNat y.toNat with h | h | h
      · exact Or.inl (Or.inl h)
      · rcases ih ys with h2 | h2
        · exact Or.inl (Or.inr ⟨h, h2⟩)
        · exact Or.inr (Or.inr ⟨h.symm, h2⟩)
      · exact Or.inr (Or.inl h)

theorem strLe_trans (a b c : Str) (h1 : strLe a b = true) (h2 : strLe b c = true) :
    strLe a c = true := by
  induction a generalizing b c with
  | nil => rfl
  | cons x xs ih =>
    cases b with
    | nil => simp [strLe] at h1
    | cons y ys =>
      cases c with
      | nil => simp [strLe] at h2
      | cons z zs =>
        simp only [strLe, Bool.or_eq_true, decide_eq_true_eq, Bool.and_eq_true,
          beq_iff_eq] at h1 h2 ⊢
        rcases h1 with h1 | ⟨e1, h1⟩
        · rcases h2 with h2 | ⟨e2, _⟩
          · exact Or.inl (by omega)
          · exact Or.inl (by omega)
        · rcases h2 with h2 | ⟨e2, h2⟩
          · exact Or.inl (by omega)
          · exact Or.inr ⟨by omega, ih ys zs h1 h2⟩

theorem toNat_injective (x y : Char) (h : x.toNat = y.toNat) : x = y := by
  rw [← Char.ofNat_toNat x, ← Char.ofNat_toNat y, h]

theorem strLe_antisymm (a b : Str) (h1 : strLe a b = true) (h2 : strLe b a = true) :
    a = b := by
  induction a generalizing b with
  | nil =>
    cases b with
    | nil => rfl
    | cons y ys => simp [strLe] at h2
  | cons x xs ih =>
    cases b with
    | nil => simp [strLe] at h1
    | cons y ys =>
      simp only [strLe, Bool.or_eq_true, decide_eq_true_eq, Bool.and_eq_true,
        beq_iff_eq] at h1 h2
      rcases h1 with h1 | ⟨e1, h1⟩
      · rcases h2 with h2 | ⟨e2, _⟩ <;> omega
      · rcases h2 with h2 | ⟨_, h2⟩
        · omega
        · rw [toNat_injective x y e1, ih ys h1 h2]

theorem insertSorted_eq_orderedInsert {α : Type} (le : α → α → Bool) (x : α) (l : List α) :
    insertSorted le x l = List.orderedInsert (fun a b => le a b = true) x l := by
  induction l with
  | nil => rfl
  | cons y ys ih => simp only [insertSorted, List.orderedInsert, ih]

theorem sortBy_eq_insertionSort {α : Type} (le : α → α → Bool) (l : List α) :
    sortBy le l = List.insertionSort (fun a b => le a b = true) l := by
  induction l with
  | nil => rfl
  | cons y ys ih =>
    have h : sortBy le (y :: ys) = insertSorted le y (sortBy le ys) := rfl
    rw [h, ih, insertSorted_eq_orderedInsert, List.insertionSort]

theorem sortBy_perm {α : Type} (le : α → α → Bool) (l : List α) : (sortBy le l).Perm l := by
  rw [sortBy_eq_insertionSort]
  exact List.perm_insertionSort _ l

theorem sortBy_strLe_sorted (l : List Str) :
    (sortBy strLe l).Pairwise fun a b => strLe a b = true := by
  rw [sortBy_eq_insertionSort]
  exact @List.sorted_insertionSort _ (fun a b => strLe a b = true) _
    ⟨strLe_total⟩ ⟨strLe_trans⟩ l

theorem blockOrder_perm (ks : List Str) : (blockOrder ks).Perm ks :=
  ((sortBy_perm _ _).append_right _).trans (List.filter_append_perm isArrayIndex ks)

theorem foldl_addKey_spec (ks acc : List Str) (hacc : acc.Nodup) :
    (ks.foldl addKey acc).Nodup ∧ ∀ k, k ∈ ks.foldl addKey acc ↔ k ∈ acc ∨ k ∈ ks := by
  induction ks generalizing acc with
  | nil => exact ⟨hacc, fun k => by simp⟩
  | cons x xs ih =>
    have hx : (addKey acc x).Nodup ∧ ∀ k, k ∈ addKey acc x ↔ k ∈ acc ∨ k = x := by
      unfold addKey
      split
      · rename_i hmem
        refine ⟨hacc, fun k => ⟨Or.inl, fun h => ?_⟩⟩
        rcases h with h | h
        · exact h
        · exact h ▸ hmem
      · rename_i hmem
        refine ⟨?_, fun k => by simp⟩
        rw [List.nodup_append]
        refine ⟨hacc, List.nodup_singleton x, ?_⟩
        intro a ha hb
        rw [List.mem_singleton] at hb
        exact hmem (hb ▸ ha)
    obtain ⟨h1, h2⟩ := ih (addKey acc x) hx.1
    refine ⟨h1, fun k => ?_⟩
    rw [List.foldl_cons, h2, hx.2, List.mem_cons, or_assoc]

theorem firstSeen_spec (ks : List Str) :
    (firstSeen ks).Nodup ∧ ∀ k, k ∈ firstSeen ks ↔ k ∈ ks := by
  obtain ⟨h1, h2⟩ := foldl_addKey_spec ks [] List.nodup_nil
  exact ⟨h1, fun k => by rw [firstSeen, h2]; simp⟩

theorem tableNamesOf_extractModel (schemaText : Str) :
    tableNamesOf (extractModel schemaText) =
      sortBy strLe (blockOrder (firstSeen
        ((createdKeys schemaText).filter fun k => k ≠ protoKey))) := by
  unfold tableNamesOf
  rw [ownEntries_keys, extractModel_keys]

/-- The part of C5 that holds on every text: the table names are in ascending
code-unit order, without duplicates, and are exactly the created identifiers
other than `__proto__`; two texts that create the same identifiers in any
order have the same table names. -/
theorem tableNames_sorted_distinct (schemaText : Str) :
    (tableNamesOf (extractModel schemaText)).Pairwise (fun a b => strLe a b = true) ∧
    (tableNamesOf (extractModel schemaText)).Nodup ∧
    (∀ k, k ∈ tableNamesOf (extractModel schemaText) ↔
      k ∈ createdKeys schemaText ∧ k ≠ protoKey) ∧
    ∀ other : Str, (∀ k, k ∈ createdKeys other ↔ k ∈ createdKeys schemaText) →
      tableNamesOf (extractModel other) = tableNamesOf (extractModel schemaText) := by
  have hperm : ∀ s : Str, (tableNamesOf (extractModel s)).Perm
      (firstSeen ((createdKeys s).filter fun k => k ≠ protoKey)) := fun s => by
    rw [tableNamesOf_extractModel]
    exact (sortBy_perm _ _).trans (blockOrder_perm _)
  have hsorted : ∀ s : Str,
      (tableNamesOf (extractModel s)).Pairwise (fun a b => strLe a b = true) := fun s => by
    rw [tableNamesOf_extractModel]
    exact sortBy_strLe_sorted _
  have hnodup : ∀ s : Str, (tableNamesOf (extractModel s)).Nodup := fun s =>
    (hperm s).nodup_iff.mpr (firstSeen_spec _).1
  have hmem : ∀ (s : Str) (k : Str), k ∈ tableNamesOf (extractModel s) ↔
      k ∈ createdKeys s ∧ k ≠ protoKey := fun s k => by
    rw [(hperm s).mem_iff, (firstSeen_spec _).2, List.mem_filter]
    simp
  refine ⟨hsorted schemaText, hnodup schemaText, hmem schemaText, fun other hsame => ?_⟩
  have hp : (tableNamesOf (extractModel other)).Perm (tableNamesOf (extractModel schemaText)) := by
    rw [List.perm_ext_iff_of_nodup (hnodup other) (hnodup schemaText)]
    intro k
    rw [hmem, hmem, hsame]
  exact @List.eq_of_perm_of_sorted _ (fun a b => strLe a b = true) ⟨strLe_antisymm⟩ _ _ hp
    (hsorted other) (hsorted schemaText)


/-! ## The target column of a relationship is always a capture -/

theorem mem_run_seq (a b : Re) (s t : MState) :
    t ∈ (Re.seq a b).run s ↔ ∃ u ∈ a.run s, t ∈ b.run u := by
  rw [run_seq, List.mem_flatMap]

theorem bindsTarget_seq (a b : Re) (h : ∀ u, ∀ t ∈ b.run u, BindsTarget t) (s : MState) :
    ∀ t ∈ (Re.seq a b).run s, BindsTarget t := by
  intro t ht
  obtain ⟨u, _, hu⟩ := (mem_run_seq a b s t).mp ht
  exact h u t hu

theorem bindsTarget_seq_eps (a : Re) (h : ∀ u, ∀ t ∈ a.run u, BindsTarget t) (s : MState) :
    ∀ t ∈ (Re.seq a .eps).run s, BindsTarget t := by
  intro t ht
  obtain ⟨u, hu, hu2⟩ := (mem_run_seq a .eps s t).mp ht
  simp only [Re.run, List.mem_singleton] at hu2
  rw [hu2]
  exact h s u hu

theorem optQuote_caps (s t : MState) (h : t ∈ optQuote.run s) : t.caps = s.caps := by
  unfold optQuote at h
  simp only [Re.run, List.mem_append, List.mem_singleton] at h
  rcases h with h | h
  · cases hr : s.rest with
    | nil => rw [hr] at h; simp at h
    | cons c cs =>
      rw [hr] at h
      by_cases hq : isQuote c = true
      · simp only [hq, if_true, List.mem_singleton] at h
        rw [h]
      · simp [hq] at h
  · rw [h]

theorem plus_run_take (p : Char → Bool) (s t : MState) (h : t ∈ (Re.plus p).run s) :
    s.rest.take (t.pos - s.pos) ≠ [] := by
  unfold Re.plus at h
  obtain ⟨u, hu, hu2⟩ := (mem_run_seq _ _ s t).mp h
  cases hr : s.rest with
  | nil => simp [Re.run, hr] at hu
  | cons c cs =>
    simp only [Re.run, hr] at hu
    by_cases hp : p c = true
    · simp only [hp, if_true, List.mem_singleton] at hu
      rw [run_star, hu] at hu2
      obtain ⟨run, _, _, h3, _⟩ := mem_starRuns _ _ _ _ _ hu2
      have h4 : t.pos - s.pos = (run.length) + 1 := by
        have : t.pos = s.pos + 1 + run.length := h3
        omega
      rw [h4, List.take_succ_cons]
      simp
    · simp [hp] at hu

theorem quotedWord_binds (s t : MState) (h : t ∈ (quotedWord 3).run s) : BindsTarget t := by
  have e : quotedWord 3 =
      Re.seq optQuote (Re.seq (.grp 3 (Re.plus isWord)) (Re.seq optQuote .eps)) := rfl
  rw [e] at h
  obtain ⟨a, _, h1⟩ := (mem_run_seq _ _ s t).mp h
  obtain ⟨b, hb, h2⟩ := (mem_run_seq _ _ a t).mp h1
  obtain ⟨c, hc, h3⟩ := (mem_run_seq _ _ b t).mp h2
  simp only [Re.run, List.mem_singleton] at h3
  have hcaps : t.caps = b.caps := by rw [h3]; exact optQuote_caps b c hc
  have hb2 : b ∈ ((Re.plus isWord).run a).map fun t =>
      (⟨t.pos, t.rest, (3, a.rest.take (t.pos - a.pos)) :: t.caps⟩ : MState) := by
    simpa only [Re.run] using hb
  obtain ⟨d, hd, hd2⟩ := List.mem_map.mp hb2
  refine ⟨a.rest.take (d.pos - a.pos), d.caps, ?_, plus_run_take isWord a d hd⟩
  rw [hcaps, ← hd2]

theorem targetTail_binds (u t : MState)
    (h : t ∈ (Re.seq (quotedWord 3) (Re.seq (Re.str ")") .eps)).run u) : BindsTarget t := by
  obtain ⟨v, hv, h1⟩ := (mem_run_seq _ _ u t).mp h
  rw [str_seq_run] at h1
  obtain ⟨w, older, hw, hne⟩ := quotedWord_binds u v hv
  split at h1
  · simp only [Re.run, List.mem_singleton] at h1
    exact ⟨w, older, by rw [h1]; exact hw, hne⟩
  · simp at h1

theorem referencesTail_binds (u t : MState) (h : t ∈ referencesTail.run u) :
    BindsTarget t := by
  have e : referencesTail = Re.seq (Re.stri "REFERENCES") (Re.seq sp1 (Re.seq (quotedWord 2)
      (Re.seq sp0 (Re.seq (Re.str "(") (Re.seq (quotedWord 3)
        (Re.seq (Re.str ")") .eps)))))) := rfl
  rw [e] at h
  exact bindsTarget_seq _ _ (bindsTarget_seq _ _ (bindsTarget_seq _ _ (bindsTarget_seq _ _
    (bindsTarget_seq _ _ targetTail_binds)))) u t h

theorem fkTableRe_binds (u t : MState) (h : t ∈ fkTableRe.run u) : BindsTarget t := by
  have e : fkTableRe = Re.seq (Re.stri "FOREIGN") (Re.seq sp1 (Re.seq (Re.stri "KEY")
      (Re.seq sp0 (Re.seq (Re.str "(") (Re.seq (quotedWord 1) (Re.seq (Re.str ")")
        (Re.seq sp1 (Re.seq referencesTail .eps)))))))) := rfl
  rw [e] at h
  exact bindsTarget_seq _ _ (bindsTarget_seq _ _ (bindsTarget_seq _ _ (bindsTarget_seq _ _
    (bindsTarget_seq _ _ (bindsTarget_seq _ _ (bindsTarget_seq _ _ (bindsTarget_seq _ _
      (bindsTarget_seq_eps _ referencesTail_binds)))))))) u t h

theorem fkInlineRe_binds (u t : MState) (h : t ∈ fkInlineRe.run u) : BindsTarget t := by
  have e : fkInlineRe = Re.seq .bol (Re.seq sp0 (Re.seq (quotedWord 1) (Re.seq sp1
      (Re.seq (.star isDot) (Re.seq referencesTail .eps))))) := rfl
  rw [e] at h
  exact bindsTarget_seq _ _ (bindsTarget_seq _ _ (bindsTarget_seq _ _ (bindsTarget_seq _ _
    (bindsTarget_seq _ _ (bindsTarget_seq_eps _ referencesTail_binds))))) u t h

theorem execFrom_some (r : Re) (x : Str) (pos : Nat) (m : Match)
    (h : execFrom r pos x = some m) :
    ∃ u t, t ∈ r.run u ∧ m.caps = t.caps := by
  induction x generalizing pos with
  | nil =>
    unfold execFrom at h
    cases hh : (r.run ⟨pos, [], []⟩).head? with
    | none => simp [hh] at h
    | some t =>
      simp only [hh, Option.map_some', Option.some.injEq] at h
      exact ⟨_, t, List.mem_of_mem_head? hh, by rw [← h]⟩
  | cons c cs ih =>
    unfold execFrom at h
    cases hh : (r.run ⟨pos, c :: cs, []⟩).head? with
    | none => simp only [hh] at h; exact ih (pos + 1) h
    | some t =>
      simp only [hh, Option.some.injEq] at h
      exact ⟨_, t, List.mem_of_mem_head? hh, by rw [← h]⟩

/-- The fallback `|| 'id'` of line 44 is never taken: whenever a line yields a
relationship, group 3 of the match is a non-empty capture and is the target
column recorded. -/
theorem fkStep_target_is_capture (cur trimmed : Str) (r : Relationship)
    (h : r ∈ fkStep cur trimmed) :
    ∃ m, fkMatch trimmed = some m ∧ m.group 3 = some r.toColumn ∧ r.toColumn ≠ [] := by
  unfold fkStep at h
  cases hm : fkMatch trimmed with
  | none => simp [hm] at h
  | some m =>
    have hb : ∃ w older, m.caps = (3, w) :: older ∧ w ≠ [] := by
      unfold fkMatch at hm
      cases h1 : reMatch fkTableRe trimmed with
      | some m1 =>
        rw [h1] at hm
        simp only [Option.orElse, Option.some.injEq] at hm
        obtain ⟨u, t, ht, hc⟩ := execFrom_some _ _ _ _ h1
        rw [← hm, hc]
        exact fkTableRe_binds u t ht
      | none =>
        rw [h1] at hm
        simp only [Option.orElse] at hm
        obtain ⟨u, t, ht, hc⟩ := execFrom_some _ _ _ _ hm
        rw [hc]
        exact fkInlineRe_binds u t ht
    obtain ⟨w, older, hcaps, hne⟩ := hb
    have hg : m.group 3 = some w := by simp [Match.group, hcaps]
    have htr : truthy (some w) = true := by
      cases w with
      | nil => exact absurd rfl hne
      | cons c cs => rfl
    simp only [hm, hg, htr, if_true, toStr, List.mem_singleton] at h
    refine ⟨m, rfl, ?_, ?_⟩
    · rw [hg, h]
    · rw [h]; exact hne


/-! ## Empty, absent and blank schema texts -/

theorem trim_of_all_space (t : Str) (h : ∀ c ∈ t, isSpace c = true) : trim t = [] := by
  have : t.dropWhile isSpace = [] := List.dropWhile_eq_nil_iff.mpr h
  simp [trim, this]

/-- C11: for a schema text that is absent, empty or made of white space only,
`extractSchemaSummary` returns the summary `No schema provided` and no table
name; the function is total, so nothing is raised. -/
theorem extractSchemaSummary_blank (schemaText : Option Str)
    (h : schemaText = none ∨ ∃ t, schemaText = some t ∧ ∀ c ∈ t, isSpace c = true) :
    extractSchemaSummaryArg schemaText = ⟨"No schema provided".toList, []⟩ := by
  rcases h with h | ⟨t, h, hsp⟩
  · rw [h]; rfl
  · rw [h]
    simp [extractSchemaSummaryArg, extractSchemaSummary, trim_of_all_space t hsp]

theorem extractSchemaSummary_blank_witness :
    extractSchemaSummaryArg none = ⟨"No schema provided".toList, []⟩ ∧
    extractSchemaSummaryArg (some []) = ⟨"No schema provided".toList, []⟩ ∧
    extractSchemaSummaryArg (some " \n\t \n".toList) = ⟨"No schema provided".toList, []⟩ :=
  ⟨extractSchemaSummary_blank none (Or.inl rfl),
    extractSchemaSummary_blank (some []) (Or.inr ⟨[], rfl, by decide⟩),
    extractSchemaSummary_blank (some " \n\t \n".toList) (Or.inr ⟨_, rfl, by decide⟩)⟩

/-! ## The disclosed list of model names -/

theorem toModelName_eq_spec (t : Str) :
    toModelName t = capitalizeFirst (stripTrailingS t) := by
  rw [toModelName_eq]
  unfold stripTrailingS
  generalize (if t.getLast? = some 's' then t.dropLast else t) = sg
  cases sg with
  | nil => rfl
  | cons c cs => simp [toUpperCase, capitalizeFirst]

/-- C12: for every sequence of table identifiers, `buildRailsModelNames` is
the entries `ModelName (from table: table)` of the tables, one per table and
in the same order, joined by `, `, where the model name is the identifier
without one trailing `s`, if it has one, and with its first character
upper-cased. -/
theorem buildRailsModelNames_entries (tableNames : List Str)
    (_hword : ∀ t ∈ tableNames, ∀ c ∈ t, isWord c = true) :
    buildRailsModelNames tableNames = join ", ".toList (tableNames.map modelNameEntry) ∧
      (tableNames.map modelNameEntry).length = tableNames.length := by
  refine ⟨?_, List.length_map _ _⟩
  unfold buildRailsModelNames
  congr 1
  apply List.map_congr_left
  intro t _
  simp only [toModelName_eq_spec, modelNameEntry]

theorem buildRailsModelNames_entries_witness :
    buildRailsModelNames ["accounts".toList, "address".toList, "users".toList] =
      join ", ".toList (["accounts".toList, "address".toList, "users".toList].map
        modelNameEntry) ∧
    (["accounts".toList, "address".toList, "users".toList].map modelNameEntry).length =
      ["accounts".toList, "address".toList, "users".toList].length :=
  buildRailsModelNames_entries _ (by decide!)

/-- The disclosed list for the tables `accounts`, `address` and `users`. -/
theorem buildRailsModelNames_example :
    buildRailsModelNames ["accounts".toList, "address".toList, "users".toList] =
      ("Account (from table: accounts), Addres (from table: address), " ++
        "User (from table: users)").toList := by
  decide!


/-! ## Lines that begin with a constraint keyword -/

theorem striRe_run (l : List Char) (s : MState) :
    (Re.cat (l.map fun a => Re.cls (ciEq a))).run s =
      if ciPrefixOf l s.rest then [⟨s.pos + l.length, s.rest.drop l.length, s.caps⟩]
      else [] := by
  induction l generalizing s with
  | nil => simp [Re.cat, Re.run, ciPrefixOf]
  | cons a l ih =>
    obtain ⟨pos, rest, caps⟩ := s
    cases rest with
    | nil => simp [Re.cat, Re.run, ciPrefixOf]
    | cons c cs =>
      have hstep := ih ⟨pos + 1, cs, caps⟩
      by_cases hc : ciEq a c = true
      · simp [Re.cat, Re.run, hc, hstep, ciPrefixOf, Nat.add_assoc, Nat.add_comm 1]
      · simp [Re.cat, Re.run, hc, ciPrefixOf]

theorem stri_run (w : String) (s : MState) :
    (Re.stri w).run s =
      if ciPrefixOf w.toList s.rest then
        [⟨s.pos + w.toList.length, s.rest.drop w.toList.length, s.caps⟩]
      else [] :=
  striRe_run w.toList s

theorem run_alt (a b : Re) (s : MState) : (Re.alt a b).run s = a.run s ++ b.run s := by
  simp [Re.run]

theorem self_mem_starRuns (p : Char → Bool) (caps : List (Nat × Str)) (pos : Nat) (x : Str) :
    (⟨pos, x, caps⟩ : MState) ∈ starRuns p caps pos x := by
  cases x with
  | nil => simp [starRuns]
  | cons c cs =>
    unfold starRuns
    split <;> simp

theorem kwRe_test (trimmed : Str)
    (h : ∃ kw ∈ constraintKeywords, ciPrefixOf kw trimmed = true) :
    reTest kwRe trimmed = true := by
  obtain ⟨kw, hkw, hpre⟩ := h
  have halts : (Re.alts [Re.stri "CONSTRAINT", Re.stri "PRIMARY", Re.stri "FOREIGN",
      Re.stri "KEY", Re.stri "UNIQUE", Re.stri "CHECK", Re.stri "INDEX"]).run
        ⟨0, trimmed, []⟩ ≠ [] := by
    simp only [Re.alts, run_alt, stri_run]
    simp only [constraintKeywords, List.mem_cons, List.mem_singleton, List.not_mem_nil,
      or_false] at hkw
    rcases hkw with e | e | e | e | e | e | e <;> subst e <;> simp_all
  have hrun : kwRe.run ⟨0, trimmed, []⟩ ≠ [] := by
    show (Re.seq .bol (Re.seq (.star isSpace) (Re.seq (.grp 1 (Re.alts
      [Re.stri "CONSTRAINT", Re.stri "PRIMARY", Re.stri "FOREIGN", Re.stri "KEY",
        Re.stri "UNIQUE", Re.stri "CHECK", Re.stri "INDEX"])) .eps))).run _ ≠ []
    obtain ⟨t, ht⟩ := List.exists_mem_of_ne_nil _ halts
    intro hnil
    have hmem : (⟨t.pos, t.rest, (1, trimmed.take (t.pos - 0)) :: t.caps⟩ : MState) ∈
        (Re.seq .bol (Re.seq (.star isSpace) (Re.seq (.grp 1 (Re.alts
          [Re.stri "CONSTRAINT", Re.stri "PRIMARY", Re.stri "FOREIGN", Re.stri "KEY",
            Re.stri "UNIQUE", Re.stri "CHECK", Re.stri "INDEX"])) .eps))).run
          ⟨0, trimmed, []⟩ := by
      rw [mem_run_seq]
      refine ⟨⟨0, trimmed, []⟩, by simp [Re.run], ?_⟩
      rw [mem_run_seq]
      refine ⟨⟨0, trimmed, []⟩, by rw [run_star]; exact self_mem_starRuns _ _ _ _, ?_⟩
      rw [mem_run_seq]
      refine ⟨⟨t.pos, t.rest, (1, trimmed.take (t.pos - 0)) :: t.caps⟩, ?_, by simp [Re.run]⟩
      simp only [Re.run, List.mem_map]
      exact ⟨t, ht, rfl⟩
    rw [hnil] at hmem
    exact absurd hmem (List.not_mem_nil _)
  unfold reTest reMatch
  obtain ⟨t, tl, ht⟩ := List.exists_cons_of_ne_nil hrun
  have hh : (kwRe.run ⟨0, trimmed, []⟩).head? = some t := by rw [ht]; rfl
  rw [execFrom_of_head _ _ _ _ hh]
  rfl

theorem columnStep_of_kwRe (trimmed : Str) (info : TableInfo)
    (h : reTest kwRe trimmed = true) : columnStep trimmed info = info := by
  unfold columnStep
  split
  · rfl
  · split
    · rfl
    · simp [h]

/-- C18: a line whose trimmed text begins, in either case, with CONSTRAINT,
PRIMARY, FOREIGN, KEY, UNIQUE, CHECK or INDEX adds no column, also when its
leading identifier merely has the keyword as a prefix: `key_id INT`,
`checksum TEXT`, `unique_code TEXT` and `index_no INT` add nothing, whereas
the quoted `"key_id" INT` adds `key_id`. -/
theorem keyword_prefix_adds_no_column :
    (∀ (trimmed : Str) (info : TableInfo),
      (∃ kw ∈ constraintKeywords, ciPrefixOf kw trimmed = true) →
        columnStep trimmed info = info) ∧
    tablesGet (extractModel ("CREATE TABLE t (\n  key_id INT,\n  checksum TEXT,\n" ++
      "  unique_code TEXT,\n  index_no INT\n);").toList) "t".toList = some ⟨[], none⟩ ∧
    tablesGet (extractModel "CREATE TABLE t (\n  \"key_id\" INT\n);".toList) "t".toList =
      some ⟨["key_id".toList], none⟩ :=
  ⟨fun trimmed info h => columnStep_of_kwRe trimmed info (kwRe_test trimmed h),
    by decide!, by decide!⟩

theorem keyword_prefix_adds_no_column_witness :
    columnStep "Checksum TEXT,".toList ⟨["id".toList], none⟩ = ⟨["id".toList], none⟩ :=
  keyword_prefix_adds_no_column.1 "Checksum TEXT,".toList ⟨["id".toList], none⟩
    ⟨"CHECK".toList, by decide, by decide!⟩

/-! ## A composite key behind CONSTRAINT -/

/-- C19: on the block `CREATE TABLE t (` / `a INT,` / `b INT,` /
`CONSTRAINT pk PRIMARY KEY (a, b)` / `);` the table-level pattern does not
match the composite key, the inline pattern matches with the first word of the
line, and the summary reports `Primary Key: CONSTRAINT` above the columns
`a, b`: the recorded primary key is a reserved word and not a column. -/
theorem composite_key_records_constraint :
    reMatch pkTableRe "CONSTRAINT pk PRIMARY KEY (a, b)".toList = none ∧
    (reMatch pkInlineRe "CONSTRAINT pk PRIMARY KEY (a, b)".toList).bind (fun m => m.group 1) =
      some "CONSTRAINT".toList ∧
    tablesGet (extractModel
        "CREATE TABLE t (\n  a INT,\n  b INT,\n  CONSTRAINT pk PRIMARY KEY (a, b)\n);".toList)
        "t".toList = some ⟨["a".toList, "b".toList], some "CONSTRAINT".toList⟩ ∧
    (extractSchemaSummary
        "CREATE TABLE t (\n  a INT,\n  b INT,\n  CONSTRAINT pk PRIMARY KEY (a, b)\n);".toList
      ).schemaSummary =
      ("AVAILABLE TABLE NAMES (use ONLY these exact names): t\n\n" ++
        "Available Tables and Columns:\n" ++
        "\nTable: t\n  Primary Key: CONSTRAINT\n  Columns: a, b\n").toList := by
  decide!

/-! ## A line that matches both primary-key patterns -/

/-- C14, as the claim states it: the line `id INT, PRIMARY KEY (uid)` matches
the table-level pattern with `uid` and the inline pattern with `id`, and the
primary key recorded is `uid`, the table-level capture. -/
theorem both_patterns_table_level_wins :
    (reMatch pkTableRe "id INT, PRIMARY KEY (uid)".toList).bind (fun m => m.group 1) =
      some "uid".toList ∧
    (reMatch pkInlineRe "id INT, PRIMARY KEY (uid)".toList).bind (fun m => m.group 1) =
      some "id".toList ∧
    tablesGet (extractModel "CREATE TABLE t (\n  id INT, PRIMARY KEY (uid)\n);".toList)
      "t".toList = some ⟨["id".toList], some "uid".toList⟩ := by
  decide!

/-- C14, amended: when the table-level pattern matches a line, the primary key
recorded from the line is the table-level capture, whether or not the inline
pattern matches too; the inline pattern is consulted only when the table-level
pattern fails. -/
theorem pkStep_prefers_table_level (trimmed : Str) (info : TableInfo) :
    ((reMatch pkTableRe trimmed).isSome = true →
      (pkStep trimmed info).primaryKey =
        (reMatch pkTableRe trimmed).bind fun m => m.group 1) ∧
    (reMatch pkTableRe trimmed = none → (reMatch pkInlineRe trimmed).isSome = true →
      (pkStep trimmed info).primaryKey =
        (reMatch pkInlineRe trimmed).bind fun m => m.group 1) := by
  constructor
  · intro h
    cases hm : reMatch pkTableRe trimmed with
    | none => rw [hm] at h; exact absurd h (by decide)
    | some m => simp [pkStep, pkMatch, hm, Option.orElse]
  · intro h1 h2
    cases hm : reMatch pkInlineRe trimmed with
    | none => rw [hm] at h2; exact absurd h2 (by decide)
    | some m => simp [pkStep, pkMatch, h1, hm, Option.orElse]

theorem pkStep_prefers_table_level_witness :
    (pkStep "id INT, PRIMARY KEY (uid)".toList ⟨[], none⟩).primaryKey =
      (reMatch pkTableRe "id INT, PRIMARY KEY (uid)".toList).bind (fun m => m.group 1) ∧
    (pkStep "id INT PRIMARY KEY,".toList ⟨[], none⟩).primaryKey =
      (reMatch pkInlineRe "id INT PRIMARY KEY,".toList).bind (fun m => m.group 1) :=
  ⟨(pkStep_prefers_table_level "id INT, PRIMARY KEY (uid)".toList ⟨[], none⟩).1 (by decide!),
    (pkStep_prefers_table_level "id INT PRIMARY KEY,".toList ⟨[], none⟩).2
      (by decide!) (by decide!)⟩


/-! ## Responses without a fence -/

theorem not_fence_prefix_of_head (x : Str) (h : x.head? ≠ some '`') :
    ("```".toList).isPrefixOf x = false := by
  cases x with
  | nil => rfl
  | cons c cs =>
    have h2 : ¬ '`' = c := fun e => h (by rw [← e]; rfl)
    show (['`', '`', '`'].isPrefixOf (c :: cs)) = false
    simp [List.isPrefixOf, h2]

theorem replace_fenceOpen_tag_unfenced (tag : String) (x : Str) (h : x.head? ≠ some '`') :
    replaceEmpty (Re.cat [.bol, Re.str "```", Re.str tag, sp0]) x = x := by
  show replaceEmpty (Re.seq .bol (Re.seq (Re.str "```") (Re.seq (Re.str tag)
    (Re.seq (.star isSpace) .eps)))) _ = _
  rw [replaceEmpty_bol, str_seq_run]
  simp only [not_fence_prefix_of_head x h]
  rfl

theorem fenceClose_execFrom_none (x : Str) (pos : Nat) (h : x.getLast? ≠ some '`') :
    execFrom (Re.seq (.star isSpace) (Re.seq (Re.str "```") (Re.seq .eol .eps))) pos x =
      none := by
  induction x generalizing pos with
  | nil =>
    have hnil := fenceClose_run_nil pos [] (by
      rintro ⟨w, hw, _⟩
      have := congrArg List.length hw
      simp at this)
    simp [execFrom, hnil]
  | cons c cs ih =>
    have hnil := fenceClose_run_nil pos (c :: cs) (by
      rintro ⟨w, hw, _⟩
      apply h
      rw [hw]
      simp)
    rw [execFrom_of_nil _ pos c cs hnil]
    apply ih
    cases cs with
    | nil => simp
    | cons d ds => simpa [List.getLast?_cons_cons] using h

theorem replace_fenceClose_unfenced (x : Str) (h : x.getLast? ≠ some '`') :
    replaceEmpty (Re.cat [sp0, Re.str "```", .eol]) x = x := by
  show replaceEmpty (Re.seq (.star isSpace) (Re.seq (Re.str "```") (Re.seq .eol .eps))) _ = _
  unfold replaceEmpty reMatch
  rw [fenceClose_execFrom_none x 0 h]

theorem cleanFenced_unfenced (tag : String) (text : Str)
    (hfirst : text.head? ≠ some '`') (hlast : text.getLast? ≠ some '`') :
    cleanFenced tag text = trim text := by
  unfold cleanFenced
  cases text with
  | nil => rfl
  | cons c cs =>
    simp only [List.isEmpty_cons, Bool.false_eq_true, if_false]
    rw [replace_fenceOpen_tag_unfenced tag _ hfirst,
      replace_fenceOpen_bare_none _ (not_fence_prefix_of_head _ hfirst),
      replace_fenceClose_unfenced _ hlast, replace_tickOpen_none _ hfirst,
      replace_tickClose_none _ hlast]

/-- C20: a response whose first and last characters are not backticks comes
out of `cleanSql` and of `cleanRails` with its surrounding white space removed
and nothing else changed; an empty or absent response gives the empty
string. -/
theorem clean_unfenced_only_trims :
    (∀ text : Str, text.head? ≠ some '`' → text.getLast? ≠ some '`' →
      cleanSqlArg (some text) = trim text ∧ cleanRailsArg (some text) = trim text) ∧
    cleanSqlArg none = [] ∧ cleanRailsArg none = [] ∧
    cleanSqlArg (some []) = [] ∧ cleanRailsArg (some []) = [] :=
  ⟨fun text h1 h2 => ⟨cleanFenced_unfenced "sql" text h1 h2,
    cleanFenced_unfenced "ruby" text h1 h2⟩, rfl, rfl, rfl, rfl⟩

theorem clean_unfenced_only_trims_witness :
    cleanSqlArg (some "  SELECT `name` FROM accounts;\n".toList) =
      trim "  SELECT `name` FROM accounts;\n".toList ∧
    cleanRailsArg (some "  SELECT `name` FROM accounts;\n".toList) =
      trim "  SELECT `name` FROM accounts;\n".toList :=
  clean_unfenced_only_trims.1 "  SELECT `name` FROM accounts;\n".toList
    (by decide) (by decide!)


/-! ## Blank lines and comment lines -/

theorem foldl_dropsSkipped (a b : List Str) (h : DropsSkipped a b) (st : ExState) :
    a.foldl processLine st = b.foldl processLine st := by
  induction h generalizing st with
  | nil => rfl
  | keep l _ ih => exact ih (processLine st l)
  | drop l hs _ ih => rw [List.foldl_cons, processLine_skip st l hs]; exact ih st

theorem dropsSkipped_subset (a b : List Str) (h : DropsSkipped a b) : ∀ l ∈ b, l ∈ a := by
  induction h with
  | nil => intro l hl; exact hl
  | keep l _ ih =>
    intro x hx
    rcases List.mem_cons.mp hx with e | e
    · rw [e]; exact List.mem_cons_self _ _
    · exact List.mem_cons_of_mem _ (ih x e)
  | drop l _ _ ih => intro x hx; exact List.mem_cons_of_mem _ (ih x hx)

theorem trim_eq_nil_iff (s : Str) : trim s = [] ↔ ∀ c ∈ s, isSpace c = true := by
  constructor
  · intro h
    have h1 : (s.dropWhile isSpace).reverse.dropWhile isSpace = [] := by
      simpa [trim] using h
    have h2 : ∀ c ∈ s.dropWhile isSpace, isSpace c = true := fun c hc =>
      List.dropWhile_eq_nil_iff.mp h1 c (List.mem_reverse.mpr hc)
    have h3 : s.dropWhile isSpace = [] := by
      cases hd : s.dropWhile isSpace with
      | nil => rfl
      | cons x xs =>
        have hx := head_dropWhile_isSpace s x (by rw [hd]; rfl)
        have := h2 x (by rw [hd]; exact List.mem_cons_self _ _)
        rw [hx] at this
        exact absurd this (by decide)
    exact List.dropWhile_eq_nil_iff.mp h3
  · exact trim_of_all_space s

theorem mem_of_mem_splitLines (s : Str) : ∀ l ∈ splitLines s, ∀ c ∈ l, c ∈ s := by
  induction s with
  | nil =>
    intro l hl c hc
    simp only [splitLines, List.mem_singleton] at hl
    rw [hl] at hc
    exact hc
  | cons x xs ih =>
    intro l hl c hc
    unfold splitLines at hl
    split at hl
    · rcases List.mem_cons.mp hl with e | e
      · rw [e] at hc; exact absurd hc (List.not_mem_nil _)
      · exact List.mem_cons_of_mem _ (ih l e c hc)
    · cases hsp : splitLines xs with
      | nil => exact absurd hsp (splitLines_ne_nil xs)
      | cons m ms =>
        rw [hsp] at hl ih
        simp only [List.mem_cons] at hl
        rcases hl with e | e
        · rw [e] at hc
          rcases List.mem_cons.mp hc with e2 | e2
          · rw [e2]; exact List.mem_cons_self _ _
          · exact List.mem_cons_of_mem _ (ih m (List.mem_cons_self _ _) c e2)
        · exact List.mem_cons_of_mem _ (ih l (List.mem_cons_of_mem _ e) c hc)

theorem mem_splitLines_of_mem (s : Str) (c : Char) (hc : c ∈ s) (hn : c ≠ '\n') :
    ∃ l ∈ splitLines s, c ∈ l := by
  induction s with
  | nil => exact absurd hc (List.not_mem_nil _)
  | cons x xs ih =>
    cases hsp : splitLines xs with
    | nil => exact absurd hsp (splitLines_ne_nil xs)
    | cons m ms =>
      rw [hsp] at ih
      by_cases hx : x = '\n'
      · have hcx : c ∈ xs := by
          rcases List.mem_cons.mp hc with e | e
          · exact absurd (e.trans hx) hn
          · exact e
        obtain ⟨l, hl, hcl⟩ := ih hcx
        exact ⟨l, by simp only [splitLines, hx, if_true, hsp]; exact List.mem_cons_of_mem _ hl,
          hcl⟩
      · have hsplit : splitLines (x :: xs) = (x :: m) :: ms := by
          simp [splitLines, hx, hsp]
        rw [hsplit]
        rcases List.mem_cons.mp hc with e | e
        · exact ⟨x :: m, List.mem_cons_self _ _, by rw [e]; exact List.mem_cons_self _ _⟩
        · obtain ⟨l, hl, hcl⟩ := ih e
          rcases List.mem_cons.mp hl with e2 | e2
          · exact ⟨x :: m, List.mem_cons_self _ _, List.mem_cons_of_mem _ (e2 ▸ hcl)⟩
          · exact ⟨l, List.mem_cons_of_mem _ e2, hcl⟩

theorem nonblank_of_dropsSkipped (s s2 : Str)
    (hdel : DropsSkipped (splitLines s) (splitLines s2))
    (hne : (trim s2).isEmpty = false) : (trim s).isEmpty = false := by
  cases ht : trim s with
  | cons x xs => rfl
  | nil =>
    exfalso
    have hall := (trim_eq_nil_iff s).mp ht
    have hne2 : trim s2 ≠ [] := by
      intro e; rw [e] at hne; exact absurd hne (by decide)
    apply hne2
    rw [trim_eq_nil_iff]
    intro c hc
    by_cases hn : c = '\n'
    · rw [hn]; decide
    · obtain ⟨l, hl, hcl⟩ := mem_splitLines_of_mem s2 c hc hn
      exact hall c (mem_of_mem_splitLines s l (dropsSkipped_subset _ _ hdel l hl) c hcl)

/-- C16: when the text `s2` is `s` with some blank or comment lines deleted
and is not blank itself, `extractSchemaSummary` returns the same summary and
the same table names for both; a skipped line, whatever it contains, creates
no table and leaves the state of the loop as it is. -/
theorem skipped_lines_do_not_matter (s s2 : Str)
    (hdel : DropsSkipped (splitLines s) (splitLines s2))
    (hne : (trim s2).isEmpty = false) :
    extractSchemaSummary s2 = extractSchemaSummary s ∧
      ∀ line, skipLine (trim line) = true →
        createdKey line = none ∧ ∀ st, processLine st line = st := by
  refine ⟨?_, fun line hs => ⟨by simp [createdKey, hs], fun st => processLine_skip st line hs⟩⟩
  have hne1 := nonblank_of_dropsSkipped s s2 hdel hne
  have hnil : ∀ x : Str, (trim x).isEmpty = false → x.isEmpty = false := by
    intro x hx
    cases hs : x.isEmpty with
    | false => rfl
    | true => rw [trim_nil_of_isEmpty x hs] at hx; exact absurd hx (by decide)
  have hmodel : extractModel s2 = extractModel s :=
    (foldl_dropsSkipped _ _ hdel initState).symm
  unfold extractSchemaSummary
  rw [hnil s hne1, hnil s2 hne, hne, hne1, hmodel]

theorem skipped_lines_do_not_matter_witness :
    extractSchemaSummary "CREATE TABLE a (\n  id INT\n);".toList =
      extractSchemaSummary
        "-- CREATE TABLE x (\nCREATE TABLE a (\n\n  id INT\n/* CREATE TABLE y */\n);".toList ∧
    ∀ line, skipLine (trim line) = true →
      createdKey line = none ∧ ∀ st, processLine st line = st :=
  skipped_lines_do_not_matter
    "-- CREATE TABLE x (\nCREATE TABLE a (\n\n  id INT\n/* CREATE TABLE y */\n);".toList
    "CREATE TABLE a (\n  id INT\n);".toList
    (DropsSkipped.drop "-- CREATE TABLE x (".toList (by decide!)
      (DropsSkipped.keep "CREATE TABLE a (".toList
        (DropsSkipped.drop [] (by decide!)
          (DropsSkipped.keep "  id INT".toList
            (DropsSkipped.drop "/* CREATE TABLE y */".toList (by decide!)
              (DropsSkipped.keep ");".toList DropsSkipped.nil))))))
    (by decide!)


/-! ## Captures that always take part -/

theorem keepsCaps_eps : KeepsCaps .eps := by
  intro s t h
  simp only [Re.run, List.mem_singleton] at h
  rw [h]

theorem keepsCaps_cls (p : Char → Bool) : KeepsCaps (.cls p) := by
  intro s t h
  cases hr : s.rest with
  | nil => simp [Re.run, hr] at h
  | cons c cs =>
    simp only [Re.run, hr] at h
    by_cases hp : p c = true
    · simp only [hp, if_true, List.mem_singleton] at h
      rw [h]
    · simp [hp] at h

theorem keepsCaps_star (p : Char → Bool) : KeepsCaps (.star p) := by
  intro s t h
  rw [run_star] at h
  obtain ⟨_, _, _, _, h4⟩ := mem_starRuns _ _ _ _ _ h
  exact h4

theorem keepsCaps_seq (a b : Re) (ha : KeepsCaps a) (hb : KeepsCaps b) :
    KeepsCaps (.seq a b) := by
  intro s t h
  obtain ⟨u, hu, ht⟩ := (mem_run_seq a b s t).mp h
  rw [hb u t ht, ha s u hu]

theorem keepsCaps_plus (p : Char → Bool) : KeepsCaps (Re.plus p) :=
  keepsCaps_seq _ _ (keepsCaps_cls p) (keepsCaps_star p)

theorem keepsCaps_cat_cls (ps : List (Char → Bool)) :
    KeepsCaps (Re.cat (ps.map Re.cls)) := by
  induction ps with
  | nil => exact keepsCaps_eps
  | cons p ps ih => exact keepsCaps_seq _ _ (keepsCaps_cls p) ih

theorem keepsCaps_stri (w : String) : KeepsCaps (Re.stri w) := by
  have h := keepsCaps_cat_cls (w.toList.map ciEq)
  rw [List.map_map] at h
  exact h

theorem keepsCaps_str (w : String) : KeepsCaps (Re.str w) := by
  have h := keepsCaps_cat_cls (w.toList.map fun a c => c == a)
  rw [List.map_map] at h
  exact h

theorem keepsCaps_optQuote : KeepsCaps optQuote :=
  fun s t h => optQuote_caps s t h

theorem bindsGroup_seq (n : Nat) (a b : Re) (h : ∀ u, ∀ t ∈ b.run u, BindsGroup n t)
    (s : MState) : ∀ t ∈ (Re.seq a b).run s, BindsGroup n t := by
  intro t ht
  obtain ⟨u, _, hu⟩ := (mem_run_seq a b s t).mp ht
  exact h u t hu

theorem bindsGroup_then_keeps (n : Nat) (a b : Re) (ha : ∀ u, ∀ t ∈ a.run u, BindsGroup n t)
    (hb : KeepsCaps b) (s : MState) : ∀ t ∈ (Re.seq a b).run s, BindsGroup n t := by
  intro t ht
  obtain ⟨u, hu, hu2⟩ := (mem_run_seq a b s t).mp ht
  obtain ⟨w, older, hw, hne⟩ := ha s u hu
  exact ⟨w, older, by rw [hb u t hu2]; exact hw, hne⟩

theorem quotedWord_bindsGroup (n : Nat) (s t : MState) (h : t ∈ (quotedWord n).run s) :
    BindsGroup n t := by
  have e : quotedWord n =
      Re.seq optQuote (Re.seq (.grp n (Re.plus isWord)) (Re.seq optQuote .eps)) := rfl
  rw [e] at h
  obtain ⟨a, _, h1⟩ := (mem_run_seq _ _ s t).mp h
  obtain ⟨b, hb, h2⟩ := (mem_run_seq _ _ a t).mp h1
  obtain ⟨c, hc, h3⟩ := (mem_run_seq _ _ b t).mp h2
  simp only [Re.run, List.mem_singleton] at h3
  have hcaps : t.caps = b.caps := by rw [h3]; exact optQuote_caps b c hc
  have hb2 : b ∈ ((Re.plus isWord).run a).map fun t =>
      (⟨t.pos, t.rest, (n, a.rest.take (t.pos - a.pos)) :: t.caps⟩ : MState) := by
    simpa only [Re.run] using hb
  obtain ⟨d, hd, hd2⟩ := List.mem_map.mp hb2
  refine ⟨a.rest.take (d.pos - a.pos), d.caps, ?_, plus_run_take isWord a d hd⟩
  rw [hcaps, ← hd2]

theorem createRe_binds (u t : MState) (h : t ∈ createRe.run u) : BindsGroup 1 t := by
  have e : createRe = Re.seq (Re.stri "CREATE") (Re.seq sp1 (Re.seq (Re.stri "TABLE")
      (Re.seq sp1 (Re.seq (.opt (Re.cat [Re.stri "IF", sp1, Re.stri "NOT", sp1,
        Re.stri "EXISTS", sp1])) (Re.seq (quotedWord 1) .eps))))) := rfl
  rw [e] at h
  exact bindsGroup_seq 1 _ _ (bindsGroup_seq 1 _ _ (bindsGroup_seq 1 _ _
    (bindsGroup_seq 1 _ _ (bindsGroup_seq 1 _ _
      (bindsGroup_then_keeps 1 _ _ (quotedWord_bindsGroup 1) keepsCaps_eps))))) u t h

theorem pkTableRe_binds (u t : MState) (h : t ∈ pkTableRe.run u) : BindsGroup 1 t := by
  have e : pkTableRe = Re.seq (Re.stri "PRIMARY") (Re.seq sp1 (Re.seq (Re.stri "KEY")
      (Re.seq sp0 (Re.seq (Re.str "(") (Re.seq (quotedWord 1)
        (Re.seq (Re.str ")") .eps)))))) := rfl
  rw [e] at h
  exact bindsGroup_seq 1 _ _ (bindsGroup_seq 1 _ _ (bindsGroup_seq 1 _ _
    (bindsGroup_seq 1 _ _ (bindsGroup_seq 1 _ _
      (bindsGroup_then_keeps 1 _ _ (quotedWord_bindsGroup 1)
        (keepsCaps_seq _ _ (keepsCaps_str ")") keepsCaps_eps)))))) u t h

theorem pkInlineRe_binds (u t : MState) (h : t ∈ pkInlineRe.run u) : BindsGroup 1 t := by
  have e : pkInlineRe = Re.seq .bol (Re.seq sp0 (Re.seq (quotedWord 1) (Re.seq sp1
      (Re.seq (.star isDot) (Re.seq (Re.stri "PRIMARY") (Re.seq sp1
        (Re.seq (Re.stri "KEY") .eps))))))) := rfl
  rw [e] at h
  exact bindsGroup_seq 1 _ _ (bindsGroup_seq 1 _ _
    (bindsGroup_then_keeps 1 _ _ (quotedWord_bindsGroup 1)
      (keepsCaps_seq _ _ (keepsCaps_plus isSpace) (keepsCaps_seq _ _ (keepsCaps_star isDot)
        (keepsCaps_seq _ _ (keepsCaps_stri "PRIMARY") (keepsCaps_seq _ _
          (keepsCaps_plus isSpace) (keepsCaps_seq _ _ (keepsCaps_stri "KEY")
            keepsCaps_eps))))))) u t h

theorem group_of_binds (n : Nat) (r : Re) (hr : ∀ u, ∀ t ∈ r.run u, BindsGroup n t)
    (x : Str) (m : Match) (h : reMatch r x = some m) :
    ∃ w, m.group n = some w ∧ w ≠ [] := by
  obtain ⟨u, t, ht, hc⟩ := execFrom_some r x 0 m h
  obtain ⟨w, older, hw, hne⟩ := hr u t ht
  exact ⟨w, by simp [Match.group, hc, hw], hne⟩

theorem pkMatch_group (trimmed : Str) (m : Match) (h : pkMatch trimmed = some m) :
    ∃ w, m.group 1 = some w ∧ w ≠ [] := by
  unfold pkMatch at h
  cases h1 : reMatch pkTableRe trimmed with
  | some m1 =>
    rw [h1] at h
    simp only [Option.orElse, Option.some.injEq] at h
    rw [← h]
    exact group_of_binds 1 _ pkTableRe_binds _ _ h1
  | none =>
    rw [h1] at h
    simp only [Option.orElse] at h
    exact group_of_binds 1 _ pkInlineRe_binds _ _ h

theorem createdKey_current (line t : Str) (h : createdKey line = some t) :
    ∃ m, skipLine (trim line) = false ∧ reMatch createRe (trim line) = some m ∧
      m.group 1 = some t ∧ t ≠ [] := by
  obtain ⟨m, hs, hm, ht⟩ := createdKey_eq_some line t h
  obtain ⟨w, hw, hne⟩ := group_of_binds 1 _ createRe_binds _ _ hm
  rw [hw] at ht
  simp only [toStr] at ht
  exact ⟨m, hs, hm, by rw [hw, ht], ht ▸ hne⟩


/-! ## The lines of a block -/

theorem createdKey_eq_none (line : Str) (h : createdKey line = none) :
    skipLine (trim line) = true ∨
      (skipLine (trim line) = false ∧ reMatch createRe (trim line) = none) := by
  unfold createdKey at h
  cases hs : skipLine (trim line) with
  | true => exact Or.inl rfl
  | false =>
    cases hm : reMatch createRe (trim line) with
    | none => exact Or.inr ⟨rfl, rfl⟩
    | some m => simp [hs, hm] at h

theorem truthy_some (t : Str) (ht : t ≠ []) : truthy (some t) = true := by
  cases t with
  | nil => exact absurd rfl ht
  | cons c cs => rfl

/-- A line that creates no table, read while `t` is the current table, leaves
the cursor, changes the table `t` by `blockLineStep` and pushes
`blockLineRels`. -/
theorem processLine_in_block (st : ExState) (line t : Str)
    (hcur : st.currentTable = some t) (ht : t ≠ []) (hnc : createdKey line = none) :
    (processLine st line).currentTable = some t ∧
      tablesGet (processLine st line) t = (tablesGet st t).map (blockLineStep line) ∧
      (processLine st line).relationships = st.relationships ++ blockLineRels t line := by
  rcases createdKey_eq_none line hnc with hs | ⟨hs, hm⟩
  · rw [processLine_skip st line hs]
    refine ⟨hcur, ?_, by simp [blockLineRels, hs]⟩
    cases tablesGet st t <;> simp [blockLineStep, hs]
  · have htr : truthy st.currentTable = true := by rw [hcur]; exact truthy_some t ht
    rw [processLine_inside st line hs hm htr]
    have hk : toStr st.currentTable = t := by rw [hcur]; rfl
    refine ⟨?_, ?_, ?_⟩
    · show (tablesModify st _ _).currentTable = some t
      rw [tablesModify_currentTable, hcur]
    · rw [tablesGet_with_relationships, tablesGet_tablesModify, if_pos hk]
      congr 1
      funext info
      simp [blockLineStep, hs]
    · show st.relationships ++ fkStep (toStr st.currentTable) (trim line) = _
      rw [hk]
      simp [blockLineRels, hs]

theorem foldl_in_block (block : List Str) (st : ExState) (t : Str)
    (hcur : st.currentTable = some t) (ht : t ≠ [])
    (hblock : ∀ l ∈ block, createdKey l = none) :
    (block.foldl processLine st).currentTable = some t ∧
      tablesGet (block.foldl processLine st) t =
        (tablesGet st t).map (fun info => block.foldl (fun i l => blockLineStep l i) info) ∧
      (block.foldl processLine st).relationships =
        st.relationships ++ block.flatMap (blockLineRels t) := by
  induction block generalizing st with
  | nil =>
    refine ⟨hcur, ?_, by simp⟩
    simp only [List.foldl_nil]
    cases tablesGet st t <;> rfl
  | cons l ls ih =>
    obtain ⟨h1, h2, h3⟩ := processLine_in_block st l t hcur ht
      (hblock l (List.mem_cons_self _ _))
    obtain ⟨i1, i2, i3⟩ := ih (processLine st l) h1
      (fun x hx => hblock x (List.mem_cons_of_mem _ hx))
    refine ⟨i1, ?_, ?_⟩
    · rw [List.foldl_cons, i2, h2]
      cases tablesGet st t <;> rfl
    · rw [List.foldl_cons, i3, h3, List.flatMap_cons, List.append_assoc]

/-- Lines read while another table is current, none of which creates `t`,
leave the table `t` as it is. -/
theorem foldl_other_table (post : List Str) (st : ExState) (t : Str)
    (hcur : toStr st.currentTable ≠ t) (hpost : ∀ l ∈ post, createdKey l ≠ some t) :
    tablesGet (post.foldl processLine st) t = tablesGet st t := by
  induction post generalizing st with
  | nil => rfl
  | cons l ls ih =>
    have hl := hpost l (List.mem_cons_self _ _)
    have hls : ∀ x ∈ ls, createdKey x ≠ some t := fun x hx =>
      hpost x (List.mem_cons_of_mem _ hx)
    rw [List.foldl_cons]
    rcases processLine_cases st l with e | ⟨m, hs, hm, e⟩ | ⟨_, _, _, e⟩
    · rw [e]; exact ih st hcur hls
    · have hk : toStr (m.group 1) ≠ t := by
        intro hk
        apply hl
        simp [createdKey, hs, hm, hk]
      rw [ih _ (by rw [e, tablesSet_currentTable]; exact hk) hls, e, tablesGet_tablesSet,
        if_neg hk, tablesGet_with_currentTable]
    · have hc2 : (processLine st l).currentTable = st.currentTable := by
        rw [e]
        show (tablesModify st _ _).currentTable = _
        rw [tablesModify_currentTable]
      rw [ih _ (by rw [hc2]; exact hcur) hls, e, tablesGet_with_relationships,
        tablesGet_tablesModify, if_neg hcur]

theorem foldl_after_block (post : List Str) (st : ExState) (t : Str)
    (hpost : ∀ l ∈ post, createdKey l ≠ some t)
    (hend : post = [] ∨ (post.head?.bind createdKey).isSome = true) :
    tablesGet (post.foldl processLine st) t = tablesGet st t := by
  cases post with
  | nil => rfl
  | cons l ls =>
    have hl := hpost l (List.mem_cons_self _ _)
    have hls : ∀ x ∈ ls, createdKey x ≠ some t := fun x hx =>
      hpost x (List.mem_cons_of_mem _ hx)
    have hsome : (createdKey l).isSome = true := by
      rcases hend with h | h
      · exact absurd h (by simp)
      · simpa using h
    obtain ⟨u, hu⟩ := Option.isSome_iff_exists.mp hsome
    obtain ⟨m, hs, hm, hg, _⟩ := createdKey_current l u hu
    have hne : u ≠ t := fun e => hl (by rw [hu, e])
    rw [List.foldl_cons, processLine_create st l m hs hm]
    have hk : toStr (m.group 1) = u := by rw [hg]; rfl
    have hcur : toStr (tablesSet { st with currentTable := m.group 1 } (toStr (m.group 1))
        ⟨[], none⟩).currentTable ≠ t := by
      rw [tablesSet_currentTable]
      show toStr (m.group 1) ≠ t
      rw [hk]
      exact hne
    rw [foldl_other_table ls _ t hcur hls, tablesGet_tablesSet, hk, if_neg hne,
      tablesGet_with_currentTable]

/-- The table found under `t` at the end is the empty table changed by the
lines of the last block of `t`, in order. -/
theorem lastBlock_table (schemaText t : Str) (block : List Str)
    (h : IsLastBlock (splitLines schemaText) t block) :
    tablesGet (extractModel schemaText) t =
      some (block.foldl (fun i l => blockLineStep l i) ⟨[], none⟩) := by
  obtain ⟨pre, createLine, post, hsplit, hcreate, hblock, hpost, hend⟩ := h
  unfold extractModel
  rw [hsplit, List.foldl_append, List.foldl_cons, List.foldl_append]
  obtain ⟨m, hs, hm, hg, hne⟩ := createdKey_current createLine t hcreate
  have hk : toStr (m.group 1) = t := by rw [hg]; rfl
  rw [foldl_after_block post _ t hpost hend, processLine_create _ createLine m hs hm]
  obtain ⟨_, h2, _⟩ := foldl_in_block block
    (tablesSet { (pre.foldl processLine initState) with currentTable := m.group 1 }
      (toStr (m.group 1)) ⟨[], none⟩) t (by rw [tablesSet_currentTable]; exact hg) hne hblock
  rw [h2, tablesGet_tablesSet, if_pos hk]
  rfl


/-! ## Columns of a table -/

theorem columnStep_columns (trimmed : Str) (info : TableInfo) :
    (columnStep trimmed info).columns = info.columns ∨
      ∃ col, col ∉ info.columns ∧ (columnStep trimmed info).columns = info.columns ++ [col] := by
  unfold columnStep
  split
  · exact Or.inl rfl
  · split
    · exact Or.inl rfl
    · rename_i col _
      split
      · split
        · rename_i hc
          refine Or.inr ⟨col, ?_, rfl⟩
          simpa using hc
        · exact Or.inl rfl
      · exact Or.inl rfl

theorem blockLineStep_columns (line : Str) (info : TableInfo) :
    (blockLineStep line info).columns =
      ((acceptedColumn line).toList).foldl addKey info.columns := by
  unfold blockLineStep acceptedColumn
  cases hs : skipLine (trim line) with
  | true => simp
  | false =>
    simp only [Bool.false_eq_true, if_false, pkStep_columns]
    unfold columnStep
    cases hm : reMatch colRe (trim line) with
    | none => simp
    | some m =>
      cases hg : m.group 1 with
      | none => simp only [hg]; rfl
      | some col =>
        simp only [hg]
        by_cases hc : (!skipKeywords.contains (toUpperCase col) && !reTest kwRe (trim line)) = true
        · rw [if_pos hc, if_pos hc]
          by_cases hmem : col ∈ info.columns
          · have hcont : (!info.columns.contains col) = false := by simpa using hmem
            simp [hcont, addKey, hmem]
          · have hcont : (!info.columns.contains col) = true := by simpa using hmem
            simp [hcont, addKey, hmem]
        · rw [if_neg hc, if_neg hc]
          rfl

theorem foldl_blockLineStep_columns (block : List Str) (info : TableInfo) :
    (block.foldl (fun i l => blockLineStep l i) info).columns =
      (block.filterMap acceptedColumn).foldl addKey info.columns := by
  induction block generalizing info with
  | nil => rfl
  | cons l ls ih =>
    rw [List.foldl_cons, ih, blockLineStep_columns]
    cases h : acceptedColumn l with
    | none => simp [List.filterMap_cons, h]
    | some c => simp [List.filterMap_cons, h]

/-- Every table of a state has a column list without repetition. -/
theorem columnStep_nodup (trimmed : Str) (info : TableInfo) (h : info.columns.Nodup) :
    (columnStep trimmed info).columns.Nodup := by
  rcases columnStep_columns trimmed info with e | ⟨col, hcol, e⟩
  · rw [e]; exact h
  · rw [e, List.nodup_append]
    refine ⟨h, List.nodup_singleton col, ?_⟩
    intro a ha hb
    rw [List.mem_singleton] at hb
    exact hcol (hb ▸ ha)

theorem tablesSet_forall (P : TableInfo → Prop) (st : ExState) (k : Str) (v : TableInfo)
    (hv : P v) (h : (∀ p ∈ st.tables, P p.2) ∧ ∀ info, st.proto = some info → P info) :
    (∀ p ∈ (tablesSet st k v).tables, P p.2) ∧
      ∀ info, (tablesSet st k v).proto = some info → P info := by
  unfold tablesSet
  split
  · refine ⟨h.1, fun info hi => ?_⟩
    simp only [Option.some.injEq] at hi
    exact hi ▸ hv
  · refine ⟨fun p hp => ?_, h.2⟩
    rcases mem_setOwn _ _ _ _ hp with e | hm
    · rw [e]; exact hv
    · exact h.1 p hm

theorem tablesModify_forall (P : TableInfo → Prop) (st : ExState) (k : Str)
    (f : TableInfo → TableInfo) (hf : ∀ info, P info → P (f info))
    (h : (∀ p ∈ st.tables, P p.2) ∧ ∀ info, st.proto = some info → P info) :
    (∀ p ∈ (tablesModify st k f).tables, P p.2) ∧
      ∀ info, (tablesModify st k f).proto = some info → P info := by
  unfold tablesModify
  split
  · refine ⟨h.1, fun info hi => ?_⟩
    simp only [Option.map_eq_some'] at hi
    obtain ⟨i0, h0, rfl⟩ := hi
    exact hf i0 (h.2 i0 h0)
  · refine ⟨fun p hp => ?_, h.2⟩
    simp only [List.mem_map] at hp
    obtain ⟨q, hq, rfl⟩ := hp
    split
    · exact hf q.2 (h.1 q hq)
    · exact h.1 q hq

theorem foldl_processLine_nodup (lines : List Str) (st : ExState)
    (h : (∀ p ∈ st.tables, p.2.columns.Nodup) ∧
      ∀ info, st.proto = some info → info.columns.Nodup) :
    (∀ p ∈ (lines.foldl processLine st).tables, p.2.columns.Nodup) ∧
      ∀ info, (lines.foldl processLine st).proto = some info → info.columns.Nodup := by
  induction lines generalizing st with
  | nil => exact h
  | cons l ls ih =>
    apply ih
    rcases processLine_cases st l with e | ⟨m, _, _, e⟩ | ⟨_, _, _, e⟩
    · rw [e]; exact h
    · rw [e]
      exact tablesSet_forall (fun i => i.columns.Nodup) _ _ _ List.nodup_nil h
    · rw [e]
      exact tablesModify_forall (fun i => i.columns.Nodup) st _ _
        (fun info hi => by
          show (pkStep (trim l) (columnStep (trim l) info)).columns.Nodup
          rw [pkStep_columns]
          exact columnStep_nodup _ _ hi) h

/-- C15: in the model extracted from any schema text no table has a column
twice, and the columns of a table are the columns accepted on the lines of its
last block, each once, in the order of their first accepted occurrence. -/
theorem columns_distinct_first_seen (schemaText : Str) :
    (∀ info, ((∃ k, (k, info) ∈ (extractModel schemaText).tables) ∨
        (extractModel schemaText).proto = some info) → info.columns.Nodup) ∧
    ∀ t block, IsLastBlock (splitLines schemaText) t block →
      ∃ info, tablesGet (extractModel schemaText) t = some info ∧
        info.columns = firstSeen (block.filterMap acceptedColumn) := by
  constructor
  · intro info hinfo
    have hall := foldl_processLine_nodup (splitLines schemaText) initState
      ⟨fun p hp => by simp [initState] at hp, fun i hi => by simp [initState] at hi⟩
    rcases hinfo with ⟨k, hk⟩ | hp
    · exact hall.1 (k, info) hk
    · exact hall.2 info hp
  · intro t block h
    exact ⟨_, lastBlock_table schemaText t block h, foldl_blockLineStep_columns block _⟩

theorem columns_distinct_first_seen_witness :
    (["b".toList, "a".toList] : List Str).Nodup ∧
    ∃ info, tablesGet (extractModel
        "CREATE TABLE t (\n  b INT,\n  a INT,\n  b TEXT\n);\nCREATE TABLE u (".toList)
        "t".toList = some info ∧
      info.columns = firstSeen (["  b INT,".toList, "  a INT,".toList, "  b TEXT".toList,
        ");".toList].filterMap acceptedColumn) :=
  ⟨(columns_distinct_first_seen
      "CREATE TABLE t (\n  b INT,\n  a INT,\n  b TEXT\n);\nCREATE TABLE u (".toList).1
      ⟨["b".toList, "a".toList], none⟩ (Or.inl ⟨"t".toList, by decide!⟩),
    (columns_distinct_first_seen
      "CREATE TABLE t (\n  b INT,\n  a INT,\n  b TEXT\n);\nCREATE TABLE u (".toList).2
      "t".toList ["  b INT,".toList, "  a INT,".toList, "  b TEXT".toList, ");".toList]
      ⟨[], "CREATE TABLE t (".toList, ["CREATE TABLE u (".toList], by decide!, by decide!,
        by decide!, by decide!, Or.inr (by decide!)⟩⟩

/-! ## The primary key of a table -/

theorem columnStep_primaryKey (trimmed : Str) (info : TableInfo) :
    (columnStep trimmed info).primaryKey = info.primaryKey := by
  unfold columnStep
  split
  · rfl
  · split
    · rfl
    · split
      · split <;> rfl
      · rfl

theorem blockLineStep_primaryKey (line : Str) (info : TableInfo) :
    (blockLineStep line info).primaryKey =
      match pkCapture line with
      | some w => some w
      | none => info.primaryKey := by
  unfold blockLineStep pkCapture
  cases hs : skipLine (trim line) with
  | true => simp
  | false =>
    simp only [Bool.false_eq_true, if_false]
    unfold pkStep
    cases hm : pkMatch (trim line) with
    | none => simp [columnStep_primaryKey]
    | some m =>
      obtain ⟨w, hw, _⟩ := pkMatch_group _ m hm
      simp [hw]


theorem foldl_blockLineStep_primaryKey (block : List Str) (info : TableInfo) :
    (block.foldl (fun i l => blockLineStep l i) info).primaryKey =
      match (block.filterMap pkCapture).getLast? with
      | some w => some w
      | none => info.primaryKey := by
  induction block using List.reverseRecOn with
  | nil => rfl
  | append_singleton bs l ih =>
    rw [List.foldl_append, List.foldl_cons, List.foldl_nil, blockLineStep_primaryKey, ih,
      List.filterMap_append]
    cases h : pkCapture l with
    | none => simp [List.filterMap_cons, h]
    | some w => simp [List.filterMap_cons, h]

theorem pkCapture_eq_none (line : Str) :
    pkCapture line = none ↔ (skipLine (trim line) = false → pkMatch (trim line) = none) := by
  unfold pkCapture
  cases hs : skipLine (trim line) with
  | true => simp
  | false =>
    cases hm : pkMatch (trim line) with
    | none => simp
    | some m =>
      obtain ⟨w, hw, _⟩ := pkMatch_group _ m hm
      simp [hw]

/-- C13: the primary key recorded for a table is the identifier captured on
the last line of its last block that matches a primary-key pattern (the
table-level capture when the table-level pattern matches, else the leading
identifier of the inline pattern), and it is absent exactly when no processed
line of the block matches. -/
theorem primary_key_is_last_match (schemaText t : Str) (block : List Str)
    (h : IsLastBlock (splitLines schemaText) t block) :
    ∃ info, tablesGet (extractModel schemaText) t = some info ∧
      info.primaryKey = (block.filterMap pkCapture).getLast? ∧
      (info.primaryKey = none ↔
        ∀ l ∈ block, skipLine (trim l) = false → pkMatch (trim l) = none) := by
  have hpk : (block.foldl (fun i l => blockLineStep l i) ⟨[], none⟩).primaryKey =
      (block.filterMap pkCapture).getLast? := by
    rw [foldl_blockLineStep_primaryKey]
    cases (block.filterMap pkCapture).getLast? <;> rfl
  refine ⟨_, lastBlock_table schemaText t block h, hpk, ?_⟩
  rw [hpk, List.getLast?_eq_none_iff, List.filterMap_eq_nil_iff]
  constructor
  · intro hall l hl
    exact (pkCapture_eq_none l).mp (hall l hl)
  · intro hall l hl
    exact (pkCapture_eq_none l).mpr (hall l hl)

theorem primary_key_is_last_match_witness :
    ∃ info, tablesGet (extractModel
        "CREATE TABLE t (\n  id INT PRIMARY KEY,\n  b INT,\n  PRIMARY KEY (b)\n);".toList)
        "t".toList = some info ∧
      info.primaryKey = (["  id INT PRIMARY KEY,".toList, "  b INT,".toList,
        "  PRIMARY KEY (b)".toList, ");".toList].filterMap pkCapture).getLast? ∧
      (info.primaryKey = none ↔
        ∀ l ∈ ["  id INT PRIMARY KEY,".toList, "  b INT,".toList,
          "  PRIMARY KEY (b)".toList, ");".toList],
          skipLine (trim l) = false → pkMatch (trim l) = none) :=
  primary_key_is_last_match
    "CREATE TABLE t (\n  id INT PRIMARY KEY,\n  b INT,\n  PRIMARY KEY (b)\n);".toList
    "t".toList ["  id INT PRIMARY KEY,".toList, "  b INT,".toList,
      "  PRIMARY KEY (b)".toList, ");".toList]
    ⟨[], "CREATE TABLE t (".toList, [], by decide!, by decide!, by decide!, by decide!,
      Or.inl rfl⟩


/-! ## The first match of a pattern on a text of known shape -/

theorem leads_seq (a b : Re) (x y z : Str) (c1 c2 c3 : List (Nat × Str))
    (ha : Leads a x c1 y c2) (hb : Leads b y c2 z c3) : Leads (.seq a b) x c1 z c3 := by
  intro pos
  obtain ⟨p1, h1⟩ := ha pos
  obtain ⟨p2, h2⟩ := hb p1
  refine ⟨p2, ?_⟩
  rw [run_seq]
  cases hr : a.run ⟨pos, x, c1⟩ with
  | nil => rw [hr] at h1; simp at h1
  | cons u tl =>
    rw [hr] at h1
    simp only [List.head?_cons, Option.some.injEq] at h1
    rw [List.flatMap_cons, h1]
    cases hr2 : b.run ⟨p1, y, c2⟩ with
    | nil => rw [hr2] at h2; simp at h2
    | cons v tl2 =>
      rw [hr2] at h2
      simp only [List.head?_cons, Option.some.injEq] at h2
      simp [h2]

theorem leads_eps (x : Str) (c : List (Nat × Str)) : Leads .eps x c x c :=
  fun pos => ⟨pos, by simp [Re.run]⟩

theorem ciPrefixOf_append (w u v : Str) (h : ciPrefixOf w u = true) :
    ciPrefixOf w (u ++ v) = true := by
  induction w generalizing u with
  | nil => rfl
  | cons a as ih =>
    cases u with
    | nil => simp [ciPrefixOf] at h
    | cons c cs =>
      simp only [ciPrefixOf, Bool.and_eq_true] at h
      simp only [List.cons_append, ciPrefixOf, Bool.and_eq_true]
      exact ⟨h.1, ih cs h.2⟩

theorem leads_stri (w : String) (u v : Str) (c : List (Nat × Str))
    (hu : ciPrefixOf w.toList u = true) (hlen : u.length = w.toList.length) :
    Leads (Re.stri w) (u ++ v) c v c := by
  intro pos
  refine ⟨pos + w.toList.length, ?_⟩
  rw [stri_run]
  simp only [ciPrefixOf_append _ u v hu, if_true, List.head?_cons, ← hlen, List.drop_left]

theorem leads_str_seq (w : String) (k : Re) (v z : Str) (c c2 : List (Nat × Str))
    (hk : Leads k v c z c2) : Leads (.seq (Re.str w) k) (w.toList ++ v) c z c2 := by
  intro pos
  obtain ⟨p, hp⟩ := hk (pos + w.toList.length)
  refine ⟨p, ?_⟩
  rw [str_seq_run]
  have h1 : (w.toList).isPrefixOf (w.toList ++ v) = true := by simp
  simp only [h1, if_true, List.drop_left]
  exact hp

theorem leads_star (p : Char → Bool) (u v : Str) (c : List (Nat × Str))
    (hu : ∀ a ∈ u, p a = true) (hv : ∀ a, v.head? = some a → p a = false) :
    Leads (.star p) (u ++ v) c v c := by
  intro pos
  obtain ⟨tl, htl⟩ := starRuns_head p c pos (u ++ v)
  have hvt : v.takeWhile p = [] := by
    cases v with
    | nil => rfl
    | cons a as => simp [List.takeWhile, hv a rfl]
  have hvd : v.dropWhile p = v := dropWhile_eq_self_of_head v hv
  have htake : (u ++ v).takeWhile p = u := by
    rw [List.takeWhile_append_of_pos hu, hvt, List.append_nil]
  have hdrop : (u ++ v).dropWhile p = v := by
    rw [List.dropWhile_append_of_pos hu, hvd]
  rw [htake, hdrop] at htl
  exact ⟨pos + u.length, by rw [run_star]; simp only [htl, List.head?_cons]⟩

theorem leads_plus (p : Char → Bool) (u v : Str) (c : List (Nat × Str)) (hne : u ≠ [])
    (hu : ∀ a ∈ u, p a = true) (hv : ∀ a, v.head? = some a → p a = false) :
    ∀ pos, ((Re.plus p).run ⟨pos, u ++ v, c⟩).head? = some ⟨pos + u.length, v, c⟩ := by
  intro pos
  cases u with
  | nil => exact absurd rfl hne
  | cons a as =>
    have ha : p a = true := hu a (List.mem_cons_self _ _)
    obtain ⟨tl, htl⟩ := starRuns_head p c (pos + 1) (as ++ v)
    have hvt : v.takeWhile p = [] := by
      cases v with
      | nil => rfl
      | cons b bs => simp [List.takeWhile, hv b rfl]
    have has : ∀ b ∈ as, p b = true := fun b hb => hu b (List.mem_cons_of_mem _ hb)
    have htake : (as ++ v).takeWhile p = as := by
      rw [List.takeWhile_append_of_pos has, hvt, List.append_nil]
    have hdrop : (as ++ v).dropWhile p = v := by
      rw [List.dropWhile_append_of_pos has, dropWhile_eq_self_of_head v hv]
    rw [htake, hdrop] at htl
    simp only [Re.plus, Re.run, List.cons_append, ha, if_true, List.flatMap_cons,
      List.flatMap_nil, List.append_nil, htl, List.head?_cons, List.length_cons]
    congr 2
    omega

theorem leads_sp1 (u v : Str) (c : List (Nat × Str)) (hne : u ≠ [])
    (hu : ∀ a ∈ u, isSpace a = true) (hv : ∀ a, v.head? = some a → isSpace a = false) :
    Leads sp1 (u ++ v) c v c :=
  fun pos => ⟨pos + u.length, leads_plus isSpace u v c hne hu hv pos⟩

theorem leads_optQuote (x : Str) (c : List (Nat × Str))
    (hx : ∀ a, x.head? = some a → isQuote a = false) : Leads optQuote x c x c := by
  intro pos
  refine ⟨pos, ?_⟩
  cases x with
  | nil => simp [optQuote, Re.run]
  | cons a as => simp [optQuote, Re.run, hx a rfl]

theorem word_not_quote (a : Char) (h : isWord a = true) : isQuote a = false := by
  cases hq : isQuote a with
  | false => rfl
  | true =>
    simp only [isQuote, Bool.or_eq_true, beq_iff_eq] at hq
    rcases hq with e | e <;> rw [e] at h <;> exact absurd h (by decide)

theorem leads_quotedWord (n : Nat) (w v : Str) (c : List (Nat × Str)) (hw : IsIdent w)
    (hv : ∀ a, v.head? = some a → isWord a = false ∧ isQuote a = false) :
    Leads (quotedWord n) (w ++ v) c v ((n, w) :: c) := by
  have e : quotedWord n =
      Re.seq optQuote (Re.seq (.grp n (Re.plus isWord)) (Re.seq optQuote .eps)) := rfl
  rw [e]
  obtain ⟨hne, hword⟩ := hw
  have hhead : ∀ a, (w ++ v).head? = some a → isQuote a = false := by
    intro a ha
    cases w with
    | nil => exact absurd rfl hne
    | cons b bs =>
      simp only [List.cons_append, List.head?_cons, Option.some.injEq] at ha
      exact word_not_quote a (ha ▸ hword b (List.mem_cons_self _ _))
  refine leads_seq _ _ _ _ _ _ _ _ (leads_optQuote (w ++ v) c hhead) ?_
  refine leads_seq _ _ _ v _ _ ((n, w) :: c) _ ?_
    (leads_seq _ _ _ _ _ _ _ _ (leads_optQuote v _ fun a ha => (hv a ha).2) (leads_eps _ _))
  intro pos
  refine ⟨pos + w.length, ?_⟩
  have hp := leads_plus isWord w v c hne hword (fun a ha => (hv a ha).1) pos
  cases hr : (Re.plus isWord).run ⟨pos, w ++ v, c⟩ with
  | nil => rw [hr] at hp; simp at hp
  | cons t tl =>
    rw [hr] at hp
    simp only [List.head?_cons, Option.some.injEq] at hp
    simp only [Re.run] at hr ⊢
    rw [hr, hp]
    simp


theorem word_not_space (a : Char) (h : isWord a = true) : isSpace a = false := by
  cases hs : isSpace a with
  | false => rfl
  | true =>
    exfalso
    simp only [isWord, isSpace, Bool.or_eq_true, Bool.and_eq_true, decide_eq_true_eq,
      beq_iff_eq] at h hs
    omega

theorem ident_head_not_space (w v : Str) (hw : IsIdent w) :
    ∀ a, (w ++ v).head? = some a → isSpace a = false := by
  intro a ha
  obtain ⟨hne, hword⟩ := hw
  cases w with
  | nil => exact absurd rfl hne
  | cons b bs =>
    simp only [List.cons_append, List.head?_cons, Option.some.injEq] at ha
    exact word_not_space a (ha ▸ hword b (List.mem_cons_self _ _))

/-- The text `REFERENCES t(d)` followed by `rest`, cut into the pieces the
pattern reads. -/
theorem leads_referencesTail (t d rest : Str) (c : List (Nat × Str))
    (ht : IsIdent t) (hd : IsIdent d) :
    Leads referencesTail
      ("REFERENCES".toList ++ (" ".toList ++ (t ++ ("(".toList ++ (d ++
        (")".toList ++ rest))))))
      c rest ((3, d) :: (2, t) :: c) := by
  have e : referencesTail = Re.seq (Re.stri "REFERENCES") (Re.seq sp1 (Re.seq (quotedWord 2)
      (Re.seq sp0 (Re.seq (Re.str "(") (Re.seq (quotedWord 3)
        (Re.seq (Re.str ")") .eps)))))) := rfl
  rw [e]
  refine leads_seq _ _ _ _ _ _ _ _ (leads_stri "REFERENCES" _ _ c (by decide) (by decide)) ?_
  refine leads_seq _ _ _ _ _ _ _ _ (leads_sp1 _ _ c (by decide) (by decide)
    (ident_head_not_space t _ ht)) ?_
  refine leads_seq _ _ _ _ _ _ _ _ (leads_quotedWord 2 t _ c ht (by
    intro a ha
    simp only [String.toList, List.cons_append, List.head?_cons, Option.some.injEq] at ha
    rw [← ha]
    decide)) ?_
  refine leads_seq _ _ _ _ _ _ _ _ (leads_star isSpace [] _ _ (by simp) (by
    intro a ha
    simp only [List.nil_append, String.toList, List.cons_append, List.head?_cons,
      Option.some.injEq] at ha
    rw [← ha]
    decide)) ?_
  refine leads_str_seq "(" _ _ _ _ _ ?_
  refine leads_seq _ _ _ _ _ _ _ _ (leads_quotedWord 3 d _ _ hd (by
    intro a ha
    simp only [String.toList, List.cons_append, List.head?_cons, Option.some.injEq] at ha
    rw [← ha]
    decide)) ?_
  exact leads_str_seq ")" _ _ _ _ _ (leads_eps _ _)


theorem reMatch_of_leads (r : Re) (x y : Str) (caps : List (Nat × Str))
    (h : Leads r x [] y caps) : ∃ m, reMatch r x = some m ∧ m.caps = caps := by
  obtain ⟨p, hp⟩ := h 0
  exact ⟨⟨0, p, caps⟩, execFrom_of_head r 0 x _ hp, rfl⟩

theorem fkTableLine_pieces (c t d rest : Str) :
    fkTableLine c t d rest =
      "FOREIGN".toList ++ (" ".toList ++ ("KEY".toList ++ (" ".toList ++ ("(".toList ++
        (c ++ (")".toList ++ (" ".toList ++ ("REFERENCES".toList ++ (" ".toList ++
          (t ++ ("(".toList ++ (d ++ (")".toList ++ rest))))))))))))) := by
  simp only [fkTableLine, String.toList, List.append_assoc, List.cons_append,
    List.nil_append]

theorem leads_fkTableRe (c t d rest : Str) (hc : IsIdent c) (ht : IsIdent t)
    (hd : IsIdent d) :
    Leads fkTableRe (fkTableLine c t d rest) [] rest [(3, d), (2, t), (1, c)] := by
  have e : fkTableRe = Re.seq (Re.stri "FOREIGN") (Re.seq sp1 (Re.seq (Re.stri "KEY")
      (Re.seq sp0 (Re.seq (Re.str "(") (Re.seq (quotedWord 1) (Re.seq (Re.str ")")
        (Re.seq sp1 (Re.seq referencesTail .eps)))))))) := rfl
  rw [e, fkTableLine_pieces]
  refine leads_seq _ _ _ _ _ _ _ _ (leads_stri "FOREIGN" _ _ _ (by decide) (by decide)) ?_
  refine leads_seq _ _ _ _ _ _ _ _ (leads_sp1 _ _ _ (by decide) (by decide) (by
    intro a ha
    simp only [String.toList, List.cons_append, List.head?_cons, Option.some.injEq] at ha
    rw [← ha]
    decide)) ?_
  refine leads_seq _ _ _ _ _ _ _ _ (leads_stri "KEY" _ _ _ (by decide) (by decide)) ?_
  refine leads_seq _ _ _ _ _ _ _ _ (leads_star isSpace _ _ _ (by decide) (by
    intro a ha
    simp only [String.toList, List.cons_append, List.head?_cons, Option.some.injEq] at ha
    rw [← ha]
    decide)) ?_
  refine leads_str_seq "(" _ _ _ _ _ ?_
  refine leads_seq _ _ _ _ _ _ _ _ (leads_quotedWord 1 c _ _ hc (by
    intro a ha
    simp only [String.toList, List.cons_append, List.head?_cons, Option.some.injEq] at ha
    rw [← ha]
    decide)) ?_
  refine leads_str_seq ")" _ _ _ _ _ ?_
  refine leads_seq _ _ _ _ _ _ _ _ (leads_sp1 _ _ _ (by decide) (by decide) (by
    intro a ha
    simp only [String.toList, List.cons_append, List.head?_cons, Option.some.injEq] at ha
    rw [← ha]
    decide)) ?_
  exact leads_seq _ _ _ _ _ _ _ _ (leads_referencesTail t d rest _ ht hd) (leads_eps _ _)

theorem fkStep_of_caps (T trimmed c t d : Str) (m : Match) (hm : fkMatch trimmed = some m)
    (hcaps : m.caps = [(3, d), (2, t), (1, c)]) (hd : d ≠ []) :
    fkStep T trimmed = [⟨T, some c, some t, d⟩] := by
  have h1 : m.group 1 = some c := by simp [Match.group, hcaps]
  have h2 : m.group 2 = some t := by simp [Match.group, hcaps]
  have h3 : m.group 3 = some d := by simp [Match.group, hcaps]
  simp [fkStep, hm, h1, h2, h3, truthy_some d hd, toStr]

theorem fkStep_tableLine (T c t d rest : Str) (hc : IsIdent c) (ht : IsIdent t)
    (hd : IsIdent d) :
    fkStep T (fkTableLine c t d rest) = [⟨T, some c, some t, d⟩] := by
  obtain ⟨m, hm, hcaps⟩ := reMatch_of_leads _ _ _ _ (leads_fkTableRe c t d rest hc ht hd)
  exact fkStep_of_caps T _ c t d m (by simp [fkMatch, hm, Option.orElse]) hcaps hd.1


/-! ## The greedy `.*` before `REFERENCES` -/

theorem flatMap_starRuns_later_nil (p : Char → Bool) (k : Re) (b : Str) (pos : Nat)
    (c : List (Nat × Str))
    (hlater : ∀ b1 b2 q, b = b1 ++ b2 → b1 ≠ [] → k.run ⟨q, b2, c⟩ = []) :
    (starRuns p c pos b).flatMap k.run = k.run ⟨pos, b, c⟩ := by
  cases b with
  | nil => simp [starRuns]
  | cons a as =>
    unfold starRuns
    split
    · rw [List.flatMap_append, List.flatMap_cons, List.flatMap_nil, List.append_nil]
      have hnil : (starRuns p c (pos + 1) as).flatMap k.run = [] := by
        rw [List.flatMap_eq_nil_iff]
        intro t ht
        obtain ⟨run, h1, _, h3, h4⟩ := mem_starRuns _ _ _ _ _ ht
        have := hlater (a :: run) t.rest t.pos (by rw [h1]; rfl) (by simp)
        have et : t = ⟨t.pos, t.rest, c⟩ := by rw [← h4]
        rw [et]
        exact this
      rw [hnil, List.nil_append]
    · simp

/-- When `k` first matches at `b` and nowhere later in `b`, the pattern `p*`
followed by `k` gives way on `a ++ b` until it reaches `b`. -/
theorem leads_backtrack (p : Char → Bool) (k : Re) (a b z : Str) (c c2 : List (Nat × Str))
    (ha : ∀ x ∈ a, p x = true) (hk : Leads k b c z c2)
    (hlater : ∀ b1 b2 q, b = b1 ++ b2 → b1 ≠ [] → k.run ⟨q, b2, c⟩ = []) :
    Leads (.seq (.star p) k) (a ++ b) c z c2 := by
  intro pos
  induction a generalizing pos with
  | nil =>
    obtain ⟨q, hq⟩ := hk pos
    refine ⟨q, ?_⟩
    rw [run_seq, run_star]
    show ((starRuns p c pos b).flatMap k.run).head? = _
    rw [flatMap_starRuns_later_nil p k b pos c hlater]
    exact hq
  | cons x xs ih =>
    obtain ⟨q, hq⟩ := ih (fun y hy => ha y (List.mem_cons_of_mem _ hy)) (pos + 1)
    refine ⟨q, ?_⟩
    rw [run_seq, run_star] at hq ⊢
    show ((starRuns p c pos (x :: (xs ++ b))).flatMap k.run).head? = _
    have hx : p x = true := ha x (List.mem_cons_self _ _)
    simp only [starRuns, hx, if_true, List.flatMap_append]
    cases hr : (starRuns p c (pos + 1) (xs ++ b)).flatMap k.run with
    | nil =>
      have hq2 : ((starRuns p c (pos + 1) (xs ++ b)).flatMap k.run).head? = some ⟨q, z, c2⟩ :=
        hq
      rw [hr] at hq2
      simp at hq2
    | cons t tl =>
      have hq2 : ((starRuns p c (pos + 1) (xs ++ b)).flatMap k.run).head? = some ⟨q, z, c2⟩ :=
        hq
      rw [hr] at hq2
      simp only [List.head?_cons, Option.some.injEq] at hq2
      simp [hq2]

/-! ## Patterns that read the text only -/

theorem restOnly_eps : RestOnly .eps := by
  intro s s2 h
  exact List.Forall₂.cons h List.Forall₂.nil

theorem restOnly_cls (p : Char → Bool) : RestOnly (.cls p) := by
  intro s s2 h
  cases hr : s.rest with
  | nil =>
    have h2 : s2.rest = [] := by rw [← h, hr]
    simp only [Re.run, hr, h2]
    exact List.Forall₂.nil
  | cons c cs =>
    have h2 : s2.rest = c :: cs := by rw [← h, hr]
    simp only [Re.run, hr, h2]
    by_cases hp : p c = true
    · rw [if_pos hp, if_pos hp]
      exact List.Forall₂.cons rfl List.Forall₂.nil
    · rw [if_neg hp, if_neg hp]
      exact List.Forall₂.nil

theorem starRuns_restOnly (p : Char → Bool) (c c2 : List (Nat × Str)) (x : Str) :
    ∀ pos pos2, List.Forall₂ (fun a b : MState => a.rest = b.rest)
      (starRuns p c pos x) (starRuns p c2 pos2 x) := by
  induction x with
  | nil =>
    intro pos pos2
    exact List.Forall₂.cons rfl List.Forall₂.nil
  | cons a as ih =>
    intro pos pos2
    simp only [starRuns]
    by_cases hp : p a = true
    · rw [if_pos hp, if_pos hp]
      exact List.rel_append (ih (pos + 1) (pos2 + 1)) (List.Forall₂.cons rfl List.Forall₂.nil)
    · rw [if_neg hp, if_neg hp]
      exact List.Forall₂.cons rfl List.Forall₂.nil

theorem restOnly_star (p : Char → Bool) : RestOnly (.star p) := by
  intro s s2 h
  rw [run_star, run_star, h]
  exact starRuns_restOnly p _ _ _ _ _

theorem rel_flatMap_of_rel {α β : Type} (R : α → α → Prop) (P : β → β → Prop) (f g : α → List β)
    (hf : ∀ a b, R a b → List.Forall₂ P (f a) (g b)) :
    ∀ xs ys, List.Forall₂ R xs ys → List.Forall₂ P (xs.flatMap f) (ys.flatMap g) := by
  intro xs ys h
  induction h with
  | nil => exact List.Forall₂.nil
  | cons hab _ ih =>
    rw [List.flatMap_cons, List.flatMap_cons]
    exact List.rel_append (hf _ _ hab) ih

theorem restOnly_seq (a b : Re) (ha : RestOnly a) (hb : RestOnly b) : RestOnly (.seq a b) := by
  intro s s2 h
  rw [run_seq, run_seq]
  exact rel_flatMap_of_rel _ _ _ _ (fun u v huv => hb u v huv) _ _ (ha s s2 h)

theorem restOnly_opt (a : Re) (ha : RestOnly a) : RestOnly (.opt a) := by
  intro s s2 h
  simp only [Re.run]
  exact List.rel_append (ha s s2 h) (List.Forall₂.cons h List.Forall₂.nil)

theorem restOnly_grp (n : Nat) (a : Re) (ha : RestOnly a) : RestOnly (.grp n a) := by
  intro s s2 h
  simp only [Re.run]
  rw [List.forall₂_map_left_iff, List.forall₂_map_right_iff]
  exact ha s s2 h

theorem restOnly_cat_cls (ps : List (Char → Bool)) : RestOnly (Re.cat (ps.map Re.cls)) := by
  induction ps with
  | nil => exact restOnly_eps
  | cons p ps ih => exact restOnly_seq _ _ (restOnly_cls p) ih

theorem restOnly_stri (w : String) : RestOnly (Re.stri w) := by
  have := restOnly_cat_cls (w.toList.map fun a => ciEq a)
  rw [List.map_map] at this
  exact this

theorem restOnly_str (w : String) : RestOnly (Re.str w) := by
  have := restOnly_cat_cls (w.toList.map fun a => fun c => c == a)
  rw [List.map_map] at this
  exact this

theorem restOnly_quotedWord (n : Nat) : RestOnly (quotedWord n) :=
  restOnly_seq _ _ (restOnly_opt _ (restOnly_cls _))
    (restOnly_seq _ _ (restOnly_grp n _ (restOnly_seq _ _ (restOnly_cls _) (restOnly_star _)))
      (restOnly_seq _ _ (restOnly_opt _ (restOnly_cls _)) restOnly_eps))

/-- The tail `REFERENCES t(d)` of the foreign-key patterns has no `^`: whether
it matches at a place of a text depends on the text from that place on. -/
theorem restOnly_referencesTail : RestOnly referencesTail :=
  restOnly_seq _ _ (restOnly_stri _)
    (restOnly_seq _ _ (restOnly_seq _ _ (restOnly_cls _) (restOnly_star _))
      (restOnly_seq _ _ (restOnly_quotedWord 2)
        (restOnly_seq _ _ (restOnly_star _)
          (restOnly_seq _ _ (restOnly_str _)
            (restOnly_seq _ _ (restOnly_quotedWord 3)
              (restOnly_seq _ _ (restOnly_str _) restOnly_eps))))))

theorem run_nil_of_restOnly (r : Re) (h : RestOnly r) (q q2 : Nat) (y : Str)
    (c c2 : List (Nat × Str)) (hn : r.run ⟨q2, y, c2⟩ = []) : r.run ⟨q, y, c⟩ = [] := by
  have := h ⟨q, y, c⟩ ⟨q2, y, c2⟩ rfl
  rw [hn] at this
  exact List.forall₂_nil_right_iff.mp this

theorem run_nil_of_execFrom_none (r : Re) (x : Str) :
    ∀ pos, execFrom r pos x = none →
      ∀ pre y, x = pre ++ y → r.run ⟨pos + pre.length, y, []⟩ = [] := by
  induction x with
  | nil =>
    intro pos h pre y hxy
    have hp : pre = [] := (List.append_eq_nil.mp hxy.symm).1
    have hy : y = [] := (List.append_eq_nil.mp hxy.symm).2
    rw [hp, hy]
    simp only [execFrom, Option.map_eq_none'] at h
    cases hr : r.run ⟨pos, [], []⟩ with
    | nil => exact hr
    | cons t ts => rw [hr] at h; simp at h
  | cons a as ih =>
    intro pos h pre y hxy
    cases hr : r.run ⟨pos, a :: as, []⟩ with
    | cons t ts => simp [execFrom, hr] at h
    | nil =>
      rw [execFrom_of_nil r pos a as hr] at h
      cases pre with
      | nil =>
        rw [List.nil_append] at hxy
        rw [← hxy]
        exact hr
      | cons b bs =>
        have hbs : as = bs ++ y := (List.cons.inj hxy).2
        have := ih (pos + 1) h bs y hbs
        rw [List.length_cons, ← Nat.add_assoc, Nat.add_right_comm]
        exact this

/-- A text in which the pattern `REFERENCES t(d)` has no match gives no match
of it at any of its places, whatever the index and the captures. -/
theorem referencesTail_nil_of_none (rest : Str) (h : reMatch referencesTail rest = none)
    (pre y : Str) (hxy : rest = pre ++ y) (q : Nat) (c : List (Nat × Str)) :
    referencesTail.run ⟨q, y, c⟩ = [] :=
  run_nil_of_restOnly _ restOnly_referencesTail _ _ _ _ _
    (run_nil_of_execFrom_none referencesTail rest 0 h pre y hxy)

/-! ## Where the tail `REFERENCES t(d)` can match -/

theorem ciEq_word (a x : Char) (h : ciEq a x = true) (ha : isWord a.toUpper = true) :
    isWord x = true := by
  by_cases hx : x.toNat ≥ 97 ∧ x.toNat ≤ 122
  · simp only [isWord, Bool.or_eq_true, Bool.and_eq_true, decide_eq_true_eq, beq_iff_eq]
    omega
  · have hxu : x.toUpper = x := by
      unfold Char.toUpper
      simp [hx]
    simp only [ciEq, beq_iff_eq] at h
    rw [← hxu, h]
    exact ha

theorem ciPrefixOf_split_word (w x : Str) (hw : ∀ a ∈ w, isWord a.toUpper = true)
    (h : ciPrefixOf w x = true) :
    ∃ u y, x = u ++ y ∧ u.length = w.length ∧ ∀ a ∈ u, isWord a = true := by
  induction w generalizing x with
  | nil => exact ⟨[], x, rfl, rfl, fun a ha => absurd ha (List.not_mem_nil _)⟩
  | cons a as ih =>
    cases x with
    | nil => simp [ciPrefixOf] at h
    | cons b bs =>
      simp only [ciPrefixOf, Bool.and_eq_true] at h
      obtain ⟨u, y, h1, h2, h3⟩ := ih bs (fun z hz => hw z (List.mem_cons_of_mem _ hz)) h.2
      refine ⟨b :: u, y, by rw [h1]; rfl, by simp [h2], ?_⟩
      intro z hz
      rcases List.mem_cons.mp hz with e | e
      · rw [e]
        exact ciEq_word a b h.1 (hw a (List.mem_cons_self _ _))
      · exact h3 z e

/-- A match of the `REFERENCES` tail begins with ten letters followed by a
white space. -/
theorem referencesTail_letters (s : MState) (h : referencesTail.run s ≠ []) :
    ∃ u sp v, s.rest = u ++ sp :: v ∧ u.length = 10 ∧ (∀ a ∈ u, isWord a = true) ∧
      isSpace sp = true := by
  have e : referencesTail = Re.seq (Re.stri "REFERENCES") (Re.seq (Re.seq (.cls isSpace)
      (.star isSpace)) (Re.seq (quotedWord 2) (Re.seq sp0 (Re.seq (Re.str "(")
        (Re.seq (quotedWord 3) (Re.seq (Re.str ")") .eps)))))) := rfl
  rw [e] at h
  obtain ⟨t, ht⟩ := List.exists_mem_of_ne_nil _ h
  obtain ⟨u1, hu1, ht1⟩ := (mem_run_seq _ _ s t).mp ht
  obtain ⟨u2, hu2, _⟩ := (mem_run_seq _ _ u1 t).mp ht1
  obtain ⟨u3, hu3, _⟩ := (mem_run_seq _ _ u1 u2).mp hu2
  rw [stri_run] at hu1
  by_cases hp : ciPrefixOf "REFERENCES".toList s.rest = true
  · simp only [hp, if_true, List.mem_singleton] at hu1
    obtain ⟨u, y, h1, h2, h3⟩ := ciPrefixOf_split_word _ s.rest (by decide) hp
    have hrest : u1.rest = y := by
      rw [hu1]
      show List.drop ("REFERENCES".toList).length s.rest = y
      rw [h1, ← h2, List.drop_left]
    cases hy : y with
    | nil => rw [hy] at hrest; simp [Re.run, hrest] at hu3
    | cons sp v =>
      rw [hy] at hrest
      simp only [Re.run, hrest] at hu3
      by_cases hsp : isSpace sp = true
      · exact ⟨u, sp, v, by rw [h1, hy], h2, h3, hsp⟩
      · simp [hsp] at hu3
  · rw [if_neg hp] at hu1
    exact absurd hu1 (List.not_mem_nil _)

/-- No match of the tail at a text whose leading letters, digits and
underscores end at a character that is no white space. -/
theorem referencesTail_nil_word (ws z : Str) (x : Char) (q : Nat) (c : List (Nat × Str))
    (hws : ∀ a ∈ ws, isWord a = true) (hx : isWord x = false) (hxs : isSpace x = false) :
    referencesTail.run ⟨q, ws ++ x :: z, c⟩ = [] := by
  cases hrun : referencesTail.run ⟨q, ws ++ x :: z, c⟩ with
  | nil => rfl
  | cons t ts =>
    exfalso
    obtain ⟨u, sp, v, h1, _, h3, h4⟩ := referencesTail_letters ⟨q, ws ++ x :: z, c⟩
      (by rw [hrun]; simp)
    have h1 : ws ++ x :: z = u ++ sp :: v := h1
    rcases List.append_eq_append_iff.mp h1 with ⟨a2, hu, hz⟩ | ⟨c2, hw, hz⟩
    · cases a2 with
      | nil =>
        rw [List.nil_append] at hz
        have : x = sp := (List.cons.inj hz).1
        rw [this, h4] at hxs
        exact absurd hxs (by decide)
      | cons b bs =>
        have : x = b := (List.cons.inj hz).1
        have hb : b ∈ u := by rw [hu]; exact List.mem_append_right _ (List.mem_cons_self _ _)
        rw [this, h3 b hb] at hx
        exact absurd hx (by decide)
    · cases c2 with
      | nil =>
        rw [List.nil_append] at hz
        have : sp = x := (List.cons.inj hz).1
        rw [← this, h4] at hxs
        exact absurd hxs (by decide)
      | cons b bs =>
        have : sp = b := (List.cons.inj hz).1
        have hb : b ∈ ws := by rw [hw]; exact List.mem_append_right _ (List.mem_cons_self _ _)
        have hsb := word_not_space b (hws b hb)
        rw [← this, h4] at hsb
        exact absurd hsb (by decide)

/-- No match of the tail at a text with fewer than ten characters before a
character that is no letter, digit or underscore. -/
theorem referencesTail_nil_short (ws z : Str) (x : Char) (q : Nat) (c : List (Nat × Str))
    (hlen : ws.length < 10) (hx : isWord x = false) :
    referencesTail.run ⟨q, ws ++ x :: z, c⟩ = [] := by
  cases hrun : referencesTail.run ⟨q, ws ++ x :: z, c⟩ with
  | nil => rfl
  | cons t ts =>
    exfalso
    obtain ⟨u, sp, v, h1, h2, h3, _⟩ := referencesTail_letters ⟨q, ws ++ x :: z, c⟩
      (by rw [hrun]; simp)
    have h1 : ws ++ x :: z = u ++ sp :: v := h1
    rcases List.append_eq_append_iff.mp h1 with ⟨a2, hu, hz⟩ | ⟨c2, hw, _⟩
    · cases a2 with
      | nil =>
        rw [List.append_nil] at hu
        rw [hu] at h2
        omega
      | cons b bs =>
        have : x = b := (List.cons.inj hz).1
        have hb : b ∈ u := by rw [hu]; exact List.mem_append_right _ (List.mem_cons_self _ _)
        rw [this, h3 b hb] at hx
        exact absurd hx (by decide)
    · rw [hw, List.length_append, h2] at hlen
      omega

/-- In the text `REFERENCES t(d)` followed by `rest`, where the tail pattern
has no match in `rest`, the tail matches at the start and nowhere later. -/
theorem referencesTail_later_nil (t d rest : Str) (c : List (Nat × Str)) (ht : IsIdent t)
    (hd : IsIdent d) (hrest : reMatch referencesTail rest = none) :
    ∀ b1 b2 q,
      "REFERENCES".toList ++ (" ".toList ++ (t ++ ("(".toList ++ (d ++
        (")".toList ++ rest))))) = b1 ++ b2 →
      b1 ≠ [] → (Re.seq referencesTail .eps).run ⟨q, b2, c⟩ = [] := by
  intro b1 b2 q hsplit hne
  have hnil : referencesTail.run ⟨q, b2, c⟩ = [] := by
    rcases List.append_eq_append_iff.mp hsplit with ⟨a1, _, h1⟩ | ⟨c1, hR, h1⟩
    · -- `b2` begins at the blank or after it
      cases a1 with
      | nil =>
        rw [List.nil_append] at h1
        rw [← h1]
        exact referencesTail_nil_short [] _ ' ' q c (by decide) (by decide)
      | cons x1 a2 =>
        have h2 : t ++ ("(".toList ++ (d ++ (")".toList ++ rest))) = a2 ++ b2 :=
          (List.cons.inj h1).2
        rcases List.append_eq_append_iff.mp h2 with ⟨a3, _, h3⟩ | ⟨c3, ht3, h3⟩
        · cases a3 with
          | nil =>
            rw [List.nil_append] at h3
            rw [← h3]
            exact referencesTail_nil_word [] _ '(' q c (by simp) (by decide) (by decide)
          | cons x3 a4 =>
            have h4 : d ++ (")".toList ++ rest) = a4 ++ b2 := (List.cons.inj h3).2
            rcases List.append_eq_append_iff.mp h4 with ⟨a5, _, h5⟩ | ⟨c5, hd5, h5⟩
            · cases a5 with
              | nil =>
                rw [List.nil_append] at h5
                rw [← h5]
                exact referencesTail_nil_word [] _ ')' q c (by simp) (by decide) (by decide)
              | cons x5 a6 =>
                have h6 : rest = a6 ++ b2 := (List.cons.inj h5).2
                exact referencesTail_nil_of_none rest hrest a6 b2 h6 q c
            · rw [h5]
              exact referencesTail_nil_word c5 _ ')' q c
                (fun a ha => hd.2 a (by rw [hd5]; exact List.mem_append_right _ ha))
                (by decide) (by decide)
        · rw [h3]
          exact referencesTail_nil_word c3 _ '(' q c
            (fun a ha => ht.2 a (by rw [ht3]; exact List.mem_append_right _ ha))
            (by decide) (by decide)
    · -- `b2` begins inside the word `REFERENCES`
      rw [h1]
      have hlen : c1.length < 10 := by
        have := congrArg List.length hR
        rw [List.length_append] at this
        have h10 : ("REFERENCES".toList).length = 10 := rfl
        have hpos : 0 < b1.length := List.length_pos.mpr hne
        omega
      exact referencesTail_nil_short c1 _ ' ' q c hlen (by decide)
  rw [run_seq, hnil]
  rfl

theorem fkInlineLine_pieces (c type t d rest : Str) :
    fkInlineLine c type t d rest =
      c ++ (" ".toList ++ ((type ++ " ".toList) ++ ("REFERENCES".toList ++ (" ".toList ++
        (t ++ ("(".toList ++ (d ++ (")".toList ++ rest)))))))) := by
  simp only [fkInlineLine, String.toList, List.append_assoc, List.cons_append,
    List.nil_append]

theorem head_dropWhile_not (p : Char → Bool) (l : Str) :
    ∀ a, (l.dropWhile p).head? = some a → p a = false := by
  induction l with
  | nil => intro a ha; simp at ha
  | cons b bs ih =>
    intro a ha
    by_cases hb : p b = true
    · rw [List.dropWhile_cons_of_pos hb] at ha
      exact ih a ha
    · rw [List.dropWhile_cons_of_neg hb] at ha
      simp only [List.head?_cons, Option.some.injEq] at ha
      rw [← ha]
      simpa using hb

/-- The part `\s+.*` of the inline pattern followed by `k`, on a blank, a text
`m` without line terminator and a text `b` that begins with no white space:
the white space at the start of `m` goes to `\s+`, and `.*` gives way until
it reaches `b`, when `k` first matches at `b` and nowhere later in `b`. -/
theorem leads_blank_dots (k : Re) (m b z : Str) (c c2 : List (Nat × Str))
    (hm : ∀ a ∈ m, isDot a = true) (hb : ∀ a, b.head? = some a → isSpace a = false)
    (hk : Leads k b c z c2)
    (hlater : ∀ b1 b2 q, b = b1 ++ b2 → b1 ≠ [] → k.run ⟨q, b2, c⟩ = []) :
    Leads (Re.seq sp1 (Re.seq (.star isDot) k)) (" ".toList ++ (m ++ b)) c z c2 := by
  have hsplit : " ".toList ++ (m ++ b) =
      (" ".toList ++ m.takeWhile isSpace) ++ (m.dropWhile isSpace ++ b) := by
    rw [List.append_assoc, ← List.append_assoc (m.takeWhile isSpace),
      List.takeWhile_append_dropWhile]
  rw [hsplit]
  refine leads_seq _ _ _ _ _ _ _ _ (leads_sp1 _ _ _ (by simp [String.toList]) ?_ ?_) ?_
  · intro a ha
    rcases List.mem_append.mp ha with h | h
    · simp only [String.toList, List.mem_singleton] at h
      rw [h]; decide
    · exact List.mem_takeWhile_imp h
  · intro a ha
    cases hd : m.dropWhile isSpace with
    | nil =>
      rw [hd, List.nil_append] at ha
      exact hb a ha
    | cons x xs =>
      rw [hd] at ha
      simp only [List.cons_append, List.head?_cons, Option.some.injEq] at ha
      exact head_dropWhile_not isSpace m a (by rw [hd, ← ha]; rfl)
  · refine leads_backtrack isDot k _ b z c c2 ?_ hk hlater
    intro a ha
    refine hm a ?_
    rw [← List.takeWhile_append_dropWhile isSpace m]
    exact List.mem_append_right _ ha

theorem leads_fkInlineBody (c type t d rest : Str) (hc : IsIdent c) (ht : IsIdent t)
    (hd : IsIdent d) (hdot : ∀ a ∈ type, isDot a = true)
    (hrest : reMatch referencesTail rest = none) :
    Leads (Re.seq sp0 (Re.seq (quotedWord 1) (Re.seq sp1 (Re.seq (.star isDot)
        (Re.seq referencesTail .eps)))))
      (fkInlineLine c type t d rest) [] rest [(3, d), (2, t), (1, c)] := by
  rw [fkInlineLine_pieces]
  refine leads_seq _ _ _ _ _ _ _ _ (leads_star isSpace [] _ _ (by simp)
    (ident_head_not_space c _ hc)) ?_
  refine leads_seq _ _ _ _ _ _ _ _ (leads_quotedWord 1 c _ _ hc (by
    intro a ha
    simp only [String.toList, List.cons_append, List.head?_cons, Option.some.injEq] at ha
    rw [← ha]
    decide)) ?_
  refine leads_blank_dots _ _ _ _ _ _ ?_ ?_
    (leads_seq _ _ _ _ _ _ _ _ (leads_referencesTail t d rest _ ht hd) (leads_eps _ _))
    (referencesTail_later_nil t d rest _ ht hd hrest)
  · intro a ha
    rcases List.mem_append.mp ha with h | h
    · exact hdot a h
    · simp only [String.toList, List.mem_singleton] at h
      rw [h]; decide
  · intro a ha
    simp only [String.toList, List.cons_append, List.head?_cons, Option.some.injEq] at ha
    rw [← ha]
    decide

theorem reMatch_bol_of_leads (r : Re) (x y : Str) (caps : List (Nat × Str))
    (h : Leads r x [] y caps) : ∃ m, reMatch (Re.seq .bol r) x = some m ∧ m.caps = caps := by
  obtain ⟨p, hp⟩ := h 0
  have hrun : ((Re.seq .bol r).run ⟨0, x, []⟩).head? = some ⟨p, y, caps⟩ := by
    rw [run_seq]
    simp only [Re.run, if_true, List.flatMap_cons, List.flatMap_nil, List.append_nil]
    exact hp
  exact ⟨⟨0, p, caps⟩, execFrom_of_head _ 0 x _ hrun, rfl⟩

theorem fkStep_inlineLine (T c type t d rest : Str) (hc : IsIdent c) (ht : IsIdent t)
    (hd : IsIdent d) (hdot : ∀ a ∈ type, isDot a = true)
    (hrest : reMatch referencesTail rest = none)
    (hno : reMatch fkTableRe (fkInlineLine c type t d rest) = none) :
    fkStep T (fkInlineLine c type t d rest) = [⟨T, some c, some t, d⟩] := by
  obtain ⟨m, hm, hcaps⟩ := reMatch_bol_of_leads _ _ _ _
    (leads_fkInlineBody c type t d rest hc ht hd hdot hrest)
  have hm2 : reMatch fkInlineRe (fkInlineLine c type t d rest) = some m := hm
  exact fkStep_of_caps T _ c t d m (by simp [fkMatch, hno, hm2, Option.orElse]) hcaps hd.1

theorem skipLine_tableLine (c t d rest : Str) : skipLine (fkTableLine c t d rest) = false := by
  simp [skipLine, fkTableLine_pieces, String.toList, List.isPrefixOf]

theorem skipLine_inlineLine (c type t d rest : Str) (hc : IsIdent c) :
    skipLine (fkInlineLine c type t d rest) = false := by
  obtain ⟨hne, hword⟩ := hc
  cases c with
  | nil => exact absurd rfl hne
  | cons x xs =>
    have hx := hword x (List.mem_cons_self _ _)
    have h1 : ¬ '-' = x := fun e => by rw [← e] at hx; exact absurd hx (by decide)
    have h2 : ¬ '/' = x := fun e => by rw [← e] at hx; exact absurd hx (by decide)
    simp [skipLine, fkInlineLine, String.toList, List.isPrefixOf, h1, h2]

theorem processLine_relationships (st : ExState) (T line : Str)
    (hcur : st.currentTable = some T) (hT : T ≠ [])
    (hnc : reMatch createRe (trim line) = none) (hs : skipLine (trim line) = false) :
    (processLine st line).relationships = st.relationships ++ fkStep T (trim line) := by
  have hkey : createdKey line = none := by simp [createdKey, hs, hnc]
  obtain ⟨_, _, h3⟩ := processLine_in_block st line T hcur hT hkey
  rw [h3]
  simp [blockLineRels, hs]


/-! ## Lines on which the table-level foreign-key pattern cannot match -/

theorem run_suffix (r : Re) : ∀ s t, t ∈ r.run s → ∃ u, s.rest = u ++ t.rest := by
  induction r with
  | eps =>
    intro s t h
    simp only [Re.run, List.mem_singleton] at h
    exact ⟨[], by rw [h]; rfl⟩
  | bol =>
    intro s t h
    simp only [Re.run] at h
    split at h
    · simp only [List.mem_singleton] at h
      exact ⟨[], by rw [h]; rfl⟩
    · exact absurd h (List.not_mem_nil _)
  | eol =>
    intro s t h
    simp only [Re.run] at h
    split at h
    · simp only [List.mem_singleton] at h
      exact ⟨[], by rw [h]; rfl⟩
    · exact absurd h (List.not_mem_nil _)
  | cls p =>
    intro s t h
    cases hr : s.rest with
    | nil => simp [Re.run, hr] at h
    | cons c cs =>
      simp only [Re.run, hr] at h
      by_cases hp : p c = true
      · simp only [hp, if_true, List.mem_singleton] at h
        exact ⟨[c], by rw [h]; rfl⟩
      · simp [hp] at h
  | star p =>
    intro s t h
    rw [run_star] at h
    obtain ⟨run, h1, _, _, _⟩ := mem_starRuns _ _ _ _ _ h
    exact ⟨run, h1⟩
  | seq a b iha ihb =>
    intro s t h
    obtain ⟨u, hu, ht⟩ := (mem_run_seq a b s t).mp h
    obtain ⟨x, hx⟩ := iha s u hu
    obtain ⟨y, hy⟩ := ihb u t ht
    exact ⟨x ++ y, by rw [hx, hy, List.append_assoc]⟩
  | alt a b iha ihb =>
    intro s t h
    rw [run_alt] at h
    rcases List.mem_append.mp h with h | h
    · exact iha s t h
    · exact ihb s t h
  | opt a iha =>
    intro s t h
    simp only [Re.run, List.mem_append, List.mem_singleton] at h
    rcases h with h | h
    · exact iha s t h
    · exact ⟨[], by rw [h]; rfl⟩
  | grp n a iha =>
    intro s t h
    simp only [Re.run, List.mem_map] at h
    obtain ⟨v, hv, hvt⟩ := h
    obtain ⟨x, hx⟩ := iha s v hv
    exact ⟨x, by rw [hx, ← hvt]⟩

theorem peel_seq (a b : Re) (s t : MState) (h : t ∈ (Re.seq a b).run s) :
    ∃ u, (∃ pre, s.rest = pre ++ u.rest) ∧ t ∈ b.run u := by
  obtain ⟨u, hu, ht⟩ := (mem_run_seq a b s t).mp h
  exact ⟨u, run_suffix a s u hu, ht⟩

/-- A match of the table-level foreign-key pattern contains a closing
parenthesis followed by white space. -/
theorem fkTableRe_needs_close (s t : MState) (h : t ∈ fkTableRe.run s) :
    ∃ a sp b, s.rest = a ++ ')' :: sp :: b ∧ isSpace sp = true := by
  have e : fkTableRe = Re.seq (Re.stri "FOREIGN") (Re.seq sp1 (Re.seq (Re.stri "KEY")
      (Re.seq sp0 (Re.seq (Re.str "(") (Re.seq (quotedWord 1) (Re.seq (Re.str ")")
        (Re.seq (Re.seq (.cls isSpace) (.star isSpace))
          (Re.seq referencesTail .eps)))))))) := rfl
  rw [e] at h
  obtain ⟨u1, ⟨p1, e1⟩, h1⟩ := peel_seq _ _ s t h
  obtain ⟨u2, ⟨p2, e2⟩, h2⟩ := peel_seq _ _ u1 t h1
  obtain ⟨u3, ⟨p3, e3⟩, h3⟩ := peel_seq _ _ u2 t h2
  obtain ⟨u4, ⟨p4, e4⟩, h4⟩ := peel_seq _ _ u3 t h3
  obtain ⟨u5, ⟨p5, e5⟩, h5⟩ := peel_seq _ _ u4 t h4
  obtain ⟨u6, ⟨p6, e6⟩, h6⟩ := peel_seq _ _ u5 t h5
  rw [str_seq_run] at h6
  by_cases hp : (")".toList).isPrefixOf u6.rest = true
  · rw [if_pos hp] at h6
    obtain ⟨y, hy⟩ := List.isPrefixOf_iff_prefix.mp hp
    obtain ⟨u7, hu7, _⟩ := (mem_run_seq _ _ _ t).mp h6
    obtain ⟨u8, hu8, _⟩ := (mem_run_seq _ _ _ u7).mp hu7
    have hrest : List.drop (")".toList).length u6.rest = y := by
      rw [← hy, List.drop_left]
    rw [hrest] at hu8
    cases hy2 : y with
    | nil =>
      rw [hy2] at hu8
      simp [Re.run] at hu8
    | cons sp v =>
      rw [hy2] at hu8
      simp only [Re.run] at hu8
      by_cases hsp : isSpace sp = true
      · refine ⟨p1 ++ p2 ++ p3 ++ p4 ++ p5 ++ p6, sp, v, ?_, hsp⟩
        rw [e1, e2, e3, e4, e5, e6, ← hy, hy2]
        simp [String.toList]
      · simp [hsp] at hu8
  · rw [if_neg hp] at h6
    exact absurd h6 (List.not_mem_nil _)

theorem execFrom_none (r : Re) (x : Str) (pos : Nat)
    (h : ∀ q pre y, x = pre ++ y → r.run ⟨q, y, []⟩ = []) : execFrom r pos x = none := by
  induction x generalizing pos with
  | nil => simp [execFrom, h pos [] [] rfl]
  | cons c cs ih =>
    rw [execFrom_of_nil r pos c cs (h pos [] (c :: cs) rfl)]
    exact ih (pos + 1) fun q pre y hy => h q (c :: pre) y (by rw [hy]; rfl)

/-- An inline line whose type has no closing parenthesis and whose ending has
no white space carries no table-level foreign-key constraint. -/
theorem fkTableRe_none_inlineLine (c type t d rest : Str) (hc : IsIdent c) (ht : IsIdent t)
    (hd : IsIdent d) (htype : ∀ a ∈ type, a ≠ ')')
    (hrest : ∀ a ∈ rest, isSpace a = false) :
    reMatch fkTableRe (fkInlineLine c type t d rest) = none := by
  apply execFrom_none
  intro q pre y hy
  cases hrun : fkTableRe.run ⟨q, y, []⟩ with
  | nil => rfl
  | cons s0 tl =>
    exfalso
    obtain ⟨a, sp, b, hab, hsp⟩ := fkTableRe_needs_close ⟨q, y, []⟩ s0
      (by rw [hrun]; exact List.mem_cons_self _ _)
    have hy2 : y = a ++ ')' :: sp :: b := hab
    have hword : ∀ w : Str, IsIdent w → ∀ z ∈ w, z ≠ ')' := by
      intro w hw z hz e
      have := hw.2 z hz
      rw [e] at this
      exact absurd this (by decide)
    have hP : ∀ z ∈ c ++ " ".toList ++ type ++ " REFERENCES ".toList ++ t ++ "(".toList ++ d,
        z ≠ ')' := by
      intro z hz
      simp only [List.mem_append] at hz
      rcases hz with (((((hz | hz) | hz) | hz) | hz) | hz) | hz
      · exact hword c hc z hz
      · simp only [String.toList, List.mem_singleton] at hz
        rw [hz]; decide
      · exact htype z hz
      · intro e
        rw [e] at hz
        exact absurd hz (by decide)
      · exact hword t ht z hz
      · simp only [String.toList, List.mem_singleton] at hz
        rw [hz]; decide
      · exact hword d hd z hz
    have hQ : ∀ z ∈ ")".toList ++ rest, isSpace z = false := by
      intro z hz
      rcases List.mem_append.mp hz with hz | hz
      · simp only [String.toList, List.mem_singleton] at hz
        rw [hz]; decide
      · exact hrest z hz
    have hline : (c ++ " ".toList ++ type ++ " REFERENCES ".toList ++ t ++ "(".toList ++ d) ++
        (")".toList ++ rest) = (pre ++ a) ++ (')' :: sp :: b) := by
      have : fkInlineLine c type t d rest = pre ++ y := hy
      rw [hy2] at this
      rw [List.append_assoc pre, ← this]
      simp only [fkInlineLine, List.append_assoc]
    have hspB : sp ∈ ')' :: sp :: b := List.mem_cons_of_mem _ (List.mem_cons_self _ _)
    rcases List.append_eq_append_iff.mp hline with ⟨a2, _, h2⟩ | ⟨c2, h1, h2⟩
    · have hm : sp ∈ ")".toList ++ rest := by
        rw [h2]
        exact List.mem_append_right _ hspB
      have := hQ sp hm
      rw [hsp] at this
      exact absurd this (by decide)
    · cases c2 with
      | nil =>
        rw [List.nil_append] at h2
        have hm : sp ∈ ")".toList ++ rest := by
          rw [← h2]
          exact hspB
        have := hQ sp hm
        rw [hsp] at this
        exact absurd this (by decide)
      | cons z zs =>
        have hz : z = ')' := by
          have hz0 : ')' :: sp :: b = z :: (zs ++ (")".toList ++ rest)) := h2
          exact (List.cons.inj hz0).1.symm
        have hm : z ∈ c ++ " ".toList ++ type ++ " REFERENCES ".toList ++ t ++ "(".toList ++
            d := by
          rw [h1]
          exact List.mem_append_right _ (List.mem_cons_self _ _)
        exact hP z hm hz


/-! ## Foreign-key lines and the relationships section -/


/-- A text in which the word `REFERENCES` does not occur, in either case, has
no match of the tail `REFERENCES t(d)`. -/
theorem referencesTail_none_of_word_absent (rest : Str)
    (h : ∀ pre y, rest = pre ++ y → ciPrefixOf "REFERENCES".toList y = false) :
    reMatch referencesTail rest = none := by
  apply execFrom_none
  intro q pre y hy
  have e : referencesTail = Re.seq (Re.stri "REFERENCES") (Re.seq sp1 (Re.seq (quotedWord 2)
      (Re.seq sp0 (Re.seq (Re.str "(") (Re.seq (quotedWord 3)
        (Re.seq (Re.str ")") .eps)))))) := rfl
  rw [e, run_seq, stri_run]
  have hp : ciPrefixOf "REFERENCES".toList y = false := h pre y hy
  simp only [hp, Bool.false_eq_true, if_false, List.flatMap_nil]

/-- A line in which the word `FOREIGN` does not occur, in either case, holds
no table-level foreign-key constraint. -/
theorem fkTableRe_none_of_word_absent (x : Str)
    (h : ∀ pre y, x = pre ++ y → ciPrefixOf "FOREIGN".toList y = false) :
    reMatch fkTableRe x = none := by
  apply execFrom_none
  intro q pre y hy
  have e : fkTableRe = Re.seq (Re.stri "FOREIGN") (Re.seq sp1 (Re.seq (Re.stri "KEY")
      (Re.seq sp0 (Re.seq (Re.str "(") (Re.seq (quotedWord 1) (Re.seq (Re.str ")")
        (Re.seq sp1 (Re.seq referencesTail .eps)))))))) := rfl
  rw [e, run_seq, stri_run]
  have hp : ciPrefixOf "FOREIGN".toList y = false := h pre y hy
  simp only [hp, Bool.false_eq_true, if_false, List.flatMap_nil]

/-- A text without white space has no match of the tail `REFERENCES t(d)`. -/
theorem referencesTail_none_of_no_space (rest : Str) (h : ∀ a ∈ rest, isSpace a = false) :
    reMatch referencesTail rest = none := by
  apply execFrom_none
  intro q pre y hy
  cases hrun : referencesTail.run ⟨q, y, []⟩ with
  | nil => rfl
  | cons t ts =>
    exfalso
    obtain ⟨u, sp, v, h1, _, _, h4⟩ := referencesTail_letters ⟨q, y, []⟩ (by rw [hrun]; simp)
    have h1 : y = u ++ sp :: v := h1
    have hm : sp ∈ rest := by
      rw [hy, h1]
      exact List.mem_append_right _ (List.mem_append_right _ (List.mem_cons_self _ _))
    rw [h sp hm] at h4
    exact absurd h4 (by decide)

/-- A line that holds a table-level constraint after a column records the
constraint alone: on `a INT, FOREIGN KEY (p) REFERENCES q(r)`, which reads
`c <type> REFERENCES t(d)` with `c = a` and the type `INT, FOREIGN KEY (p)`,
the relationship pushed is `(t, p, q, r)`. -/
theorem table_level_clause_wins :
    "a INT, FOREIGN KEY (p) REFERENCES q(r)".toList =
      fkInlineLine "a".toList "INT, FOREIGN KEY (p)".toList "q".toList "r".toList [] ∧
    fkStep "t".toList "a INT, FOREIGN KEY (p) REFERENCES q(r)".toList =
      [⟨"t".toList, some "p".toList, some "q".toList, "r".toList⟩] := by
  decide!

/-- C17, as the claim states it: inside the block of table `t` the line
`a INT REFERENCES b(c), d INT REFERENCES e(f)` has the form
`c <type> REFERENCES t(d)` with the column `a`, the type `INT` and the target
`b(c)`, and the relationship appended is `(t, a, e, f)`, not `(t, a, b, c)`;
the summary lists `t.a -> e.f`. -/
theorem second_references_clause_wins :
    trim "  a INT REFERENCES b(c), d INT REFERENCES e(f)".toList =
      fkInlineLine "a".toList "INT".toList "b".toList "c".toList
        ", d INT REFERENCES e(f)".toList ∧
    (processLine initState "CREATE TABLE t (".toList).currentTable = some "t".toList ∧
    (processLine (processLine initState "CREATE TABLE t (".toList)
        "  a INT REFERENCES b(c), d INT REFERENCES e(f)".toList).relationships =
      (processLine initState "CREATE TABLE t (".toList).relationships ++
        [⟨"t".toList, some "a".toList, some "e".toList, "f".toList⟩] ∧
    (processLine (processLine initState "CREATE TABLE t (".toList)
        "  a INT REFERENCES b(c), d INT REFERENCES e(f)".toList).relationships ≠
      (processLine initState "CREATE TABLE t (".toList).relationships ++
        [⟨"t".toList, some "a".toList, some "b".toList, "c".toList⟩] ∧
    (extractSchemaSummary
        "CREATE TABLE t (\n  a INT REFERENCES b(c), d INT REFERENCES e(f)\n);".toList).schemaSummary =
      ("AVAILABLE TABLE NAMES (use ONLY these exact names): t\n\n" ++
        "Available Tables and Columns:\n\nTable: t\n  Columns: a\n" ++
        "\n\nTable Relationships:\n\nt.a -> e.f\n  (Join: t.a = e.f)\n").toList := by
  decide!

/-- C17: inside the block of table `T`, on a line that is no table-creation
line, a trimmed text that begins with `FOREIGN KEY (c) REFERENCES t(d)`
(whatever follows it) pushes exactly the relationship `(T, c, t, d)`; so does
a trimmed text `c <type> REFERENCES t(d)` followed by a text in which no
further clause `REFERENCES t2(d2)` occurs, with a type that has no line
terminator (it may hold such clauses itself), on a line without a table-level
constraint; both whether or not a table `t` exists.  The summary ends with the tables part when no relationship
was extracted and otherwise with the section `Table Relationships:` listing
the relationships in the order of extraction, each as `T.c -> t.d` followed
by `(Join: T.c = t.d)`. -/
theorem foreign_key_line_recorded :
    (∀ (st : ExState) (T line c t d rest : Str),
      st.currentTable = some T → T ≠ [] → reMatch createRe (trim line) = none →
      IsIdent c → IsIdent t → IsIdent d → trim line = fkTableLine c t d rest →
      (processLine st line).relationships =
        st.relationships ++ [⟨T, some c, some t, d⟩]) ∧
    (∀ (st : ExState) (T line c type t d rest : Str),
      st.currentTable = some T → T ≠ [] → reMatch createRe (trim line) = none →
      reMatch fkTableRe (trim line) = none →
      IsIdent c → IsIdent t → IsIdent d →
      (∀ a ∈ type, isDot a = true) →
      reMatch referencesTail rest = none →
      trim line = fkInlineLine c type t d rest →
      (processLine st line).relationships =
        st.relationships ++ [⟨T, some c, some t, d⟩]) ∧
    (∀ schemaText : Str, (trim schemaText).isEmpty = false →
      ((extractModel schemaText).relationships = [] →
        (extractSchemaSummary schemaText).schemaSummary =
          summaryHeader (tableNamesOf (extractModel schemaText)) ++
            renderTables (extractModel schemaText)) ∧
      ((extractModel schemaText).relationships ≠ [] →
        (extractSchemaSummary schemaText).schemaSummary =
          summaryHeader (tableNamesOf (extractModel schemaText)) ++
            renderTables (extractModel schemaText) ++
            ("\n\nTable Relationships:\n".toList ++
              ((extractModel schemaText).relationships.map renderRelationship).flatten))) ∧
    (∀ T c t d : Str,
      renderRelationship ⟨T, some c, some t, d⟩ =
        "\n".toList ++ T ++ ".".toList ++ c ++ " -> ".toList ++ t ++ ".".toList ++ d ++
          "\n  (Join: ".toList ++ T ++ ".".toList ++ c ++ " = ".toList ++ t ++ ".".toList ++
          d ++ ")\n".toList) := by
  refine ⟨?_, ?_, ?_, fun T c t d => rfl⟩
  · intro st T line c t d rest hcur hT hnc hc ht hd hline
    rw [processLine_relationships st T line hcur hT hnc
      (by rw [hline]; exact skipLine_tableLine c t d rest), hline,
      fkStep_tableLine T c t d rest hc ht hd]
  · intro st T line c type t d rest hcur hT hnc hno hc ht hd hdot hrest hline
    rw [processLine_relationships st T line hcur hT hnc
      (by rw [hline]; exact skipLine_inlineLine c type t d rest hc), hline,
      fkStep_inlineLine T c type t d rest hc ht hd hdot hrest (hline ▸ hno)]
  · intro schemaText hne
    have hnil : schemaText.isEmpty = false := by
      cases hs : schemaText.isEmpty with
      | false => rfl
      | true => rw [trim_nil_of_isEmpty schemaText hs] at hne; exact absurd hne (by decide)
    constructor
    · intro hr
      simp [extractSchemaSummary, hnil, hne, renderSummary, renderRelationships, hr]
    · intro hr
      have hlen : ((extractModel schemaText).relationships.length != 0) = true := by
        cases hrel : (extractModel schemaText).relationships with
        | nil => exact absurd hrel hr
        | cons x xs => rfl
      simp only [extractSchemaSummary, hnil, hne, Bool.or_self, Bool.false_eq_true, if_false,
        renderSummary, renderRelationships, hlen, if_true]

theorem foreign_key_line_recorded_witness :
    (processLine (processLine initState "CREATE TABLE orders (".toList)
        "  FOREIGN KEY (user_id) REFERENCES users(id),".toList).relationships =
      (processLine initState "CREATE TABLE orders (".toList).relationships ++
        [⟨"orders".toList, some "user_id".toList, some "users".toList, "id".toList⟩] ∧
    (processLine (processLine initState "CREATE TABLE orders (".toList)
        "  user_id INT REFERENCES users(id) ON DELETE CASCADE,".toList).relationships =
      (processLine initState "CREATE TABLE orders (".toList).relationships ++
        [⟨"orders".toList, some "user_id".toList, some "users".toList, "id".toList⟩] ∧
    (processLine (processLine initState "CREATE TABLE orders (".toList)
        "  a INT REFERENCES b(c), d INT REFERENCES e(f)".toList).relationships =
      (processLine initState "CREATE TABLE orders (".toList).relationships ++
        [⟨"orders".toList, some "a".toList, some "e".toList, "f".toList⟩] :=
  ⟨foreign_key_line_recorded.1 (processLine initState "CREATE TABLE orders (".toList)
      "orders".toList "  FOREIGN KEY (user_id) REFERENCES users(id),".toList
      "user_id".toList "users".toList "id".toList ",".toList
      (by decide!) (by decide) (by decide!) ⟨by decide, by decide⟩ ⟨by decide, by decide⟩
      ⟨by decide, by decide⟩ (by decide!),
    foreign_key_line_recorded.2.1 (processLine initState "CREATE TABLE orders (".toList)
      "orders".toList "  user_id INT REFERENCES users(id) ON DELETE CASCADE,".toList
      "user_id".toList "INT".toList "users".toList "id".toList " ON DELETE CASCADE,".toList
      (by decide!) (by decide) (by decide!) (by decide!)
      ⟨by decide, by decide⟩ ⟨by decide, by decide⟩ ⟨by decide, by decide⟩
      (by decide) (by decide!) (by decide!),
    foreign_key_line_recorded.2.1 (processLine initState "CREATE TABLE orders (".toList)
      "orders".toList "  a INT REFERENCES b(c), d INT REFERENCES e(f)".toList
      "a".toList "INT REFERENCES b(c), d INT".toList "e".toList "f".toList []
      (by decide!) (by decide) (by decide!) (by decide!)
      ⟨by decide, by decide⟩ ⟨by decide, by decide⟩ ⟨by decide, by decide⟩
      (by decide!) (by decide!) (by decide!)⟩
end QueryGenie
